import Mathlib

/-!
Geometry predicates of `src/libslic3r/Geometry.hpp`, the volumes of
`src/slic3r/GUI/3DScene.cpp` and the editing of SLA support points of
`src/slic3r/GUI/Gizmos/GLGizmoSlaSupports.cpp`.

A shallow embedding of the exact orientation predicate `orient`, the polygon
winding test `is_ccw`, the two intersection primitives
`ray_ray_intersection` / `segment_segment_intersection`, the mirroring test
`Transformation::is_left_handed`, the test `is_rotation_ninety_degrees`,
`GLVolume::set_range`, `GLVolumeCollection::get_current_print_zs`,
`GLVolumeCollection::check_outside_state` and the editing operations of
`GLGizmoSlaSupports`, followed by the properties established about them.

* `coord_t` coordinates are integers; the `int64_t` temporaries of `orient`
  are modelled with explicit two's-complement wraparound (`wrap64`).
* `double` arithmetic is taken as exact: over `ℚ`, or over an ordered field
  `K` where the constant `π` or the functions `cos` and `sin` take part (the
  statements are then read in `ℝ`).
* The constants `EPSILON`, `PI` (declared in `libslic3r.h`) and `M_PI` are
  parameters of the functions that use them.
* A polygon is the list of its points; `Simple` states that it does not
  intersect itself, and `shoelace` is twice its signed area.  A part of the
  file proves the orientation theorem for simple polygons: the sign of the
  shoelace sum is the turn at the lexicographically smallest point.
* `chained_path` and `assemble_transform` are declared in `Geometry.hpp` and
  defined in `Geometry.cpp`; their definitions here follow the specification.
* A pointer that may be null is an `Option`; a function that dereferences it
  or reads a vector out of bounds returns `none` there.  The tests
  `BoundingBoxf3::contains` / `intersects` and the extents of the bed are
  parameters of `check_outside_state`.
* The `unsigned int` counter of `delete_selected_points` is a natural number
  reduced modulo `2 ^ 32` at its decrement and increment.
-/

namespace Slic3r
namespace Geometry

/-! ## Definitions -/

/-- Integer point of the slicer (`Point`, coordinates of type `coord_t`). -/
structure Point where
  x : Int
  y : Int
  deriving DecidableEq, Repr

/-- Floating point 2D vector (`Vec2d`), with exact arithmetic. -/
structure Vec2d where
  x : ℚ
  y : ℚ
  deriving DecidableEq

/-- Generic result of an orientation predicate (`enum Orientation`). -/
inductive Orientation where
  | ORIENTATION_CCW
  | ORIENTATION_CW
  | ORIENTATION_COLINEAR
  deriving DecidableEq, Repr

/-- Numeric value of an `Orientation` enumerator: CCW = 1, CW = -1, COLINEAR = 0. -/
def Orientation.toInt : Orientation → Int
  | .ORIENTATION_CCW => 1
  | .ORIENTATION_CW => -1
  | .ORIENTATION_COLINEAR => 0

/-- Value of a mathematical integer stored into an `int64_t` (two's complement wraparound). -/
def wrap64 (n : Int) : Int := (n + 2 ^ 63) % 2 ^ 64 - 2 ^ 63

/-- Multiplication of two `int64_t` values. -/
def mul64 (a b : Int) : Int := wrap64 (a * b)

/-- Subtraction of two `int64_t` values. -/
def sub64 (a b : Int) : Int := wrap64 (a - b)

/-- Addition of two `int64_t` values. -/
def add64 (a b : Int) : Int := wrap64 (a + b)

/-- Temporary `u` of `orient`: `int64_t(b(0)) * int64_t(c(1)) - int64_t(b(1)) * int64_t(c(0))`. -/
def orient_u (b c : Point) : Int :=
  sub64 (mul64 (wrap64 b.x) (wrap64 c.y)) (mul64 (wrap64 b.y) (wrap64 c.x))

/-- Temporary `v` of `orient`: `int64_t(a(0)) * int64_t(c(1)) - int64_t(a(1)) * int64_t(c(0))`. -/
def orient_v (a c : Point) : Int :=
  sub64 (mul64 (wrap64 a.x) (wrap64 c.y)) (mul64 (wrap64 a.y) (wrap64 c.x))

/-- Temporary `w` of `orient`: `int64_t(a(0)) * int64_t(b(1)) - int64_t(a(1)) * int64_t(b(0))`. -/
def orient_w (a b : Point) : Int :=
  sub64 (mul64 (wrap64 a.x) (wrap64 b.y)) (mul64 (wrap64 a.y) (wrap64 b.x))

/-- Temporary `d = u - v + w` of `orient`. -/
def orient_d (a b c : Point) : Int :=
  add64 (sub64 (orient_u b c) (orient_v a c)) (orient_w a b)

/-- Orientation of the three points, `orient(a, b, c)`:
`(d > 0) ? CCW : ((d == 0) ? COLINEAR : CW)`. -/
def orient (a b c : Point) : Orientation :=
  let d := orient_d a b c
  if d > 0 then .ORIENTATION_CCW
  else if d = 0 then .ORIENTATION_COLINEAR
  else .ORIENTATION_CW

/-- The loop of `is_ccw` that finds the lowest lexicographical point: the
iterations `i, i+1, ...` (as many as `fuel`) starting with the current `imin`. -/
def is_ccw_loop (points : List Point) : Nat → Nat → Nat → Nat
  | 0, _, imin => imin
  | fuel + 1, i, imin =>
    let pmin := points.getD imin ⟨0, 0⟩
    let p := points.getD i ⟨0, 0⟩
    is_ccw_loop points fuel (i + 1)
      (if p.x < pmin.x ∨ (p.x = pmin.x ∧ p.y < pmin.y) then i else imin)

/-- Index `imin` after the loop `for (i = 1; i < poly.points.size(); ++ i)` of `is_ccw`. -/
def is_ccw_imin (points : List Point) : Nat :=
  is_ccw_loop points (points.length - 1) 1 0

/-- Index `iPrev` of `is_ccw`: `((imin == 0) ? poly.points.size() : imin) - 1`. -/
def is_ccw_iPrev (points : List Point) (imin : Nat) : Nat :=
  (if imin = 0 then points.length else imin) - 1

/-- Index `iNext` of `is_ccw`: `(imin + 1 == poly.points.size()) ? 0 : imin + 1`. -/
def is_ccw_iNext (points : List Point) (imin : Nat) : Nat :=
  if imin + 1 = points.length then 0 else imin + 1

/-- Orientation `o` of the corner `imin` computed by `is_ccw` (polygons of at least 3 points). -/
def is_ccw_corner (points : List Point) : Orientation :=
  let imin := is_ccw_imin points
  orient (points.getD (is_ccw_iPrev points imin) ⟨0, 0⟩) (points.getD imin ⟨0, 0⟩)
    (points.getD (is_ccw_iNext points imin) ⟨0, 0⟩)

/-- Winding test `is_ccw(poly)` with assertions disabled; the polygon is its list of points.
The `unsigned int` loop counter is an unbounded natural number
(polygons have fewer than `2^32` points). -/
def is_ccw (points : List Point) : Bool :=
  if points.length < 3 then true
  else decide (is_ccw_corner points = .ORIENTATION_CCW)

/-- Intersection of two rays, `ray_ray_intersection(p1, v1, p2, v2, res)`: the returned
flag together with the contents of `res` after the call. -/
def ray_ray_intersection (EPSILON : ℚ) (p1 v1 p2 v2 res : Vec2d) : Bool × Vec2d :=
  let denom := v1.x * v2.y - v2.x * v1.y
  if |denom| < EPSILON then (false, res)
  else
    let t := (v2.x * (p1.y - p2.y) - v2.y * (p1.x - p2.x)) / denom
    (true, ⟨p1.x + t * v1.x, p1.y + t * v1.y⟩)

/-- Intersection of two segments, `segment_segment_intersection(p1, v1, p2, v2, res)`: the
returned flag together with the contents of `res` after the call. -/
def segment_segment_intersection (EPSILON : ℚ) (p1 v1 p2 v2 res : Vec2d) : Bool × Vec2d :=
  let denom := v1.x * v2.y - v2.x * v1.y
  if |denom| < EPSILON then (false, res)
  else
    let s12_x := p1.x - p2.x
    let s12_y := p1.y - p2.y
    let s_numer := v1.x * s12_y - v1.y * s12_x
    -- `if (denom < 0.) { denom_is_positive = true; denom = - denom; s_numer = - s_numer; }`
    let denom_is_positive : Bool := if denom < 0 then true else false
    let denom1 := if denom < 0 then -denom else denom
    let s_numer1 := if denom < 0 then -s_numer else s_numer
    if s_numer1 < 0 then (false, res)
    else
      let t_numer := v2.x * s12_y - v2.y * s12_x
      -- `if (! denom_is_positive) t_numer = - t_numer;`
      let t_numer1 := if !denom_is_positive then -t_numer else t_numer
      if t_numer1 < 0 ∨ s_numer1 > denom1 ∨ t_numer1 > denom1 then (false, res)
      else
        let t := t_numer1 / denom1
        (true, ⟨p1.x + t * v1.x, p1.y + t * v1.y⟩)

/-- The 30 bits + signum limit on the coordinates of a point. -/
def InBound (p : Point) : Prop :=
  -(2 : Int) ^ 30 < p.x ∧ p.x < 2 ^ 30 ∧ -(2 : Int) ^ 30 < p.y ∧ p.y < 2 ^ 30

instance (p : Point) : Decidable (InBound p) := by
  unfold InBound; infer_instance

/-- Exact integer cross product `(b - a) × (c - a)`. -/
def cross (a b c : Point) : Int :=
  (b.x - a.x) * (c.y - a.y) - (b.y - a.y) * (c.x - a.x)

/-- Strict lexicographic order on points, by `x` then `y` (the test of the loop of
`is_ccw`). -/
def lexLt (p q : Point) : Prop := p.x < q.x ∨ (p.x = q.x ∧ p.y < q.y)

/-- Lexicographic order on points, by `x` then `y`. -/
def lexLe (p q : Point) : Prop := p.x < q.x ∨ (p.x = q.x ∧ p.y ≤ q.y)

instance (p q : Point) : Decidable (lexLt p q) := by
  unfold lexLt; infer_instance

instance (p q : Point) : Decidable (lexLe p q) := by
  unfold lexLe; infer_instance

/-- Point number `i` of a polygon. -/
def pt (points : List Point) (i : Nat) : Point := points.getD i ⟨0, 0⟩

/-- Index `i` is the first index below `k` holding the lexicographically smallest point
among the first `k` points. -/
def IsFirstLexMin (points : List Point) (k i : Nat) : Prop :=
  i < k ∧ (∀ j, j < k → lexLe (pt points i) (pt points j))
    ∧ (∀ j, j < i → lexLt (pt points i) (pt points j))

/-- The point `(x, y)` of the plane lies on the closed segment from `a` to `b`. -/
def OnSegment (a b : Point) (x y : ℚ) : Prop :=
  ∃ t : ℚ, 0 ≤ t ∧ t ≤ 1 ∧ x = a.x + t * (b.x - a.x) ∧ y = a.y + t * (b.y - a.y)

/-- A polygon (closed: its last point connects to the first) is simple, that is not
self-intersecting: two different edges have a common point only when they are consecutive,
and then only the vertex they share. -/
def Simple (P : List Point) : Prop :=
  ∀ i j, i < P.length → j < P.length → i ≠ j → ∀ x y : ℚ,
    OnSegment (pt P i) (pt P ((i + 1) % P.length)) x y →
    OnSegment (pt P j) (pt P ((j + 1) % P.length)) x y →
      (j = (i + 1) % P.length ∧ x = (pt P j).x ∧ y = (pt P j).y)
        ∨ (i = (j + 1) % P.length ∧ x = (pt P i).x ∧ y = (pt P i).y)

/-- Twice the signed area of a polygon, by the shoelace formula: the sum over `i` of
`x_i * y_{i+1} - x_{i+1} * y_i`, indices taken cyclically. -/
def shoelace (P : List Point) : Int :=
  ((List.range P.length).map (fun i =>
    (pt P i).x * (pt P ((i + 1) % P.length)).y
      - (pt P ((i + 1) % P.length)).x * (pt P i).y)).sum

/-- A triangle with coordinates that fit `int32_t` but exceed the 30 bits + signum limit:
the exact cross product at its lexicographically smallest corner is `2^63`. -/
def overflowTriangle : List Point :=
  [⟨-2147483648, -1⟩, ⟨2147483647, -32769⟩, ⟨-2147418112, 2147483647⟩]

/-- Cross product `(p - a) × (X - a)` for a point `X = (x, y)` of the rational plane. -/
def crq (a p : Point) (x y : ℚ) : ℚ :=
  ((p.x : ℚ) - a.x) * (y - a.y) - ((p.y : ℚ) - a.y) * (x - a.x)

/-- Shoelace term of the edge from `a` to `b`. -/
def det2 (a b : Point) : Int := a.x * b.y - b.x * a.y

/-- Sum of the shoelace terms along an open chain of points. -/
def chainSum : List Point → Int
  | a :: b :: l => det2 a b + chainSum (b :: l)
  | _ => 0

/-- Edges of an open chain of points. -/
def chainEdges : List Point → List (Point × Point)
  | a :: b :: l => (a, b) :: chainEdges (b :: l)
  | _ => []

/-- Edges of a polygon, the closing edge from the last point to the first included. -/
def edges (P : List Point) : List (Point × Point) := chainEdges (P ++ P.take 1)

/-- Twice the signed area of a polygon as a chain sum. -/
def area2 (P : List Point) : Int := chainSum (P ++ P.take 1)

/-- Simplicity of a polygon in terms of its list of edges. -/
def SimpleE (P : List Point) : Prop :=
  ∀ e1 ∈ edges P, ∀ e2 ∈ edges P, e1 ≠ e2 → ∀ x y : ℚ,
    OnSegment e1.1 e1.2 x y → OnSegment e2.1 e2.2 x y →
      (e1.2 = e2.1 ∧ x = e1.2.x ∧ y = e1.2.y) ∨ (e1.1 = e2.2 ∧ x = e1.1.x ∧ y = e1.1.y)

/-- Two non-zero integers of the same sign. -/
def SameSign (a b : Int) : Prop := (0 < a ∧ 0 < b) ∨ (a < 0 ∧ b < 0)

/-- The point `q` lies in the closed triangle `a p b` (which is not degenerate). -/
def InTri (a p b q : Point) : Prop :=
  0 ≤ cross a p b * cross a p q ∧ 0 ≤ cross a p b * cross p b q
    ∧ 0 ≤ cross a p b * cross b a q

instance (a p b q : Point) : Decidable (InTri a p b q) := by
  unfold InTri; infer_instance

/-- First point of a chain. -/
def hd (L : List Point) : Point := L.headD ⟨0, 0⟩

/-- Last point of a chain. -/
def la (L : List Point) : Point := L.getLastD ⟨0, 0⟩

/-- The corner `la rest, p, hd rest` of the polygon `p :: rest` is an ear: no other point of
the polygon lies in its closed triangle. -/
def Ear (p : Point) (rest : List Point) : Prop :=
  ∀ q ∈ rest, q ≠ hd rest → q ≠ la rest → ¬ InTri (la rest) p (hd rest) q

/-- Orientation statement for all simple polygons of at most `n` points whose first point is
the smallest: the doubled area has the sign of the turn at that point. -/
def SHyp (n : Nat) : Prop :=
  ∀ (v : Point) (rest : List Point), rest.length + 1 ≤ n → 2 ≤ rest.length →
    SimpleE (v :: rest) → (v :: rest).Nodup → (∀ q ∈ rest, lexLt v q) →
    SameSign (area2 (v :: rest)) (cross (la rest) v (hd rest))

/-- Orientation statement for the polygons of at most `n` points whose smallest point is an
ear: the polygon without that point has the sign of the turn at that point. -/
def EHyp (n : Nat) : Prop :=
  ∀ (v : Point) (rest : List Point), rest.length + 1 ≤ n → 3 ≤ rest.length →
    SimpleE (v :: rest) → (v :: rest).Nodup → (∀ q ∈ rest, lexLt v q) → Ear v rest →
    SameSign (area2 rest) (cross (la rest) v (hd rest))

/-- The value fits `int64_t`. -/
def FitsInt64 (n : Int) : Prop := -(2 : Int) ^ 63 ≤ n ∧ n < 2 ^ 63

instance (n : Int) : Decidable (FitsInt64 n) := by
  unfold FitsInt64; infer_instance

/-- The temporary `u` of `orient` over unbounded integers. -/
def orient_u_exact (b c : Point) : Int := b.x * c.y - b.y * c.x

/-- The temporary `v` of `orient` over unbounded integers. -/
def orient_v_exact (a c : Point) : Int := a.x * c.y - a.y * c.x

/-- The temporary `w` of `orient` over unbounded integers. -/
def orient_w_exact (a b : Point) : Int := a.x * b.y - a.y * b.x

/-- The temporary `d = u - v + w` of `orient` over unbounded integers. -/
def orient_d_exact (a b c : Point) : Int :=
  orient_u_exact b c - orient_v_exact a c + orient_w_exact a b

/-- The function `orient` with its temporaries computed over unbounded integers. -/
def orient_unbounded (a b c : Point) : Orientation :=
  let d := orient_d_exact a b c
  if d > 0 then .ORIENTATION_CCW
  else if d = 0 then .ORIENTATION_COLINEAR
  else .ORIENTATION_CW

/-- The coordinates of the point are representable in `int32_t`. -/
def InInt32 (p : Point) : Prop :=
  -(2 : Int) ^ 31 ≤ p.x ∧ p.x < 2 ^ 31 ∧ -(2 : Int) ^ 31 ≤ p.y ∧ p.y < 2 ^ 31

instance (p : Point) : Decidable (InInt32 p) := by
  unfold InInt32; infer_instance

/-- Two segments `ab` and `cd` overlap: they have two different points in common. -/
def Overlap (a b c d : Point) : Prop :=
  ∃ x y x' y' : ℚ, ¬ (x = x' ∧ y = y') ∧ OnSegment a b x y ∧ OnSegment c d x y
    ∧ OnSegment a b x' y' ∧ OnSegment c d x' y'

/-- No two different edges of the (closed) polygon overlap. -/
def NoOverlappingEdges (P : List Point) : Prop :=
  ∀ i j, i < P.length → j < P.length → i ≠ j →
    ¬ Overlap (pt P i) (pt P ((i + 1) % P.length)) (pt P j) (pt P ((j + 1) % P.length))

/-- A triangle whose coordinates exceed `int32_t` by one: the exact cross product at its
lexicographically smallest corner is `2^64`. -/
def wrapTriangle : List Point :=
  [⟨-2147483648, -2147483648⟩, ⟨2147483648, -2147483648⟩, ⟨-2147483648, 2147483648⟩]

/-- Indices of `poly.points` read by the search loop of `is_ccw`, in order: every iteration
reads `poly.points[imin]` and `poly.points[i]`. -/
def is_ccw_loop_reads (points : List Point) : Nat → Nat → Nat → List Nat
  | 0, _, _ => []
  | fuel + 1, i, imin =>
    let pmin := points.getD imin ⟨0, 0⟩
    let p := points.getD i ⟨0, 0⟩
    imin :: i :: is_ccw_loop_reads points fuel (i + 1)
      (if p.x < pmin.x ∨ (p.x = pmin.x ∧ p.y < pmin.y) then i else imin)

/-- Indices of `poly.points` read by `is_ccw(poly)` with assertions disabled, in order: none
on the early return, otherwise those of the search loop followed by `iPrev`, `imin` and
`iNext`. -/
def is_ccw_reads (points : List Point) : List Nat :=
  if points.length < 3 then []
  else
    let imin := is_ccw_imin points
    is_ccw_loop_reads points (points.length - 1) 1 0
      ++ [is_ccw_iPrev points imin, imin, is_ccw_iNext points imin]

/-- Vector of three `double` values (`Vec3d`); `K` is the ordered field in which the
doubles are read. -/
structure Vec3d (K : Type) where
  x : K
  y : K
  z : K

/-- Data members of class `Transformation` (its matrix cache `m_matrix`, `m_flags`,
`m_dirty` is derived from them). -/
structure Transformation (K : Type) where
  m_offset : Vec3d K
  m_rotation : Vec3d K
  m_scaling_factor : Vec3d K
  m_mirror : Vec3d K

/-- Method `Transformation::is_left_handed()`. -/
def Transformation.is_left_handed {K : Type} [LinearOrderedField K] (t : Transformation K) :
    Bool :=
  decide (t.m_mirror.x * t.m_mirror.y * t.m_mirror.z < 0)

/-- Number of mirrored axes: components of the mirror vector equal to `-1`. -/
def mirrored_axes {K : Type} [LinearOrderedField K] (m : Vec3d K) : Nat :=
  (if m.x = -1 then 1 else 0) + (if m.y = -1 then 1 else 0) + (if m.z = -1 then 1 else 0)

/-- C library function `fmod(x, y)`: `x - n * y`, where `n` is the quotient `x / y` with its
fractional part truncated (rounded towards zero). -/
def fmod {K : Type} [LinearOrderedField K] [FloorRing K] (x y : K) : K :=
  x - ((if 0 ≤ x / y then ⌊x / y⌋ else ⌈x / y⌉ : Int) : K) * y

/-- Function `is_rotation_ninety_degrees(double a)`; the constants `M_PI` (of `math.h`) and
`PI` (of `libslic3r.h`) are parameters. -/
def is_rotation_ninety_degrees {K : Type} [LinearOrderedField K] [FloorRing K]
    (M_PI PI : K) (a : K) : Bool :=
  let a1 := fmod |a| (1 / 2 * M_PI)
  let a2 := if a1 > 1 / 4 * PI then 1 / 2 * PI - a1 else a1
  decide (a2 < 1 / 1000)

/-- Overload `is_rotation_ninety_degrees(const Vec3d &rotation)`. -/
def is_rotation_ninety_degrees_vec3d {K : Type} [LinearOrderedField K] [FloorRing K]
    (M_PI PI : K) (rotation : Vec3d K) : Bool :=
  is_rotation_ninety_degrees M_PI PI rotation.x && is_rotation_ninety_degrees M_PI PI rotation.y
    && is_rotation_ninety_degrees M_PI PI rotation.z

/-- Distance from `a` to the nearest integer multiple of `h`. -/
def dist_nearest_multiple {K : Type} [LinearOrderedField K] [FloorRing K] (h a : K) : K :=
  |a - (round (a / h) : K) * h|

/-- Squared Euclidean distance between two points (distances are compared through their
squares, which are exact integers). -/
def dist2 (p q : Point) : Int := (p.x - q.x) ^ 2 + (p.y - q.y) ^ 2

/-- Modelled from the spec: selection step of `chained_path` (its body, in `Geometry.cpp`, is
not part of the sources at hand): among the candidate indices `cands`, listed in ascending
order, the index of the point nearest to `cur`; of several equidistant candidates the lowest
index. -/
def nearest_index (points : List Point) (cur : Point) : List Nat → Option Nat
  | [] => none
  | i :: rest =>
    match nearest_index points cur rest with
    | none => some i
    | some j => if dist2 cur (pt points i) ≤ dist2 cur (pt points j) then some i else some j

/-- Modelled from the spec: choice of the next index of `chained_path` among the unvisited
ones; without a current position (no seed given) no candidate is nearer than another and the
lowest index is taken. -/
def chained_path_select (points : List Point) (cur : Option Point) (unvisited : List Nat) :
    Option Nat :=
  match cur with
  | some c => nearest_index points c unvisited
  | none => unvisited.head?

/-- Modelled from the spec: loop of `chained_path`, repeatedly selecting the nearest unvisited
point to the current position (at most `fuel` times). -/
def chained_path_loop (points : List Point) : Nat → Option Point → List Nat → List Nat
  | 0, _, _ => []
  | fuel + 1, cur, unvisited =>
    match chained_path_select points cur unvisited with
    | none => []
    | some i =>
      i :: chained_path_loop points fuel (some (pt points i)) (unvisited.erase i)

/-- Modelled from the spec: `chained_path(points, retval, start_near)` and
`chained_path(points, retval)` (declared in `Geometry.hpp`; the body, in `Geometry.cpp`, is
not part of the sources at hand): the visiting order `retval`, greedy nearest neighbour from
the optional seed `start_near`. -/
def chained_path (points : List Point) (start_near : Option Point) : List Nat :=
  chained_path_loop points points.length start_near (List.range points.length)

/-- From position `cur`, candidate `i` is preferred to candidate `j`: it is nearer, or
equidistant with an index that is not higher. -/
def Preferred (points : List Point) (cur : Point) (i j : Nat) : Prop :=
  dist2 cur (pt points i) < dist2 cur (pt points j)
    ∨ (dist2 cur (pt points i) = dist2 cur (pt points j) ∧ i ≤ j)

/-- Affine transformation of 3-space (`Transform3d`), stored as a 4 x 4 matrix. -/
abbrev Transform3d (K : Type) := Matrix (Fin 4) (Fin 4) K

/-- Image of a point under a transformation: the matrix applied to `(x, y, z, 1)`. -/
def Transform3d.apply {K : Type} [Field K] (M : Transform3d K) (p : Vec3d K) : Vec3d K :=
  ⟨M 0 0 * p.x + M 0 1 * p.y + M 0 2 * p.z + M 0 3,
   M 1 0 * p.x + M 1 1 * p.y + M 1 2 * p.z + M 1 3,
   M 2 0 * p.x + M 2 1 * p.y + M 2 2 * p.z + M 2 3⟩

/-- Matrix of the translation by `t`. -/
def translation_matrix {K : Type} [Field K] (t : Vec3d K) : Transform3d K :=
  !![1, 0, 0, t.x; 0, 1, 0, t.y; 0, 0, 1, t.z; 0, 0, 0, 1]

/-- Matrix of the scaling by the factors `s` along the three axes. -/
def scaling_matrix {K : Type} [Field K] (s : Vec3d K) : Transform3d K :=
  !![s.x, 0, 0, 0; 0, s.y, 0, 0; 0, 0, s.z, 0; 0, 0, 0, 1]

/-- Matrix of the rotation about the X axis by the angle of cosine `c` and sine `s`. -/
def rotation_x_matrix {K : Type} [Field K] (c s : K) : Transform3d K :=
  !![1, 0, 0, 0; 0, c, -s, 0; 0, s, c, 0; 0, 0, 0, 1]

/-- Matrix of the rotation about the Y axis by the angle of cosine `c` and sine `s`. -/
def rotation_y_matrix {K : Type} [Field K] (c s : K) : Transform3d K :=
  !![c, 0, s, 0; 0, 1, 0, 0; -s, 0, c, 0; 0, 0, 0, 1]

/-- Matrix of the rotation about the Z axis by the angle of cosine `c` and sine `s`. -/
def rotation_z_matrix {K : Type} [Field K] (c s : K) : Transform3d K :=
  !![c, -s, 0, 0; s, c, 0, 0; 0, 0, 1, 0; 0, 0, 0, 1]

/-- Modelled from the spec: `assemble_transform(translation, rotation, scale, mirror)`
(declared in `Geometry.hpp`; the body, in `Geometry.cpp`, is not part of the sources at
hand): the given transformations assembled in the order mirror, scale, rotate X, rotate Y,
rotate Z, translate.  The functions `cos` and `sin` are parameters. -/
def assemble_transform {K : Type} [Field K] (cos sin : K → K)
    (translation rotation scale mirror : Vec3d K) : Transform3d K :=
  translation_matrix translation
    * rotation_z_matrix (cos rotation.z) (sin rotation.z)
    * rotation_y_matrix (cos rotation.y) (sin rotation.y)
    * rotation_x_matrix (cos rotation.x) (sin rotation.x)
    * scaling_matrix scale * scaling_matrix mirror

/-- Component-wise scaling of a point (also mirroring, with factors `1` and `-1`). -/
def scale_point {K : Type} [Field K] (s p : Vec3d K) : Vec3d K :=
  ⟨s.x * p.x, s.y * p.y, s.z * p.z⟩

/-- Rotation of a point about the X axis by the angle `a`. -/
def rotate_x_point {K : Type} [Field K] (cos sin : K → K) (a : K) (p : Vec3d K) : Vec3d K :=
  ⟨p.x, cos a * p.y - sin a * p.z, sin a * p.y + cos a * p.z⟩

/-- Rotation of a point about the Y axis by the angle `a`. -/
def rotate_y_point {K : Type} [Field K] (cos sin : K → K) (a : K) (p : Vec3d K) : Vec3d K :=
  ⟨cos a * p.x + sin a * p.z, p.y, -sin a * p.x + cos a * p.z⟩

/-- Rotation of a point about the Z axis by the angle `a`. -/
def rotate_z_point {K : Type} [Field K] (cos sin : K → K) (a : K) (p : Vec3d K) : Vec3d K :=
  ⟨cos a * p.x - sin a * p.y, sin a * p.x + cos a * p.y, p.z⟩

/-- Translation of a point by `t`. -/
def translate_point {K : Type} [Field K] (t p : Vec3d K) : Vec3d K :=
  ⟨p.x + t.x, p.y + t.y, p.z + t.z⟩

end Geometry

/-! ### Rendering range of a volume (`src/slic3r/GUI/3DScene.cpp`) -/

/-- Identification of a volume (`GLVolume::CompositeID`); `volume_id` is negative for the
volumes that are not model volumes. -/
structure CompositeID where
  object_id : Int
  volume_id : Int
  instance_id : Int

/-- Axis-aligned box of 3-space (`BoundingBoxf3`), by its corners `min` and `max`. -/
structure BoundingBoxf3 where
  min : Geometry.Vec3d ℚ
  max : Geometry.Vec3d ℚ

/-- Data members of `GLVolume` read or written by the functions below: the layer heights
`print_zs`, the table `offsets` (for every layer the start of its quads and of its triangles in
the index arrays), the sizes `indexed_vertex_array.quad_indices_size` and
`indexed_vertex_array.triangle_indices_size`, the two ranges to render, the flags read by
`GLVolumeCollection`, and the box returned by `transformed_convex_hull_bounding_box()`. -/
structure GLVolume where
  print_zs : List ℚ
  offsets : List Nat
  quad_indices_size : Nat
  triangle_indices_size : Nat
  qverts_range : Nat × Nat
  tverts_range : Nat × Nat
  composite_id : CompositeID
  is_active : Bool
  is_modifier : Bool
  is_wipe_tower : Bool
  shader_outside_printer_detection_enabled : Bool
  is_outside : Bool
  transformed_convex_hull_bounding_box : BoundingBoxf3

/-- First loop of `set_range`:
`for (; i < print_zs.size() && print_zs[i] < min_z; ++ i);` run for at most `fuel`
iterations from index `i`; the value of `i` afterwards. -/
def set_range_skip_below (print_zs : List ℚ) (min_z : ℚ) : Nat → Nat → Nat
  | 0, i => i
  | fuel + 1, i =>
    if i < print_zs.length ∧ print_zs.getD i 0 < min_z then
      set_range_skip_below print_zs min_z fuel (i + 1)
    else i

/-- Second loop of `set_range`:
`for (; i < print_zs.size() && print_zs[i] <= max_z; ++ i);` run for at most `fuel`
iterations from index `i`; the value of `i` afterwards. -/
def set_range_skip_within (print_zs : List ℚ) (max_z : ℚ) : Nat → Nat → Nat
  | 0, i => i
  | fuel + 1, i =>
    if i < print_zs.length ∧ print_zs.getD i 0 ≤ max_z then
      set_range_skip_within print_zs max_z fuel (i + 1)
    else i

/-- Method `GLVolume::set_range(min_z, max_z)`: the volume after the call. -/
def GLVolume.set_range (v : GLVolume) (min_z max_z : ℚ) : GLVolume :=
  let v0 : GLVolume := { v with
    qverts_range := (0, v.quad_indices_size)
    tverts_range := (0, v.triangle_indices_size) }
  if v0.print_zs ≠ [] then
    if v0.print_zs.getD 0 0 > max_z ∨ v0.print_zs.getD (v0.print_zs.length - 1) 0 < min_z then
      { v0 with
        qverts_range := (v0.qverts_range.1, 0)
        tverts_range := (v0.tverts_range.1, 0) }
    else
      let i := set_range_skip_below v0.print_zs min_z v0.print_zs.length 0
      if i = v0.print_zs.length then
        { v0 with
          qverts_range := (v0.qverts_range.1, 0)
          tverts_range := (v0.tverts_range.1, 0) }
      else
        let v1 : GLVolume := { v0 with
          qverts_range := (v0.offsets.getD (i * 2) 0, v0.qverts_range.2)
          tverts_range := (v0.offsets.getD (i * 2 + 1) 0, v0.tverts_range.2) }
        let j := set_range_skip_within v1.print_zs max_z (v1.print_zs.length - i) i
        if j < v1.print_zs.length then
          { v1 with
            qverts_range := (v1.qverts_range.1, v1.offsets.getD (j * 2) 0)
            tverts_range := (v1.tverts_range.1, v1.offsets.getD (j * 2 + 1) 0) }
        else v1
  else v0

/-- A volume of four layers at heights 1, 2, 3, 4 with two offsets per layer. -/
def fourLayerVolume : GLVolume :=
  ⟨[1, 2, 3, 4], [0, 0, 10, 5, 20, 10, 30, 15], 40, 20, (7, 7), (7, 7), ⟨0, 0, 0⟩, true,
    false, false, false, false, ⟨⟨0, 0, 0⟩, ⟨1, 1, 4⟩⟩⟩

/-! ### Print heights of a collection of volumes (`src/slic3r/GUI/3DScene.cpp`) -/

/-- A volume whose layer heights are not in ascending order. -/
def unsortedVolume : GLVolume :=
  ⟨[3, 1, 4, 2], [0, 0, 10, 5, 20, 10, 30, 15], 40, 20, (7, 7), (7, 7), ⟨0, 0, 0⟩, true,
    false, false, false, false, ⟨⟨0, 0, 0⟩, ⟨1, 1, 4⟩⟩⟩

/-- Collection of volumes (`GLVolumeCollection`): the vector `volumes` of pointers to volumes,
a null pointer being `none`. -/
structure GLVolumeCollection where
  volumes : List (Option GLVolume)

/-- First loop of `get_current_print_zs`, over the volumes still to visit, with the vector
`print_zs` collected so far; `none` when a null pointer is dereferenced. -/
def get_current_print_zs_collect (active_only : Bool) :
    List (Option GLVolume) → List ℚ → Option (List ℚ)
  | [], print_zs => some print_zs
  | none :: _, _ => none
  | some vol :: rest, print_zs =>
    get_current_print_zs_collect active_only rest
      (if !active_only || vol.is_active then print_zs ++ vol.print_zs else print_zs)

/-- Inner loop of `get_current_print_zs`:
`for (; j < n && print_zs[j] <= zmax; ++ j) ;` run for at most `fuel` iterations from index
`j`; the value of `j` afterwards. -/
def get_current_print_zs_scan (print_zs : List ℚ) (n : Nat) (zmax : ℚ) : Nat → Nat → Nat
  | 0, j => j
  | fuel + 1, j =>
    if j < n ∧ print_zs.getD j 0 ≤ zmax then
      get_current_print_zs_scan print_zs n zmax fuel (j + 1)
    else j

/-- Outer loop `for (int i = 0; i < n;)` of `get_current_print_zs`, which overwrites
`print_zs` in place: at most `fuel` iterations from the state `print_zs`, `k`, `i`; the vector
and `k` afterwards.  The `int` counters are unbounded natural numbers (fewer than `2^31`
layers). -/
def get_current_print_zs_merge (EPSILON : ℚ) (n : Nat) : Nat → List ℚ → Nat → Nat → List ℚ × Nat
  | 0, print_zs, k, _ => (print_zs, k)
  | fuel + 1, print_zs, k, i =>
    if i < n then
      let j := i + 1
      let zmax := print_zs.getD i 0 + EPSILON
      let j := get_current_print_zs_scan print_zs n zmax (n - j) j
      get_current_print_zs_merge EPSILON n fuel
        (print_zs.set k (if j > i + 1 then 1 / 2 * (print_zs.getD i 0 + print_zs.getD (j - 1) 0)
          else print_zs.getD i 0))
        (k + 1) j
    else (print_zs, k)

/-- Method `GLVolumeCollection::get_current_print_zs(active_only)`; the constant `EPSILON`
(declared in `libslic3r.h`) is a parameter.  The result is `none` when a null pointer is
dereferenced. -/
def GLVolumeCollection.get_current_print_zs (EPSILON : ℚ) (c : GLVolumeCollection)
    (active_only : Bool) : Option (List ℚ) :=
  match get_current_print_zs_collect active_only c.volumes [] with
  | none => none
  | some collected =>
    let print_zs := collected.insertionSort (· ≤ ·)
    let n := print_zs.length
    let r := get_current_print_zs_merge EPSILON n n print_zs 0 0
    some (if r.2 < n then r.1.take r.2 else r.1)

/-- Layer heights collected by `get_current_print_zs`: those of every volume, or of the active
volumes only when `active_only` is set, in the order of the volumes. -/
def collected_print_zs (volumes : List (Option GLVolume)) (active_only : Bool) : List ℚ :=
  ((volumes.filterMap id).filter (fun vol => !active_only || vol.is_active)).flatMap
    (fun vol => vol.print_zs)

/-- The collected layer heights in ascending order (the vector after `std::sort`). -/
def sorted_print_zs (volumes : List (Option GLVolume)) (active_only : Bool) : List ℚ :=
  (collected_print_zs volumes active_only).insertionSort (· ≤ ·)

/-- A volume with one layer, at the height `z`. -/
def oneLayerVolume (z : ℚ) : GLVolume :=
  ⟨[z], [0, 0], 0, 0, (0, 0), (0, 0), ⟨0, 0, 0⟩, true, false, false, false, false,
    ⟨⟨0, 0, 0⟩, ⟨1, 1, 4⟩⟩⟩

/-- Three volumes of one layer each: two at the height `1/5` and one `1/10000` above. -/
def threeCloseLayers : GLVolumeCollection :=
  ⟨[some (oneLayerVolume (2001 / 10000)), some (oneLayerVolume (1 / 5)),
    some (oneLayerVolume (1 / 5))]⟩

/-- Runs of a list of values: maximal stretches lying within `EPSILON` of (not more than
`EPSILON` above) the first value of the stretch. -/
def runs (EPSILON : ℚ) : List ℚ → List (List ℚ)
  | [] => []
  | a :: rest =>
    (a :: rest.takeWhile (fun z => decide (z ≤ a + EPSILON)))
      :: runs EPSILON (rest.dropWhile (fun z => decide (z ≤ a + EPSILON)))
termination_by l => l.length
decreasing_by
  simp_wf
  exact Nat.lt_succ_of_le (List.dropWhile_sublist _).length_le

/-- Midpoint of a run: the mean of its first and its last value. -/
def run_midpoint (r : List ℚ) : ℚ := (r.headD 0 + r.getLastD 0) / 2

/-- Arithmetic mean of the values of a run. -/
def run_mean (r : List ℚ) : ℚ := r.sum / r.length

/-! ### State of a collection with respect to the print volume
(`src/slic3r/GUI/3DScene.cpp`) -/

/-- State of an object with respect to the print volume (`ModelInstance::EPrintVolumeState`). -/
inductive EPrintVolumeState where
  | PVS_Inside
  | PVS_Partly_Outside
  | PVS_Fully_Outside
  deriving DecidableEq, Repr

/-- What `check_outside_state` reads of a `DynamicPrintConfig`: the points of the option
`bed_shape` (`none` when the option is missing or is not a `ConfigOptionPoints`) and the value
of `max_print_height`. -/
structure DynamicPrintConfig where
  bed_shape : Option (List Geometry.Vec2d)
  max_print_height : ℚ

/-- The test of `check_outside_state` for leaving a volume out (the null pointer apart): a
modifier, or a wipe tower or a volume of negative `volume_id` for which the detection is not
enabled. -/
def check_outside_state_skip (volume : GLVolume) : Bool :=
  volume.is_modifier
    || (volume.is_wipe_tower && !volume.shader_outside_printer_detection_enabled)
    || (decide (volume.composite_id.volume_id < 0)
        && !volume.shader_outside_printer_detection_enabled)

/-- Values of the local variables of `check_outside_state` and the volumes visited. -/
structure CheckOutsideLoop where
  volumes : List (Option GLVolume)
  state : EPrintVolumeState
  all_contained : Bool
  contained_min_one : Bool

/-- Loop `for (GLVolume* volume : this->volumes)` of `check_outside_state` over the volumes
still to visit; the methods `BoundingBoxf3::contains` and `BoundingBoxf3::intersects` are
parameters. -/
def check_outside_state_loop (contains intersects : BoundingBoxf3 → BoundingBoxf3 → Bool)
    (print_volume : BoundingBoxf3) :
    List (Option GLVolume) → EPrintVolumeState → Bool → Bool → CheckOutsideLoop
  | [], state, all_contained, contained_min_one =>
    ⟨[], state, all_contained, contained_min_one⟩
  | none :: rest, state, all_contained, contained_min_one =>
    let r := check_outside_state_loop contains intersects print_volume rest state
      all_contained contained_min_one
    { r with volumes := none :: r.volumes }
  | some volume :: rest, state, all_contained, contained_min_one =>
    if check_outside_state_skip volume then
      let r := check_outside_state_loop contains intersects print_volume rest state
        all_contained contained_min_one
      { r with volumes := some volume :: r.volumes }
    else
      let bb := volume.transformed_convex_hull_bounding_box
      let contained := contains print_volume bb
      let all_contained := all_contained && contained
      let contained_min_one := if contained then true else contained_min_one
      let volume := { volume with is_outside := !contained }
      let state :=
        if state = .PVS_Inside ∧ volume.is_outside = true then .PVS_Fully_Outside else state
      let state :=
        if state = .PVS_Fully_Outside ∧ volume.is_outside = true
            ∧ intersects print_volume bb = true then .PVS_Partly_Outside
        else state
      let r := check_outside_state_loop contains intersects print_volume rest state
        all_contained contained_min_one
      { r with volumes := some volume :: r.volumes }

/-- The print volume built by `check_outside_state`: the bed box with height
`max_print_height`, its lower side moved to `-1e10`.  The corners `bed_min`, `bed_max` are the
unscaled extents of the scaled bed shape. -/
def check_outside_state_print_volume (bed_min bed_max : Geometry.Vec2d)
    (max_print_height : ℚ) : BoundingBoxf3 :=
  let print_volume : BoundingBoxf3 :=
    ⟨⟨bed_min.x, bed_min.y, 0⟩, ⟨bed_max.x, bed_max.y, max_print_height⟩⟩
  { print_volume with min := { print_volume.min with z := -10000000000 } }

/-- Method `GLVolumeCollection::check_outside_state(config, out_state)`: the value returned,
the variable `*out_state` afterwards (`none` for a null `out_state`) and the collection
afterwards.  Parameters: the methods `contains` and `intersects` of `BoundingBoxf3`, and
`bed_extents`, the unscaled corners of `get_extents(Polygon::new_scale(values))`. -/
def GLVolumeCollection.check_outside_state
    (contains intersects : BoundingBoxf3 → BoundingBoxf3 → Bool)
    (bed_extents : List Geometry.Vec2d → Geometry.Vec2d × Geometry.Vec2d)
    (c : GLVolumeCollection) (config : Option DynamicPrintConfig)
    (out_state : Option EPrintVolumeState) :
    Bool × Option EPrintVolumeState × GLVolumeCollection :=
  match config with
  | none => (false, out_state, c)
  | some config =>
    match config.bed_shape with
    | none => (false, out_state, c)
    | some values =>
      let bed_box_2D := bed_extents values
      let print_volume := check_outside_state_print_volume bed_box_2D.1 bed_box_2D.2
        config.max_print_height
      let r := check_outside_state_loop contains intersects print_volume c.volumes
        .PVS_Inside true false
      (r.contained_min_one, out_state.map (fun _ => r.state), ⟨r.volumes⟩)

/-- A volume that `check_outside_state` takes into account: it is in the list (behind a
pointer that is not null) and is not left out. -/
def Considered (volumes : List (Option GLVolume)) (volume : GLVolume) : Prop :=
  some volume ∈ volumes ∧ check_outside_state_skip volume = false

/-- Every considered volume has its bounding box contained in the print volume. -/
def AllContained (contains : BoundingBoxf3 → BoundingBoxf3 → Bool) (print_volume : BoundingBoxf3)
    (volumes : List (Option GLVolume)) : Prop :=
  ∀ volume, Considered volumes volume →
    contains print_volume volume.transformed_convex_hull_bounding_box = true

/-- Some considered volume is not contained in the print volume but intersects it. -/
def SomeProtrudes (contains intersects : BoundingBoxf3 → BoundingBoxf3 → Bool)
    (print_volume : BoundingBoxf3) (volumes : List (Option GLVolume)) : Prop :=
  ∃ volume, Considered volumes volume
    ∧ contains print_volume volume.transformed_convex_hull_bounding_box = false
    ∧ intersects print_volume volume.transformed_convex_hull_bounding_box = true

/-- What `check_outside_state` does to one entry of `volumes`: a considered volume gets
`is_outside = !contained`, the others are left as they are. -/
def check_outside_state_flag (contains : BoundingBoxf3 → BoundingBoxf3 → Bool)
    (print_volume : BoundingBoxf3) (entry : Option GLVolume) : Option GLVolume :=
  entry.map (fun volume =>
    if check_outside_state_skip volume then volume
    else { volume with
      is_outside := !contains print_volume volume.transformed_convex_hull_bounding_box })

/-- The print volume `check_outside_state` builds from a configuration whose `bed_shape`
holds `values`. -/
def print_volume_of (bed_extents : List Geometry.Vec2d → Geometry.Vec2d × Geometry.Vec2d)
    (config : DynamicPrintConfig) (values : List Geometry.Vec2d) : BoundingBoxf3 :=
  check_outside_state_print_volume (bed_extents values).1 (bed_extents values).2
    config.max_print_height

/-- Containment of boxes, component by component (a sample for the parameter `contains`). -/
def box_contains (a b : BoundingBoxf3) : Bool :=
  decide (a.min.x ≤ b.min.x ∧ a.min.y ≤ b.min.y ∧ a.min.z ≤ b.min.z
    ∧ b.max.x ≤ a.max.x ∧ b.max.y ≤ a.max.y ∧ b.max.z ≤ a.max.z)

/-- Overlap of boxes, component by component (a sample for the parameter `intersects`). -/
def box_intersects (a b : BoundingBoxf3) : Bool :=
  decide (a.min.x ≤ b.max.x ∧ b.min.x ≤ a.max.x ∧ a.min.y ≤ b.max.y ∧ b.min.y ≤ a.max.y
    ∧ a.min.z ≤ b.max.z ∧ b.min.z ≤ a.max.z)

/-- Corners of the smallest box around the points (a sample for the parameter
`bed_extents`; the box of no point is the origin). -/
def sample_bed_extents (values : List Geometry.Vec2d) : Geometry.Vec2d × Geometry.Vec2d :=
  match values with
  | [] => (⟨0, 0⟩, ⟨0, 0⟩)
  | p :: rest =>
    rest.foldl (fun box q =>
      (⟨min box.1.x q.x, min box.1.y q.y⟩, ⟨max box.2.x q.x, max box.2.y q.y⟩)) (p, p)

/-- A configuration with a square bed of side 200 and a print height of 150. -/
def squareBedConfig : DynamicPrintConfig :=
  ⟨some [⟨0, 0⟩, ⟨200, 0⟩, ⟨200, 200⟩, ⟨0, 200⟩], 150⟩

/-- A volume with the given box, modifier flag and `is_outside` flag. -/
def boxVolume (box : BoundingBoxf3) (is_modifier is_outside : Bool) : GLVolume :=
  ⟨[], [], 0, 0, (0, 0), (0, 0), ⟨0, 0, 0⟩, true, is_modifier, false, false, is_outside, box⟩

/-- A null pointer, a volume inside the bed, a modifier far away and a volume that sticks
out of the bed. -/
def fourEntries : GLVolumeCollection :=
  ⟨[none, some (boxVolume ⟨⟨10, 10, 0⟩, ⟨20, 20, 5⟩⟩ false true),
    some (boxVolume ⟨⟨900, 900, 0⟩, ⟨901, 901, 5⟩⟩ true true),
    some (boxVolume ⟨⟨190, 10, 0⟩, ⟨210, 20, 5⟩⟩ false false)]⟩

/-! ### Editing of SLA support points (`src/slic3r/GUI/Gizmos/GLGizmoSlaSupports.cpp`) -/

namespace sla

/-- Support point of an SLA print (`sla::SupportPoint`): position, radius of the head and
the flag of a point that supports a new island. -/
structure SupportPoint where
  pos : Geometry.Vec3d ℚ
  head_front_radius : ℚ
  is_new_island : Bool

/-- Origin of the support points of an object (`sla::PointsStatus`). -/
inductive PointsStatus where
  | None
  | Generating
  | AutoGenerated
  | UserModified
  deriving DecidableEq, Repr

end sla

/-- What the gizmo reads and writes of a `ModelObject`: its identifier, its support points
and their status. -/
structure ModelObject where
  id : Nat
  sla_support_points : List sla.SupportPoint
  sla_points_status : sla.PointsStatus

/-- What `get_data_from_backend` reads of an `SLAPrintObject`: the identifier of its model
object, whether the step `slaposSupportPoints` is done, its support points and the inverse of
its transformation (as a map of positions). -/
structure SLAPrintObject where
  model_object_id : Nat
  support_points_done : Bool
  support_points : List sla.SupportPoint
  trafo_inverse : Geometry.Vec3d ℚ → Geometry.Vec3d ℚ

namespace GUI

/-- Entry of the editing cache (`GLGizmoSlaSupports::CacheEntry`). -/
structure CacheEntry where
  support_point : sla.SupportPoint
  selected : Bool
  normal : Geometry.Vec3d ℚ

/-- Data members of `GLGizmoSlaSupports` used by the editing functions; `m_model_object` is
the object pointed to (the pointer is not null while the gizmo edits), `sla_print_objects`
stands for `m_parent.sla_print()->objects()` and `reslice_requests` counts the deferred calls
of `reslice_SLA_supports` posted with `CallAfter`. -/
structure GLGizmoSlaSupports where
  m_model_object : ModelObject
  m_lock_unique_islands : Bool
  m_editing_mode : Bool
  m_new_point_head_diameter : ℚ
  m_editing_mode_cache : List CacheEntry
  m_wait_for_up_event : Bool
  m_unsaved_changes : Bool
  m_selection_empty : Bool
  sla_print_objects : List SLAPrintObject
  reslice_requests : Nat

/-- Enumerator `AllPoints = -2`. -/
def AllPoints : Int := -2

/-- Enumerator `NoPoints = -1`. -/
def NoPoints : Int := -1

/-- Method `select_point(int i)`; `none` when `m_editing_mode_cache` is read out of its
bounds. -/
def GLGizmoSlaSupports.select_point (g : GLGizmoSlaSupports) (i : Int) :
    Option GLGizmoSlaSupports :=
  if i = AllPoints ∨ i = NoPoints then
    let g1 : GLGizmoSlaSupports := { g with
      m_editing_mode_cache := g.m_editing_mode_cache.map
        (fun point_and_selection =>
          { point_and_selection with selected := decide (i = AllPoints) })
      m_selection_empty := decide (i = NoPoints) }
    if i = AllPoints then
      match g1.m_editing_mode_cache[0]? with
      | none => none
      | some entry =>
        some { g1 with m_new_point_head_diameter := entry.support_point.head_front_radius * 2 }
    else some g1
  else
    if 0 ≤ i then
      match g.m_editing_mode_cache[i.toNat]? with
      | none => none
      | some entry =>
        some { g with
          m_editing_mode_cache :=
            g.m_editing_mode_cache.set i.toNat { entry with selected := true }
          m_selection_empty := false
          m_new_point_head_diameter := entry.support_point.head_front_radius * 2 }
    else none

/-- Loop of `unselect_point` over the cache entries still to visit: the flag
`m_selection_empty` afterwards. -/
def unselect_point_scan : List CacheEntry → Bool → Bool
  | [], m_selection_empty => m_selection_empty
  | ce :: rest, m_selection_empty =>
    if ce.selected then false else unselect_point_scan rest m_selection_empty

/-- Method `unselect_point(int i)`; `none` when `m_editing_mode_cache` is written out of its
bounds. -/
def GLGizmoSlaSupports.unselect_point (g : GLGizmoSlaSupports) (i : Int) :
    Option GLGizmoSlaSupports :=
  if 0 ≤ i then
    match g.m_editing_mode_cache[i.toNat]? with
    | none => none
    | some entry =>
      let cache := g.m_editing_mode_cache.set i.toNat { entry with selected := false }
      some { g with
        m_editing_mode_cache := cache
        m_selection_empty := unselect_point_scan cache true }
  else none

/-- Loop of `delete_selected_points` with its `unsigned int` counter `idx`, which wraps
modulo `2^32`: at most `fuel` iterations from the state `idx`, cache, `m_unsaved_changes`;
the state afterwards. -/
def delete_selected_points_loop (m_lock_unique_islands force : Bool) :
    Nat → Nat → List CacheEntry → Bool → Nat × List CacheEntry × Bool
  | 0, idx, cache, m_unsaved_changes => (idx, cache, m_unsaved_changes)
  | fuel + 1, idx, cache, m_unsaved_changes =>
    if h : idx < cache.length then
      if cache[idx].selected
          && (!cache[idx].support_point.is_new_island || !m_lock_unique_islands || force) then
        delete_selected_points_loop m_lock_unique_islands force fuel
          (((idx + 2 ^ 32 - 1) % 2 ^ 32 + 1) % 2 ^ 32) (cache.eraseIdx idx) true
      else
        delete_selected_points_loop m_lock_unique_islands force fuel
          ((idx + 1) % 2 ^ 32) cache m_unsaved_changes
    else (idx, cache, m_unsaved_changes)

/-- Method `delete_selected_points(bool force)`. -/
def GLGizmoSlaSupports.delete_selected_points (g : GLGizmoSlaSupports) (force : Bool) :
    Option GLGizmoSlaSupports :=
  let r := delete_selected_points_loop g.m_lock_unique_islands force
    g.m_editing_mode_cache.length 0 g.m_editing_mode_cache g.m_unsaved_changes
  GLGizmoSlaSupports.select_point
    { g with m_editing_mode_cache := r.2.1, m_unsaved_changes := r.2.2 } NoPoints

/-- Entries made by `m_editing_mode_cache.emplace_back(point, false)` for every point of a
list (the normal of such an entry is zero). -/
def cache_of_points (points : List sla.SupportPoint) : List CacheEntry :=
  points.map (fun point => ⟨point, false, ⟨0, 0, 0⟩⟩)

/-- Loop of `get_data_from_backend` over the print objects still to visit. -/
def get_data_from_backend_loop (g : GLGizmoSlaSupports) :
    List SLAPrintObject → GLGizmoSlaSupports
  | [] => g
  | po :: rest =>
    if po.model_object_id = g.m_model_object.id ∧ po.support_points_done = true then
      let g1 : GLGizmoSlaSupports := { g with
        m_editing_mode_cache := cache_of_points (po.support_points.map (fun point =>
          ⟨po.trafo_inverse point.pos, point.head_front_radius, point.is_new_island⟩)) }
      if g1.m_model_object.sla_points_status ≠ .UserModified then
        { g1 with m_model_object :=
            { g1.m_model_object with sla_points_status := .AutoGenerated } }
      else g1
    else get_data_from_backend_loop g rest

/-- Method `get_data_from_backend()`. -/
def GLGizmoSlaSupports.get_data_from_backend (g : GLGizmoSlaSupports) : GLGizmoSlaSupports :=
  { get_data_from_backend_loop g g.sla_print_objects with m_unsaved_changes := false }

/-- Method `editing_mode_discard_changes()`. -/
def GLGizmoSlaSupports.editing_mode_discard_changes (g : GLGizmoSlaSupports) :
    GLGizmoSlaSupports :=
  let g1 : GLGizmoSlaSupports :=
    if g.m_model_object.sla_points_status = .AutoGenerated then g.get_data_from_backend
    else { g with m_editing_mode_cache := cache_of_points g.m_model_object.sla_support_points }
  { g1 with m_editing_mode := false, m_unsaved_changes := false }

/-- Method `editing_mode_apply_changes()`. -/
def GLGizmoSlaSupports.editing_mode_apply_changes (g : GLGizmoSlaSupports) :
    GLGizmoSlaSupports :=
  let g1 : GLGizmoSlaSupports :=
    if g.m_unsaved_changes then
      { g with
        m_model_object := { g.m_model_object with
          sla_points_status := .UserModified
          sla_support_points := g.m_editing_mode_cache.map (fun cache_entry =>
            cache_entry.support_point) }
        reslice_requests := g.reslice_requests + 1 }
    else g
  { g1 with m_editing_mode := false, m_unsaved_changes := false }

/-- Method `editing_mode_reload_cache()`. -/
def GLGizmoSlaSupports.editing_mode_reload_cache (g : GLGizmoSlaSupports) :
    GLGizmoSlaSupports :=
  { g with
    m_editing_mode_cache := cache_of_points g.m_model_object.sla_support_points
    m_unsaved_changes := false }

/-- Method `switch_to_editing_mode()`. -/
def GLGizmoSlaSupports.switch_to_editing_mode (g : GLGizmoSlaSupports) : GLGizmoSlaSupports :=
  let g1 : GLGizmoSlaSupports :=
    if g.m_model_object.sla_points_status ≠ .AutoGenerated then g.editing_mode_reload_cache
    else g
  { g1 with m_unsaved_changes := false, m_editing_mode := true }

/-- The block of `gizmo_event` that places a point (editing mode, left button down without
modifier keys or selection rectangle, no point hovered): the value returned and the gizmo
afterwards.  `pos_and_normal` is the value of `unproject_on_mesh(mouse_position)`, `none` when
it throws. -/
def GLGizmoSlaSupports.gizmo_event_place_point (g : GLGizmoSlaSupports)
    (pos_and_normal : Option (Geometry.Vec3d ℚ × Geometry.Vec3d ℚ)) :
    Option (Bool × GLGizmoSlaSupports) :=
  if g.m_selection_empty then
    match pos_and_normal with
    | some pn =>
      some (true, { g with
        m_editing_mode_cache := g.m_editing_mode_cache
          ++ [⟨⟨pn.1, g.m_new_point_head_diameter / 2, false⟩, false, pn.2⟩]
        m_unsaved_changes := true
        m_wait_for_up_event := true })
    | none => some (false, g)
  else (g.select_point NoPoints).map (fun g1 => (true, g1))

/-- The test of `delete_selected_points` for removing an entry. -/
def is_deleted (m_lock_unique_islands force : Bool) (entry : CacheEntry) : Bool :=
  entry.selected && (!entry.support_point.is_new_island || !m_lock_unique_islands || force)

/-- The flag `m_selection_empty` tells the truth: it is set exactly when no entry of the
editing cache is selected. -/
def SelectionInvariant (g : GLGizmoSlaSupports) : Prop :=
  g.m_selection_empty = true ↔ ∀ entry ∈ g.m_editing_mode_cache, entry.selected = false

instance (g : GLGizmoSlaSupports) : Decidable (SelectionInvariant g) := by
  unfold SelectionInvariant; infer_instance

/-- A gizmo in editing mode whose cache holds three points, the first and the last selected,
the last one supporting a new island; the model object has the first point only. -/
def threePointGizmo : GLGizmoSlaSupports :=
  { m_model_object := ⟨7, [⟨⟨0, 0, 0⟩, 1 / 5, false⟩], .UserModified⟩
    m_lock_unique_islands := true
    m_editing_mode := true
    m_new_point_head_diameter := 2 / 5
    m_editing_mode_cache :=
      [⟨⟨⟨0, 0, 0⟩, 1 / 5, false⟩, true, ⟨0, 0, 1⟩⟩,
       ⟨⟨⟨1, 0, 0⟩, 1 / 5, false⟩, false, ⟨0, 0, 1⟩⟩,
       ⟨⟨⟨2, 0, 0⟩, 1 / 5, true⟩, true, ⟨0, 0, 1⟩⟩]
    m_wait_for_up_event := false
    m_unsaved_changes := false
    m_selection_empty := false
    sla_print_objects := []
    reslice_requests := 0 }

/-- A gizmo in editing mode with an empty cache and nothing selected. -/
def emptyCacheGizmo : GLGizmoSlaSupports :=
  { threePointGizmo with m_editing_mode_cache := [], m_selection_empty := true }

/-- A gizmo after `auto_generate` once the backend has finished: the model object has no
support points and the status `Generating`, the cache is empty, and the print object of the
model object holds two generated points. -/
def generatedGizmo : GLGizmoSlaSupports :=
  { m_model_object := ⟨7, [], .Generating⟩
    m_lock_unique_islands := true
    m_editing_mode := false
    m_new_point_head_diameter := 2 / 5
    m_editing_mode_cache := []
    m_wait_for_up_event := false
    m_unsaved_changes := false
    m_selection_empty := true
    sla_print_objects :=
      [⟨7, true, [⟨⟨0, 0, 0⟩, 1 / 5, true⟩, ⟨⟨1, 0, 0⟩, 1 / 5, false⟩], fun pos => pos⟩]
    reslice_requests := 0 }

/-- The gizmo `generatedGizmo` after `get_data_from_backend` and `switch_to_editing_mode`: in
editing mode, the cache holding the two generated points. -/
def backendGizmo : GLGizmoSlaSupports :=
  generatedGizmo.get_data_from_backend.switch_to_editing_mode

end GUI

namespace Geometry

/-! ## Theorems -/

theorem wrap64_eq_self {n : Int} (h1 : -(2 : Int) ^ 63 ≤ n) (h2 : n < 2 ^ 63) :
    wrap64 n = n := by
  unfold wrap64
  rw [Int.emod_eq_of_lt (by linarith) (by linarith)]
  ring

theorem mul_bound {a b : Int} (ha1 : -(2 : Int) ^ 30 < a) (ha2 : a < 2 ^ 30)
    (hb1 : -(2 : Int) ^ 30 < b) (hb2 : b < 2 ^ 30) :
    -(2 : Int) ^ 60 < a * b ∧ a * b < 2 ^ 60 := by
  constructor <;> nlinarith

theorem coord_wrap {n : Int} (h1 : -(2 : Int) ^ 30 < n) (h2 : n < 2 ^ 30) : wrap64 n = n :=
  wrap64_eq_self (by linarith) (by linarith)

/-- Within the coordinate bound a temporary `p.x * q.y - p.y * q.x` is computed without
wraparound and stays below `2^61` in absolute value. -/
theorem det_term_exact {p q : Point} (hp : InBound p) (hq : InBound q) :
    sub64 (mul64 (wrap64 p.x) (wrap64 q.y)) (mul64 (wrap64 p.y) (wrap64 q.x))
        = p.x * q.y - p.y * q.x
      ∧ -(2 : Int) ^ 61 < p.x * q.y - p.y * q.x ∧ p.x * q.y - p.y * q.x < 2 ^ 61 := by
  obtain ⟨hp1, hp2, hp3, hp4⟩ := hp
  obtain ⟨hq1, hq2, hq3, hq4⟩ := hq
  have m1 := mul_bound hp1 hp2 hq3 hq4
  have m2 := mul_bound hp3 hp4 hq1 hq2
  rw [coord_wrap hp1 hp2, coord_wrap hp3 hp4, coord_wrap hq1 hq2, coord_wrap hq3 hq4]
  unfold sub64 mul64
  rw [wrap64_eq_self (n := p.x * q.y) (by linarith [m1.1]) (by linarith [m1.2]),
    wrap64_eq_self (n := p.y * q.x) (by linarith [m2.1]) (by linarith [m2.2])]
  refine ⟨wrap64_eq_self (by linarith [m1.1, m2.2]) (by linarith [m1.2, m2.1]), ?_, ?_⟩
  · linarith [m1.1, m2.2]
  · linarith [m1.2, m2.1]

/-- Within the coordinate bound the temporary `d` of `orient` is the exact cross product. -/
theorem orient_d_eq_cross {a b c : Point} (ha : InBound a) (hb : InBound b) (hc : InBound c) :
    orient_d a b c = cross a b c := by
  obtain ⟨hu, hu1, hu2⟩ := det_term_exact hb hc
  obtain ⟨hv, hv1, hv2⟩ := det_term_exact ha hc
  obtain ⟨hw, hw1, hw2⟩ := det_term_exact ha hb
  unfold orient_d orient_u orient_v orient_w
  rw [hu, hv, hw]
  unfold add64 sub64
  rw [wrap64_eq_self (n := b.x * c.y - b.y * c.x - (a.x * c.y - a.y * c.x))
    (by linarith) (by linarith)]
  rw [wrap64_eq_self (by linarith) (by linarith)]
  unfold cross
  ring

theorem orient_ccw_iff (a b c : Point) :
    orient a b c = .ORIENTATION_CCW ↔ 0 < orient_d a b c := by
  unfold orient
  by_cases h : orient_d a b c > 0
  · simp [h]
  · by_cases h0 : orient_d a b c = 0 <;> simp [h, h0]

theorem orient_cw_iff (a b c : Point) :
    orient a b c = .ORIENTATION_CW ↔ orient_d a b c < 0 := by
  unfold orient
  by_cases h : orient_d a b c > 0
  · simp [h]; omega
  · by_cases h0 : orient_d a b c = 0
    · simp [h0]
    · simp [h, h0]; omega

theorem orient_colinear_iff (a b c : Point) :
    orient a b c = .ORIENTATION_COLINEAR ↔ orient_d a b c = 0 := by
  unfold orient
  by_cases h : orient_d a b c > 0
  · simp [h]; omega
  · by_cases h0 : orient_d a b c = 0 <;> simp [h, h0]

theorem cross_reverse (a b c : Point) : cross c b a = -cross a b c := by
  unfold cross; ring

/-- C1: for points within the 30-bit coordinate bound, the temporary `d = u - v + w` of
`orient(a, b, c)` equals the exact cross product `(b.x-a.x)*(c.y-a.y) - (b.y-a.y)*(c.x-a.x)`,
and `orient` returns CCW iff it is positive, CW iff it is negative and COLINEAR iff it is
zero. -/
theorem orient_exact (a b c : Point) (ha : InBound a) (hb : InBound b) (hc : InBound c) :
    orient_d a b c = (b.x - a.x) * (c.y - a.y) - (b.y - a.y) * (c.x - a.x)
      ∧ (orient a b c = .ORIENTATION_CCW
          ↔ 0 < (b.x - a.x) * (c.y - a.y) - (b.y - a.y) * (c.x - a.x))
      ∧ (orient a b c = .ORIENTATION_CW
          ↔ (b.x - a.x) * (c.y - a.y) - (b.y - a.y) * (c.x - a.x) < 0)
      ∧ (orient a b c = .ORIENTATION_COLINEAR
          ↔ (b.x - a.x) * (c.y - a.y) - (b.y - a.y) * (c.x - a.x) = 0) := by
  have hd : orient_d a b c = (b.x - a.x) * (c.y - a.y) - (b.y - a.y) * (c.x - a.x) :=
    orient_d_eq_cross ha hb hc
  refine ⟨hd, ?_, ?_, ?_⟩
  · rw [orient_ccw_iff, hd]
  · rw [orient_cw_iff, hd]
  · rw [orient_colinear_iff, hd]

theorem orient_exact_witness :
    orient_d ⟨0, 0⟩ ⟨4, 0⟩ ⟨0, 3⟩ = (4 - 0) * (3 - 0) - (0 - 0) * (0 - 0)
      ∧ (orient ⟨0, 0⟩ ⟨4, 0⟩ ⟨0, 3⟩ = .ORIENTATION_CCW
          ↔ 0 < ((4 : Int) - 0) * (3 - 0) - (0 - 0) * (0 - 0))
      ∧ (orient ⟨0, 0⟩ ⟨4, 0⟩ ⟨0, 3⟩ = .ORIENTATION_CW
          ↔ ((4 : Int) - 0) * (3 - 0) - (0 - 0) * (0 - 0) < 0)
      ∧ (orient ⟨0, 0⟩ ⟨4, 0⟩ ⟨0, 3⟩ = .ORIENTATION_COLINEAR
          ↔ ((4 : Int) - 0) * (3 - 0) - (0 - 0) * (0 - 0) = 0) :=
  orient_exact ⟨0, 0⟩ ⟨4, 0⟩ ⟨0, 3⟩ (by decide) (by decide) (by decide)

/-- C10: for points within the 30-bit coordinate bound, `orient(a, b, c) = -orient(c, b, a)`
as values in `{1, -1, 0}`, collinear triples included. -/
theorem orient_antisymm (a b c : Point) (ha : InBound a) (hb : InBound b) (hc : InBound c) :
    (orient a b c).toInt = -(orient c b a).toInt := by
  have h1 := orient_d_eq_cross ha hb hc
  have h2 := orient_d_eq_cross hc hb ha
  rw [cross_reverse] at h2
  unfold orient
  rw [h1, h2]
  rcases lt_trichotomy (cross a b c) 0 with h | h | h
  · have e1 : ¬ cross a b c > 0 := by omega
    have e2 : ¬ cross a b c = 0 := by omega
    have e3 : -cross a b c > 0 := by omega
    simp [e1, e2, e3, Orientation.toInt]
  · simp [h, Orientation.toInt]
  · have e1 : cross a b c > 0 := h
    have e2 : ¬ -cross a b c > 0 := by omega
    have e3 : ¬ -cross a b c = 0 := by omega
    simp [e1, e2, e3, Orientation.toInt]

theorem orient_antisymm_witness :
    (orient ⟨0, 0⟩ ⟨4, 0⟩ ⟨0, 3⟩).toInt = -(orient ⟨0, 3⟩ ⟨4, 0⟩ ⟨0, 0⟩).toInt :=
  orient_antisymm ⟨0, 0⟩ ⟨4, 0⟩ ⟨0, 3⟩ (by decide) (by decide) (by decide)

/-! ### Intersection primitives -/

/-- C5: with exact arithmetic and a positive `EPSILON`, whenever
`|v1.x*v2.y - v2.x*v1.y| >= EPSILON` the function `ray_ray_intersection` returns true and the
point written to `res` lies on both infinite lines: `res = p1 + t*v1` and `res = p2 + s*v2`
for some `t` and `s` (of any sign). -/
theorem ray_ray_intersection_lines (EPSILON : ℚ) (p1 v1 p2 v2 res : Vec2d)
    (hpos : 0 < EPSILON) (h : EPSILON ≤ |v1.x * v2.y - v2.x * v1.y|) :
    (ray_ray_intersection EPSILON p1 v1 p2 v2 res).1 = true
      ∧ ∃ t s : ℚ,
          (ray_ray_intersection EPSILON p1 v1 p2 v2 res).2
              = ⟨p1.x + t * v1.x, p1.y + t * v1.y⟩
          ∧ (ray_ray_intersection EPSILON p1 v1 p2 v2 res).2
              = ⟨p2.x + s * v2.x, p2.y + s * v2.y⟩ := by
  have hd : v1.x * v2.y - v2.x * v1.y ≠ 0 := by
    intro h0
    rw [h0, abs_zero] at h
    linarith
  have hlt : ¬ |v1.x * v2.y - v2.x * v1.y| < EPSILON := not_lt.mpr h
  simp only [ray_ray_intersection, hlt, if_false]
  refine ⟨trivial, (v2.x * (p1.y - p2.y) - v2.y * (p1.x - p2.x)) / (v1.x * v2.y - v2.x * v1.y),
    (v1.x * (p1.y - p2.y) - v1.y * (p1.x - p2.x)) / (v1.x * v2.y - v2.x * v1.y), rfl, ?_⟩
  congr 1
  · field_simp
    ring
  · field_simp
    ring

/-- Instance of C5 with a negative parameter on the first line: the lines through `(0,0)`
along `(2,0)` and through `(-1,-1)` along `(0,2)` meet at `(-1,0)`, at `t = -1/2`. -/
theorem ray_ray_intersection_lines_witness :
    (ray_ray_intersection (1 / 10000) ⟨0, 0⟩ ⟨2, 0⟩ ⟨-1, -1⟩ ⟨0, 2⟩ ⟨7, 7⟩).1 = true
      ∧ ∃ t s : ℚ,
          (ray_ray_intersection (1 / 10000) ⟨0, 0⟩ ⟨2, 0⟩ ⟨-1, -1⟩ ⟨0, 2⟩ ⟨7, 7⟩).2
              = ⟨0 + t * 2, 0 + t * 0⟩
          ∧ (ray_ray_intersection (1 / 10000) ⟨0, 0⟩ ⟨2, 0⟩ ⟨-1, -1⟩ ⟨0, 2⟩ ⟨7, 7⟩).2
              = ⟨-1 + s * 0, -1 + s * 2⟩ :=
  ray_ray_intersection_lines (1 / 10000) ⟨0, 0⟩ ⟨2, 0⟩ ⟨-1, -1⟩ ⟨0, 2⟩ ⟨7, 7⟩
    (by norm_num) (by norm_num)

/-- C6: when `|v1.x*v2.y - v2.x*v1.y| < EPSILON` both `ray_ray_intersection` and
`segment_segment_intersection` return false and leave `res` unchanged. -/
theorem parallel_returns_false (EPSILON : ℚ) (p1 v1 p2 v2 res : Vec2d)
    (h : |v1.x * v2.y - v2.x * v1.y| < EPSILON) :
    ray_ray_intersection EPSILON p1 v1 p2 v2 res = (false, res)
      ∧ segment_segment_intersection EPSILON p1 v1 p2 v2 res = (false, res) := by
  simp [ray_ray_intersection, segment_segment_intersection, h]

/-- Instance of C6 with a zero direction vector `v1 = (0,0)`. -/
theorem parallel_returns_false_witness :
    ray_ray_intersection (1 / 10000) ⟨0, 0⟩ ⟨0, 0⟩ ⟨1, 1⟩ ⟨0, 2⟩ ⟨7, 7⟩ = (false, ⟨7, 7⟩)
      ∧ segment_segment_intersection (1 / 10000) ⟨0, 0⟩ ⟨0, 0⟩ ⟨1, 1⟩ ⟨0, 2⟩ ⟨7, 7⟩
          = (false, ⟨7, 7⟩) :=
  parallel_returns_false (1 / 10000) ⟨0, 0⟩ ⟨0, 0⟩ ⟨1, 1⟩ ⟨0, 2⟩ ⟨7, 7⟩ (by norm_num)

/-- What `segment_segment_intersection` computes: with `s` and `t` the parameters of the
crossing of the two lines (`p1 + t*v1 = p2 + s*v2`), it returns true exactly when `s` is in
`[0,1]` and `-t` (not `t`) is in `[0,1]`, and then writes `p1 + (-t)*v1` to `res`. -/
theorem segment_segment_intersection_computes (EPSILON : ℚ) (p1 v1 p2 v2 res : Vec2d)
    (hpos : 0 < EPSILON) (h : EPSILON ≤ |v1.x * v2.y - v2.x * v1.y|) :
    ((segment_segment_intersection EPSILON p1 v1 p2 v2 res).1 = true ↔
      (0 ≤ (v1.x * (p1.y - p2.y) - v1.y * (p1.x - p2.x)) / (v1.x * v2.y - v2.x * v1.y)
        ∧ (v1.x * (p1.y - p2.y) - v1.y * (p1.x - p2.x)) / (v1.x * v2.y - v2.x * v1.y) ≤ 1
        ∧ 0 ≤ -((v2.x * (p1.y - p2.y) - v2.y * (p1.x - p2.x)) / (v1.x * v2.y - v2.x * v1.y))
        ∧ -((v2.x * (p1.y - p2.y) - v2.y * (p1.x - p2.x)) / (v1.x * v2.y - v2.x * v1.y)) ≤ 1))
      := by
  set d := v1.x * v2.y - v2.x * v1.y with hd
  set sn := v1.x * (p1.y - p2.y) - v1.y * (p1.x - p2.x) with hsn
  set tn := v2.x * (p1.y - p2.y) - v2.y * (p1.x - p2.x) with htn
  have hd0 : d ≠ 0 := by
    intro h0; rw [h0, abs_zero] at h; linarith
  have hlt : ¬ |d| < EPSILON := not_lt.mpr h
  unfold segment_segment_intersection
  simp only [← hd, hlt, if_false, ← hsn, ← htn]
  rcases lt_or_gt_of_ne hd0 with hneg | hpos'
  · have hnd : 0 < -d := by linarith
    simp only [hneg, if_true, Bool.not_true, Bool.false_eq_true, if_false]
    have e1 : sn / d = (-sn) / (-d) := by rw [neg_div_neg_eq]
    have e2 : -(tn / d) = tn / (-d) := by rw [div_neg]
    rw [e1, e2, le_div_iff₀ hnd, div_le_iff₀ hnd, le_div_iff₀ hnd, div_le_iff₀ hnd]
    by_cases c1 : -sn < 0
    · simp only [c1, if_true]
      constructor
      · intro hh; exact absurd hh (by simp)
      · rintro ⟨a, -⟩; linarith
    · simp only [c1, if_false]
      by_cases c2 : tn < 0 ∨ -sn > -d ∨ tn > -d
      · simp only [c2, if_true]
        constructor
        · intro hh; exact absurd hh (by simp)
        · rintro ⟨a, b, c, e⟩
          rcases c2 with c2 | c2 | c2 <;> linarith
      · simp only [c2, if_false, true_iff]
        push_neg at c2
        refine ⟨by linarith, by linarith [c2.2.1], by linarith [c2.1], by linarith [c2.2.2]⟩
  · have hnn : ¬ d < 0 := by linarith
    simp only [hnn, if_false, Bool.not_false, if_true]
    have e2 : -(tn / d) = (-tn) / d := by rw [neg_div]
    rw [e2, le_div_iff₀ hpos', div_le_iff₀ hpos', le_div_iff₀ hpos', div_le_iff₀ hpos']
    by_cases c1 : sn < 0
    · simp only [c1, if_true]
      constructor
      · intro hh; exact absurd hh (by simp)
      · rintro ⟨a, -⟩; linarith
    · simp only [c1, if_false]
      by_cases c2 : -tn < 0 ∨ sn > d ∨ -tn > d
      · simp only [c2, if_true]
        constructor
        · intro hh; exact absurd hh (by simp)
        · rintro ⟨a, b, c, e⟩
          rcases c2 with c2 | c2 | c2 <;> linarith
      · simp only [c2, if_false, true_iff]
        push_neg at c2
        refine ⟨by linarith, by linarith [c2.2.1], by linarith [c2.1], by linarith [c2.2.2]⟩

/-- C2 (the code at a failing input): the segments from `(0,0)` to `(2,0)` and from `(1,-1)`
to `(1,1)` are not parallel and cross at `(1,0)`, with `t = s = 1/2`, and yet
`segment_segment_intersection` returns false. -/
theorem segment_segment_intersection_misses_crossing :
    (1 / 10000 : ℚ) ≤ |(2 : ℚ) * 2 - 0 * 0|
      ∧ (∃ t s : ℚ, 0 ≤ t ∧ t ≤ 1 ∧ 0 ≤ s ∧ s ≤ 1
          ∧ (0 : ℚ) + t * 2 = 1 + s * 0 ∧ (0 : ℚ) + t * 0 = -1 + s * 2)
      ∧ segment_segment_intersection (1 / 10000) ⟨0, 0⟩ ⟨2, 0⟩ ⟨1, -1⟩ ⟨0, 2⟩ ⟨7, 7⟩
          = (false, ⟨7, 7⟩) := by
  refine ⟨by norm_num, ⟨1 / 2, 1 / 2, by norm_num⟩, ?_⟩
  norm_num [segment_segment_intersection]

/-- C3 (the code at a failing input): for the segment from `(0,0)` to `(2,0)` and the segment
from `(-1,-1)` to `(-1,1)`, which have no common point, `segment_segment_intersection` returns
true and writes `(1,0)` to `res`, a point that is not on the line of the second segment. -/
theorem segment_segment_intersection_res_off_segment :
    segment_segment_intersection (1 / 10000) ⟨0, 0⟩ ⟨2, 0⟩ ⟨-1, -1⟩ ⟨0, 2⟩ ⟨7, 7⟩
        = (true, ⟨1, 0⟩)
      ∧ ¬ ∃ s : ℚ, (1 : ℚ) = -1 + s * 0 ∧ (0 : ℚ) = -1 + s * 2 := by
  refine ⟨by norm_num [segment_segment_intersection], ?_⟩
  rintro ⟨s, h1, -⟩
  norm_num at h1

/-- C4 (the code at a failing input): the non-parallel segments from `(0,0)` to `(2,0)` and
from `(2,0)` to `(2,2)` share exactly the endpoint `p1 + v1 = p2 = (2,0)`, and
`segment_segment_intersection` returns false, leaving `res` as it was. -/
theorem segment_segment_intersection_shared_endpoint_missed :
    (1 / 10000 : ℚ) ≤ |(2 : ℚ) * 2 - 0 * 0|
      ∧ ((0 : ℚ) + 2 = 2 ∧ (0 : ℚ) + 0 = 0)
      ∧ segment_segment_intersection (1 / 10000) ⟨0, 0⟩ ⟨2, 0⟩ ⟨2, 0⟩ ⟨0, 2⟩ ⟨7, 7⟩
          = (false, ⟨7, 7⟩) := by
  refine ⟨by norm_num, by norm_num, ?_⟩
  norm_num [segment_segment_intersection]

/-! ### The winding test `is_ccw` -/

theorem lexLe_refl (p : Point) : lexLe p p := Or.inr ⟨rfl, le_refl _⟩

theorem lexLe_of_lexLt {p q : Point} (h : lexLt p q) : lexLe p q := by
  unfold lexLt at h; unfold lexLe; omega

theorem lexLe_of_not_lexLt {p q : Point} (h : ¬ lexLt p q) : lexLe q p := by
  unfold lexLt at h; unfold lexLe; omega

theorem lexLt_of_lexLt_of_lexLe {p q r : Point} (h1 : lexLt p q) (h2 : lexLe q r) :
    lexLt p r := by
  unfold lexLt at *; unfold lexLe at h2; omega

theorem lexLe_trans {p q r : Point} (h1 : lexLe p q) (h2 : lexLe q r) : lexLe p r := by
  unfold lexLe at *; omega

theorem not_lexLt_of_lexLe {p q : Point} (h : lexLe p q) : ¬ lexLt q p := by
  unfold lexLe at h; unfold lexLt; omega

theorem eq_of_lexLe_of_lexLe {p q : Point} (h1 : lexLe p q) (h2 : lexLe q p) : p = q := by
  unfold lexLe at *
  cases p; cases q
  simp only [Point.mk.injEq] at *
  omega

/-- One run of the search loop of `is_ccw` keeps the first lexicographically smallest index. -/
theorem is_ccw_loop_spec (points : List Point) :
    ∀ (fuel i imin : Nat), IsFirstLexMin points i imin →
      IsFirstLexMin points (i + fuel) (is_ccw_loop points fuel i imin) := by
  intro fuel
  induction fuel with
  | zero => intro i imin h; simpa [is_ccw_loop] using h
  | succ f ih =>
    intro i imin h
    obtain ⟨h1, h2, h3⟩ := h
    have key : IsFirstLexMin points (i + 1)
        (if (points.getD i ⟨0, 0⟩).x < (points.getD imin ⟨0, 0⟩).x
            ∨ ((points.getD i ⟨0, 0⟩).x = (points.getD imin ⟨0, 0⟩).x
              ∧ (points.getD i ⟨0, 0⟩).y < (points.getD imin ⟨0, 0⟩).y) then i else imin) := by
      by_cases hc : lexLt (pt points i) (pt points imin)
      · have hc' := hc
        unfold lexLt pt at hc'
        rw [if_pos hc']
        refine ⟨Nat.lt_succ_self i, ?_, ?_⟩
        · intro j hj
          rcases Nat.lt_succ_iff_lt_or_eq.mp hj with hj | hj
          · exact lexLe_of_lexLt (lexLt_of_lexLt_of_lexLe hc (h2 j hj))
          · subst hj; exact lexLe_refl _
        · intro j hj
          exact lexLt_of_lexLt_of_lexLe hc (h2 j hj)
      · have hc' := hc
        unfold lexLt pt at hc'
        rw [if_neg hc']
        refine ⟨Nat.lt_succ_of_lt h1, ?_, h3⟩
        intro j hj
        rcases Nat.lt_succ_iff_lt_or_eq.mp hj with hj | hj
        · exact h2 j hj
        · subst hj; exact lexLe_of_not_lexLt hc
    have := ih (i + 1) _ key
    rw [Nat.add_assoc, Nat.add_comm 1 f] at this
    simpa [is_ccw_loop] using this

theorem is_ccw_imin_spec (points : List Point) (hn : 1 ≤ points.length) :
    IsFirstLexMin points points.length (is_ccw_imin points) := by
  have h0 : IsFirstLexMin points 1 0 :=
    ⟨Nat.one_pos, fun j hj => by
      have : j = 0 := by omega
      subst this; exact lexLe_refl _, fun j hj => absurd hj (Nat.not_lt_zero j)⟩
  have := is_ccw_loop_spec points (points.length - 1) 1 0 h0
  rw [show 1 + (points.length - 1) = points.length by omega] at this
  exact this

theorem isFirstLexMin_unique {points : List Point} {k i j : Nat}
    (hi : IsFirstLexMin points k i) (hj : IsFirstLexMin points k j) : i = j := by
  rcases Nat.lt_trichotomy i j with h | h | h
  · exact absurd (hj.2.2 i h) (not_lexLt_of_lexLe (hi.2.1 j hj.1))
  · exact h
  · exact absurd (hi.2.2 j h) (not_lexLt_of_lexLe (hj.2.1 i hi.1))

theorem is_ccw_iPrev_eq (points : List Point) (i : Nat) (hi : i < points.length) :
    is_ccw_iPrev points i = (i + points.length - 1) % points.length := by
  unfold is_ccw_iPrev
  by_cases h : i = 0
  · subst h
    simp only [if_true, Nat.zero_add]
    rw [Nat.mod_eq_of_lt (by omega)]
  · rw [if_neg h]
    have : i + points.length - 1 = (i - 1) + points.length := by omega
    rw [this, Nat.add_mod_right, Nat.mod_eq_of_lt (by omega)]

theorem is_ccw_iNext_eq (points : List Point) (i : Nat) (hi : i < points.length) :
    is_ccw_iNext points i = (i + 1) % points.length := by
  unfold is_ccw_iNext
  by_cases h : i + 1 = points.length
  · rw [if_pos h, h, Nat.mod_self]
  · rw [if_neg h, Nat.mod_eq_of_lt (by omega)]

/-- C9: for every polygon `P` with `n >= 3` points there is exactly one index `i` that is the
first index of the lexicographically smallest point (`P[i] <= P[j]` for every `j`, and
`P[j]` strictly greater than `P[i]` for every `j < i`), and `is_ccw(P)` equals
`orient(P[(i-1) mod n], P[i], P[(i+1) mod n]) == ORIENTATION_CCW` for it. -/
theorem is_ccw_first_lexmin_corner (P : List Point) (hn : 3 ≤ P.length) :
    ∃ i, i < P.length
      ∧ (∀ j, j < P.length → lexLe (pt P i) (pt P j))
      ∧ (∀ j, j < i → lexLt (pt P i) (pt P j))
      ∧ (∀ k, k < P.length → (∀ j, j < P.length → lexLe (pt P k) (pt P j))
          → (∀ j, j < k → lexLt (pt P k) (pt P j)) → k = i)
      ∧ is_ccw P = decide (orient (pt P ((i + P.length - 1) % P.length)) (pt P i)
          (pt P ((i + 1) % P.length)) = .ORIENTATION_CCW) := by
  have hspec := is_ccw_imin_spec P (by omega)
  refine ⟨is_ccw_imin P, hspec.1, hspec.2.1, hspec.2.2, ?_, ?_⟩
  · intro k hk h1 h2
    exact isFirstLexMin_unique ⟨hk, h1, h2⟩ hspec
  · unfold is_ccw is_ccw_corner
    rw [if_neg (by omega)]
    simp only [is_ccw_iPrev_eq P _ hspec.1, is_ccw_iNext_eq P _ hspec.1, pt]

theorem is_ccw_first_lexmin_corner_witness :
    ∃ i, i < [(⟨3, 1⟩ : Point), ⟨0, 5⟩, ⟨0, 2⟩, ⟨4, 4⟩].length
      ∧ (∀ j, j < [(⟨3, 1⟩ : Point), ⟨0, 5⟩, ⟨0, 2⟩, ⟨4, 4⟩].length →
          lexLe (pt [⟨3, 1⟩, ⟨0, 5⟩, ⟨0, 2⟩, ⟨4, 4⟩] i) (pt [⟨3, 1⟩, ⟨0, 5⟩, ⟨0, 2⟩, ⟨4, 4⟩] j))
      ∧ (∀ j, j < i →
          lexLt (pt [⟨3, 1⟩, ⟨0, 5⟩, ⟨0, 2⟩, ⟨4, 4⟩] i) (pt [⟨3, 1⟩, ⟨0, 5⟩, ⟨0, 2⟩, ⟨4, 4⟩] j))
      ∧ (∀ k, k < [(⟨3, 1⟩ : Point), ⟨0, 5⟩, ⟨0, 2⟩, ⟨4, 4⟩].length
          → (∀ j, j < [(⟨3, 1⟩ : Point), ⟨0, 5⟩, ⟨0, 2⟩, ⟨4, 4⟩].length →
              lexLe (pt [⟨3, 1⟩, ⟨0, 5⟩, ⟨0, 2⟩, ⟨4, 4⟩] k)
                (pt [⟨3, 1⟩, ⟨0, 5⟩, ⟨0, 2⟩, ⟨4, 4⟩] j))
          → (∀ j, j < k →
              lexLt (pt [⟨3, 1⟩, ⟨0, 5⟩, ⟨0, 2⟩, ⟨4, 4⟩] k)
                (pt [⟨3, 1⟩, ⟨0, 5⟩, ⟨0, 2⟩, ⟨4, 4⟩] j)) → k = i)
      ∧ is_ccw [⟨3, 1⟩, ⟨0, 5⟩, ⟨0, 2⟩, ⟨4, 4⟩]
          = decide (orient
              (pt [⟨3, 1⟩, ⟨0, 5⟩, ⟨0, 2⟩, ⟨4, 4⟩]
                ((i + [(⟨3, 1⟩ : Point), ⟨0, 5⟩, ⟨0, 2⟩, ⟨4, 4⟩].length - 1)
                  % [(⟨3, 1⟩ : Point), ⟨0, 5⟩, ⟨0, 2⟩, ⟨4, 4⟩].length))
              (pt [⟨3, 1⟩, ⟨0, 5⟩, ⟨0, 2⟩, ⟨4, 4⟩] i)
              (pt [⟨3, 1⟩, ⟨0, 5⟩, ⟨0, 2⟩, ⟨4, 4⟩]
                ((i + 1) % [(⟨3, 1⟩ : Point), ⟨0, 5⟩, ⟨0, 2⟩, ⟨4, 4⟩].length))
              = .ORIENTATION_CCW) :=
  is_ccw_first_lexmin_corner [⟨3, 1⟩, ⟨0, 5⟩, ⟨0, 2⟩, ⟨4, 4⟩] (by decide)

/-! ### Reversal of a polygon -/

theorem cross_rotate (a b c : Point) : cross b c a = cross a b c := by
  unfold cross; ring

/-- Two segments `AB` and `BC` that are not collinear meet only at `B`. -/
theorem segments_meet_at_vertex {a b c : Point} (h : cross a b c ≠ 0) {x y : ℚ}
    (h1 : OnSegment a b x y) (h2 : OnSegment b c x y) : x = b.x ∧ y = b.y := by
  obtain ⟨t, -, -, hx1, hy1⟩ := h1
  obtain ⟨s, -, -, hx2, hy2⟩ := h2
  have hq : (((b.x : ℚ) - a.x) * (c.y - a.y) - (b.y - a.y) * (c.x - a.x)) ≠ 0 := by
    intro h0
    apply h
    unfold cross
    exact_mod_cast h0
  have key : (1 - t) * (((b.x : ℚ) - a.x) * (c.y - a.y) - (b.y - a.y) * (c.x - a.x)) = 0 := by
    have ex : (1 - t) * ((b.x : ℚ) - a.x) = - s * (c.x - b.x) := by linarith
    have ey : (1 - t) * ((b.y : ℚ) - a.y) = - s * (c.y - b.y) := by linarith
    linear_combination ((c.y : ℚ) - b.y) * ex - ((c.x : ℚ) - b.x) * ey
  have ht : t = 1 := by
    rcases mul_eq_zero.mp key with h0 | h0
    · linarith
    · exact absurd h0 hq
  subst ht
  exact ⟨by rw [hx1]; ring, by rw [hy1]; ring⟩

/-- A triangle that is not degenerate is a simple polygon. -/
theorem triangle_simple (a b c : Point) (h : cross a b c ≠ 0) : Simple [a, b, c] := by
  have hb : cross b c a ≠ 0 := by rw [cross_rotate]; exact h
  have hc : cross c a b ≠ 0 := by rw [cross_rotate, cross_rotate]; exact h
  intro i j hi hj hij x y h1 h2
  simp only [List.length_cons, List.length_nil, Nat.zero_add, Nat.reduceAdd] at hi hj h1 h2 ⊢
  interval_cases i <;> interval_cases j <;>
    simp only [pt, List.getD_cons_zero, List.getD_cons_succ, Nat.reduceAdd, Nat.reduceMod,
      ne_eq, not_true_eq_false] at hij h1 h2 ⊢
  · exact Or.inl ⟨trivial, segments_meet_at_vertex h h1 h2⟩
  · exact Or.inr ⟨trivial, segments_meet_at_vertex hc h2 h1⟩
  · exact Or.inr ⟨trivial, segments_meet_at_vertex h h2 h1⟩
  · exact Or.inl ⟨trivial, segments_meet_at_vertex hb h1 h2⟩
  · exact Or.inl ⟨trivial, segments_meet_at_vertex hc h1 h2⟩
  · exact Or.inr ⟨trivial, segments_meet_at_vertex hb h2 h1⟩

theorem pt_eq_getElem (P : List Point) {i : Nat} (h : i < P.length) : pt P i = P[i] := by
  unfold pt
  exact List.getD_eq_getElem _ _ h

theorem pt_mem (P : List Point) {i : Nat} (h : i < P.length) : pt P i ∈ P := by
  rw [pt_eq_getElem P h]
  exact List.getElem_mem h

theorem pt_inj {P : List Point} (hd : P.Nodup) {i j : Nat} (hi : i < P.length)
    (hj : j < P.length) (h : pt P i = pt P j) : i = j := by
  rw [pt_eq_getElem P hi, pt_eq_getElem P hj] at h
  exact (hd.getElem_inj_iff).mp h

theorem pt_reverse (P : List Point) {k : Nat} (h : k < P.length) :
    pt P.reverse k = pt P (P.length - 1 - k) := by
  have h1 : k < P.reverse.length := by simpa using h
  rw [pt_eq_getElem _ h1, pt_eq_getElem P (by omega), List.getElem_reverse]

theorem lexLt_of_lexLe_of_ne {p q : Point} (h : lexLe p q) (hne : p ≠ q) : lexLt p q := by
  unfold lexLe at h
  unfold lexLt
  rcases h with h | ⟨h1, h2⟩
  · exact Or.inl h
  · refine Or.inr ⟨h1, lt_of_le_of_ne h2 ?_⟩
    intro h3
    apply hne
    cases p; cases q
    simp only [Point.mk.injEq]
    exact ⟨h1, h3⟩

/-- Two edges leaving a vertex `b` towards lexicographically greater points `a` and `c`
collinear with `b` overlap in more than `b`. -/
theorem colinear_corner_overlap (a b c : Point) (ha : lexLt b a) (hc : lexLt b c)
    (h0 : cross a b c = 0) :
    ∃ x y : ℚ, OnSegment a b x y ∧ OnSegment b c x y ∧ ¬ (x = b.x ∧ y = b.y) := by
  have hq : ((a.x : ℚ) - b.x) * (c.y - b.y) - (a.y - b.y) * (c.x - b.x) = 0 := by
    have : (a.x - b.x) * (c.y - b.y) - (a.y - b.y) * (c.x - b.x) = 0 := by
      unfold cross at h0; linarith
    exact_mod_cast this
  -- a scalar `l > 0` with `c - b = l * (a - b)`
  have hl : ∃ l : ℚ, 0 < l ∧ (c.x : ℚ) - b.x = l * (a.x - b.x)
      ∧ (c.y : ℚ) - b.y = l * (a.y - b.y) := by
    unfold lexLt at ha hc
    rcases ha with ha | ⟨ha1, ha2⟩
    · have hpx : (0 : ℚ) < (a.x : ℚ) - b.x := by
        have : (b.x : ℚ) < a.x := by exact_mod_cast ha
        linarith
      have hcx : (b.x : ℚ) < c.x := by
        rcases hc with hc | ⟨hc1, hc2⟩
        · exact_mod_cast hc
        · exfalso
          have e1 : (c.x : ℚ) - b.x = 0 := by
            have : (b.x : ℚ) = c.x := by exact_mod_cast hc1
            linarith
          have e2 : (0 : ℚ) < (c.y : ℚ) - b.y := by
            have : (b.y : ℚ) < c.y := by exact_mod_cast hc2
            linarith
          rw [e1, mul_zero, sub_zero] at hq
          have := mul_pos hpx e2
          linarith
      refine ⟨((c.x : ℚ) - b.x) / (a.x - b.x), div_pos (by linarith) hpx, ?_, ?_⟩
      · field_simp
      · field_simp
        linarith
    · have hpx : (a.x : ℚ) - b.x = 0 := by
        have : (b.x : ℚ) = a.x := by exact_mod_cast ha1
        linarith
      have hpy : (0 : ℚ) < (a.y : ℚ) - b.y := by
        have : (b.y : ℚ) < a.y := by exact_mod_cast ha2
        linarith
      rw [hpx, zero_mul, zero_sub, neg_eq_zero] at hq
      have hqx : (c.x : ℚ) - b.x = 0 := by
        rcases mul_eq_zero.mp hq with h | h
        · linarith
        · exact h
      have hqy : (0 : ℚ) < (c.y : ℚ) - b.y := by
        rcases hc with hc | ⟨hc1, hc2⟩
        · have : (b.x : ℚ) < c.x := by exact_mod_cast hc
          linarith
        · have : (b.y : ℚ) < c.y := by exact_mod_cast hc2
          linarith
      refine ⟨((c.y : ℚ) - b.y) / (a.y - b.y), div_pos hqy hpy, ?_, ?_⟩
      · rw [hpx, hqx, mul_zero]
      · field_simp
  have hab : ¬ ((a.x : ℚ) = b.x ∧ (a.y : ℚ) = b.y) := by
    rintro ⟨h1, h2⟩
    have h1' : a.x = b.x := by exact_mod_cast h1
    have h2' : a.y = b.y := by exact_mod_cast h2
    unfold lexLt at ha
    omega
  have hcb : ¬ ((c.x : ℚ) = b.x ∧ (c.y : ℚ) = b.y) := by
    rintro ⟨h1, h2⟩
    have h1' : c.x = b.x := by exact_mod_cast h1
    have h2' : c.y = b.y := by exact_mod_cast h2
    unfold lexLt at hc
    omega
  obtain ⟨l, hl0, hlx, hly⟩ := hl
  by_cases h1 : l ≤ 1
  · -- `c` lies on the edge from `a` to `b`
    refine ⟨c.x, c.y, ⟨1 - l, by linarith, by linarith, by linarith, by linarith⟩,
      ⟨1, by norm_num, le_refl _, by ring, by ring⟩, hcb⟩
  · -- `a` lies on the edge from `b` to `c`
    have hl1 : 1 < l := not_le.mp h1
    refine ⟨a.x, a.y, ⟨0, le_refl _, by norm_num, by ring, by ring⟩,
      ⟨1 / l, by positivity, by rw [div_le_one hl0]; linarith, ?_, ?_⟩, hab⟩
    · rw [hlx]; field_simp
    · rw [hly]; field_simp

theorem iPrev_facts (P : List Point) {i : Nat} (hn : 3 ≤ P.length) (hi : i < P.length) :
    is_ccw_iPrev P i < P.length ∧ is_ccw_iPrev P i ≠ i
      ∧ (is_ccw_iPrev P i + 1) % P.length = i := by
  unfold is_ccw_iPrev
  by_cases h : i = 0
  · subst h
    simp only [if_true]
    refine ⟨by omega, by omega, ?_⟩
    rw [show P.length - 1 + 1 = P.length by omega, Nat.mod_self]
  · rw [if_neg h]
    refine ⟨by omega, by omega, ?_⟩
    rw [show i - 1 + 1 = i by omega, Nat.mod_eq_of_lt hi]

theorem iNext_facts (P : List Point) {i : Nat} (hn : 3 ≤ P.length) (hi : i < P.length) :
    is_ccw_iNext P i < P.length ∧ is_ccw_iNext P i ≠ i
      ∧ is_ccw_iNext P i ≠ is_ccw_iPrev P i := by
  unfold is_ccw_iNext is_ccw_iPrev
  by_cases h : i + 1 = P.length
  · rw [if_pos h]
    by_cases h0 : i = 0
    · omega
    · rw [if_neg h0]; omega
  · rw [if_neg h]
    by_cases h0 : i = 0
    · rw [if_pos h0]; omega
    · rw [if_neg h0]; omega

/-- In a polygon without duplicate points the lexicographically smallest point is strictly
smaller than every other point. -/
theorem lexmin_strict {P : List Point} (hd : P.Nodup) {i : Nat}
    (hi : IsFirstLexMin P P.length i) {j : Nat} (hj : j < P.length) (hne : j ≠ i) :
    lexLt (pt P i) (pt P j) :=
  lexLt_of_lexLe_of_ne (hi.2.1 j hj) (fun h => hne (pt_inj hd hi.1 hj h).symm)

/-- The corner at the lexicographically smallest point of a simple polygon without duplicate
points is not collinear. -/
theorem corner_cross_ne_zero {P : List Point} (hs : Simple P) (hn : 3 ≤ P.length)
    (hd : P.Nodup) {i : Nat} (hi : IsFirstLexMin P P.length i) :
    cross (pt P (is_ccw_iPrev P i)) (pt P i) (pt P (is_ccw_iNext P i)) ≠ 0 := by
  intro h0
  obtain ⟨hp1, hp2, hp3⟩ := iPrev_facts P hn hi.1
  obtain ⟨hn1, hn2, hn3⟩ := iNext_facts P hn hi.1
  obtain ⟨x, y, hx1, hx2, hx3⟩ := colinear_corner_overlap _ _ _
    (lexmin_strict hd hi hp1 hp2) (lexmin_strict hd hi hn1 hn2) h0
  have key := hs (is_ccw_iPrev P i) i hp1 hi.1 hp2 x y
    (by rw [hp3]; exact hx1) (by rw [← is_ccw_iNext_eq P i hi.1]; exact hx2)
  rcases key with ⟨-, k1, k2⟩ | ⟨k, -, -⟩
  · exact hx3 ⟨k1, k2⟩
  · rw [← is_ccw_iNext_eq P i hi.1] at k
    exact hn3 k.symm

/-- The search of `is_ccw` on the reversed polygon ends at the mirrored index. -/
theorem is_ccw_imin_reverse {P : List Point} (hn : 1 ≤ P.length) (hd : P.Nodup) :
    is_ccw_imin P.reverse = P.length - 1 - is_ccw_imin P := by
  have hi := is_ccw_imin_spec P hn
  have hr := is_ccw_imin_spec P.reverse (by simpa using hn)
  rw [List.length_reverse] at hr
  refine @isFirstLexMin_unique P.reverse P.length _ _ ?_ ?_
  · simpa using hr
  · refine ⟨by have := hi.1; omega, ?_, ?_⟩
    · intro j hj
      rw [pt_reverse P hj, pt_reverse P (by have := hi.1; omega)]
      rw [show P.length - 1 - (P.length - 1 - is_ccw_imin P) = is_ccw_imin P by
        have := hi.1; omega]
      exact hi.2.1 _ (by omega)
    · intro j hj
      have hjn : j < P.length := by omega
      rw [pt_reverse P hjn, pt_reverse P (by have := hi.1; omega)]
      rw [show P.length - 1 - (P.length - 1 - is_ccw_imin P) = is_ccw_imin P by
        have := hi.1; omega]
      exact lexmin_strict hd hi (by omega) (by omega)

/-- The corner examined by `is_ccw` on the reversed polygon is the corner of the polygon
itself with its two neighbours exchanged. -/
theorem is_ccw_corner_reverse {P : List Point} (hn : 3 ≤ P.length) (hd : P.Nodup) :
    is_ccw_corner P.reverse
      = orient (pt P (is_ccw_iNext P (is_ccw_imin P))) (pt P (is_ccw_imin P))
          (pt P (is_ccw_iPrev P (is_ccw_imin P))) := by
  have hi := (is_ccw_imin_spec P (by omega)).1
  unfold is_ccw_corner
  simp only [is_ccw_imin_reverse (by omega : 1 ≤ P.length) hd]
  have e1 : P.reverse.getD (is_ccw_iPrev P.reverse (P.length - 1 - is_ccw_imin P)) ⟨0, 0⟩
      = pt P (is_ccw_iNext P (is_ccw_imin P)) := by
    have hlt : is_ccw_iPrev P.reverse (P.length - 1 - is_ccw_imin P) < P.length := by
      unfold is_ccw_iPrev; rw [List.length_reverse]; split <;> omega
    have := pt_reverse P hlt
    unfold pt at this ⊢
    rw [this]
    congr 1
    unfold is_ccw_iPrev is_ccw_iNext
    rw [List.length_reverse]
    split <;> split <;> omega
  have e2 : P.reverse.getD (is_ccw_iNext P.reverse (P.length - 1 - is_ccw_imin P)) ⟨0, 0⟩
      = pt P (is_ccw_iPrev P (is_ccw_imin P)) := by
    have hlt : is_ccw_iNext P.reverse (P.length - 1 - is_ccw_imin P) < P.length := by
      unfold is_ccw_iNext; rw [List.length_reverse]; split <;> omega
    have := pt_reverse P hlt
    unfold pt at this ⊢
    rw [this]
    congr 1
    unfold is_ccw_iPrev is_ccw_iNext
    rw [List.length_reverse]
    split <;> split <;> omega
  have e3 : P.reverse.getD (P.length - 1 - is_ccw_imin P) ⟨0, 0⟩ = pt P (is_ccw_imin P) := by
    have := pt_reverse P (k := P.length - 1 - is_ccw_imin P) (by omega)
    unfold pt at this ⊢
    rw [this]
    congr 1
    omega
  rw [e1, e2, e3]

/-- C8 (amended): for every simple polygon `P` with at least 3 points, no duplicate points and
all coordinates within the 30-bit bound, `is_ccw(reverse(P)) = not is_ccw(P)`. -/
theorem is_ccw_reverse_of_bound (P : List Point) (hs : Simple P) (hn : 3 ≤ P.length)
    (hd : P.Nodup) (hb : ∀ p ∈ P, InBound p) :
    is_ccw P.reverse = !is_ccw P := by
  have hi := is_ccw_imin_spec P (by omega)
  obtain ⟨hp1, -, -⟩ := iPrev_facts P hn hi.1
  obtain ⟨hn1, -, -⟩ := iNext_facts P hn hi.1
  have hc := corner_cross_ne_zero hs hn hd hi
  have ba := hb _ (pt_mem P hp1)
  have bb := hb _ (pt_mem P hi.1)
  have bc := hb _ (pt_mem P hn1)
  have d1 := orient_d_eq_cross ba bb bc
  have d2 := orient_d_eq_cross bc bb ba
  rw [cross_reverse] at d2
  unfold is_ccw
  rw [List.length_reverse, if_neg (by omega), if_neg (by omega), is_ccw_corner_reverse hn hd]
  have e : is_ccw_corner P = orient (pt P (is_ccw_iPrev P (is_ccw_imin P)))
      (pt P (is_ccw_imin P)) (pt P (is_ccw_iNext P (is_ccw_imin P))) := rfl
  rw [e]
  by_cases h : 0 < cross (pt P (is_ccw_iPrev P (is_ccw_imin P))) (pt P (is_ccw_imin P))
      (pt P (is_ccw_iNext P (is_ccw_imin P)))
  · have h1 := (orient_ccw_iff _ _ _).mpr (d1 ▸ h)
    have h2 : ¬ orient (pt P (is_ccw_iNext P (is_ccw_imin P))) (pt P (is_ccw_imin P))
        (pt P (is_ccw_iPrev P (is_ccw_imin P))) = .ORIENTATION_CCW := by
      rw [orient_ccw_iff, d2]; omega
    simp [h1, h2]
  · have h1 : ¬ orient (pt P (is_ccw_iPrev P (is_ccw_imin P))) (pt P (is_ccw_imin P))
        (pt P (is_ccw_iNext P (is_ccw_imin P))) = .ORIENTATION_CCW := by
      rw [orient_ccw_iff, d1]; exact h
    have h2 : orient (pt P (is_ccw_iNext P (is_ccw_imin P))) (pt P (is_ccw_imin P))
        (pt P (is_ccw_iPrev P (is_ccw_imin P))) = .ORIENTATION_CCW := by
      rw [orient_ccw_iff, d2]; omega
    simp [h1, h2]

theorem is_ccw_reverse_of_bound_witness :
    is_ccw ([⟨0, 0⟩, ⟨4, 0⟩, ⟨0, 3⟩] : List Point).reverse = !is_ccw [⟨0, 0⟩, ⟨4, 0⟩, ⟨0, 3⟩] :=
  is_ccw_reverse_of_bound [⟨0, 0⟩, ⟨4, 0⟩, ⟨0, 3⟩] (triangle_simple _ _ _ (by decide))
    (by decide) (by decide) (by decide)

set_option maxRecDepth 100000 in
/-- C8 as stated fails beyond the coordinate bound: `overflowTriangle` is a simple polygon with
3 points and no duplicate points, its corner value `d = 2^63` wraps to `-2^63` in `int64_t`,
and `is_ccw` returns false for the triangle and for its reverse alike. -/
theorem is_ccw_reverse_overflow :
    Simple overflowTriangle ∧ 3 ≤ overflowTriangle.length ∧ overflowTriangle.Nodup
      ∧ is_ccw overflowTriangle.reverse ≠ !is_ccw overflowTriangle := by
  refine ⟨triangle_simple _ _ _ (by decide), by decide, by decide, ?_⟩
  decide

/-! ### Orientation of simple polygons -/

theorem crq_pt (a p c : Point) : crq a p c.x c.y = (cross a p c : ℚ) := by
  unfold crq cross; push_cast; ring

theorem onSegment_symm {r t : Point} {x y : ℚ} (h : OnSegment r t x y) : OnSegment t r x y := by
  obtain ⟨s, h0, h1, hx, hy⟩ := h
  exact ⟨1 - s, by linarith, by linarith, by rw [hx]; ring, by rw [hy]; ring⟩

theorem onSegment_left (r t : Point) : OnSegment r t r.x r.y :=
  ⟨0, le_refl _, zero_le_one, by ring, by ring⟩

theorem onSegment_right (r t : Point) : OnSegment r t t.x t.y :=
  ⟨1, zero_le_one, le_refl _, by ring, by ring⟩

/-- Along a segment the cross product with a fixed base is an affine function. -/
theorem crq_affine (a p r t : Point) (s : ℚ) :
    crq a p (r.x + s * (t.x - r.x)) (r.y + s * (t.y - r.y))
      = (1 - s) * crq a p r.x r.y + s * crq a p t.x t.y := by
  unfold crq; ring

/-- The three sub-triangle cross products add up to the cross product of the triangle. -/
theorem crq_sum (a p b : Point) (x y : ℚ) :
    crq a p x y + crq p b x y + crq b a x y = (cross a p b : ℚ) := by
  unfold crq cross; push_cast; ring

/-- Barycentric expression of a point in the triangle `a p b`. -/
theorem bary_x (a p b : Point) (x y : ℚ) :
    (cross a p b : ℚ) * x = crq p b x y * a.x + crq a p x y * b.x + crq b a x y * p.x := by
  unfold crq cross; push_cast; ring

theorem bary_y (a p b : Point) (x y : ℚ) :
    (cross a p b : ℚ) * y = crq p b x y * a.y + crq a p x y * b.y + crq b a x y * p.y := by
  unfold crq cross; push_cast; ring

/-- First zero of two affine functions that start non-negative, one of which ends negative. -/
theorem exit_param (u1 u2 v1 v2 : ℚ) (h1 : 0 ≤ u1) (h2 : 0 ≤ u2) (hv : v1 < 0 ∨ v2 < 0) :
    ∃ s : ℚ, 0 ≤ s ∧ s < 1 ∧
      ((u1 + s * (v1 - u1) = 0 ∧ 0 ≤ u2 + s * (v2 - u2))
        ∨ (u2 + s * (v2 - u2) = 0 ∧ 0 ≤ u1 + s * (v1 - u1))) := by
  have root : ∀ u v : ℚ, 0 ≤ u → v < 0 →
      0 ≤ u / (u - v) ∧ u / (u - v) < 1 ∧ u + u / (u - v) * (v - u) = 0 := by
    intro u v hu hv
    have hpos : 0 < u - v := by linarith
    refine ⟨div_nonneg hu hpos.le, by rw [div_lt_one hpos]; linarith, ?_⟩
    field_simp
    ring
  by_cases c1 : v1 < 0
  · by_cases c2 : v2 < 0
    · obtain ⟨a0, a1, a2⟩ := root u1 v1 h1 c1
      obtain ⟨b0, b1, b2⟩ := root u2 v2 h2 c2
      by_cases hle : u1 / (u1 - v1) ≤ u2 / (u2 - v2)
      · refine ⟨_, a0, a1, Or.inl ⟨a2, ?_⟩⟩
        have : (u2 / (u2 - v2) - u1 / (u1 - v1)) * (v2 - u2) ≤ 0 :=
          mul_nonpos_of_nonneg_of_nonpos (by linarith) (by linarith)
        nlinarith
      · refine ⟨_, b0, b1, Or.inr ⟨b2, ?_⟩⟩
        have : (u1 / (u1 - v1) - u2 / (u2 - v2)) * (v1 - u1) ≤ 0 :=
          mul_nonpos_of_nonneg_of_nonpos (by linarith) (by linarith)
        nlinarith
    · obtain ⟨a0, a1, a2⟩ := root u1 v1 h1 c1
      refine ⟨_, a0, a1, Or.inl ⟨a2, ?_⟩⟩
      have hv2 : 0 ≤ v2 := not_lt.mp c2
      have : u2 + u1 / (u1 - v1) * (v2 - u2)
          = (1 - u1 / (u1 - v1)) * u2 + u1 / (u1 - v1) * v2 := by ring
      rw [this]
      have := mul_nonneg (by linarith : (0:ℚ) ≤ 1 - u1 / (u1 - v1)) h2
      have := mul_nonneg a0 hv2
      linarith
  · have c2 : v2 < 0 := by tauto
    obtain ⟨b0, b1, b2⟩ := root u2 v2 h2 c2
    refine ⟨_, b0, b1, Or.inr ⟨b2, ?_⟩⟩
    have hv1 : 0 ≤ v1 := not_lt.mp c1
    have : u1 + u2 / (u2 - v2) * (v1 - u1)
        = (1 - u2 / (u2 - v2)) * u1 + u2 / (u2 - v2) * v1 := by ring
    rw [this]
    have := mul_nonneg (by linarith : (0:ℚ) ≤ 1 - u2 / (u2 - v2)) h1
    have := mul_nonneg b0 hv1
    linarith

theorem sq_pos_of_cross {a p b : Point} (hD : cross a p b ≠ 0) :
    (0 : ℚ) < (cross a p b : ℚ) * (cross a p b : ℚ) := by
  have : (cross a p b : ℚ) ≠ 0 := by exact_mod_cast hD
  exact mul_self_pos.mpr this

/-- A point of the line through the side, selected by the signs, lies on the side. -/
theorem hit_left_on {a p b : Point} (hD : cross a p b ≠ 0) {zx zy : ℚ}
    (h1 : crq a p zx zy = 0) (h2 : 0 ≤ (cross a p b : ℚ) * crq p b zx zy)
    (hg : 0 ≤ (cross a p b : ℚ) * crq b a zx zy) :
    OnSegment a p zx zy := by
  have hD' : (cross a p b : ℚ) ≠ 0 := by exact_mod_cast hD
  have hsq := sq_pos_of_cross hD
  have hsum := crq_sum a p b zx zy
  rw [h1, zero_add] at hsum
  have bx := bary_x a p b zx zy
  have by' := bary_y a p b zx zy
  rw [h1, zero_mul, add_zero] at bx by'
  refine ⟨crq b a zx zy / (cross a p b : ℚ), ?_, ?_, ?_, ?_⟩
  · have : crq b a zx zy / (cross a p b : ℚ)
        = ((cross a p b : ℚ) * crq b a zx zy) / ((cross a p b : ℚ) * (cross a p b : ℚ)) := by
      field_simp
      ring
    rw [this]
    exact div_nonneg hg hsq.le
  · have : crq b a zx zy / (cross a p b : ℚ)
        = ((cross a p b : ℚ) * crq b a zx zy) / ((cross a p b : ℚ) * (cross a p b : ℚ)) := by
      field_simp
      ring
    rw [this, div_le_one hsq]
    have : (cross a p b : ℚ) * (cross a p b : ℚ)
        = (cross a p b : ℚ) * crq p b zx zy + (cross a p b : ℚ) * crq b a zx zy := by
      rw [← mul_add, hsum]
    linarith
  · field_simp
    have e : crq p b zx zy = (cross a p b : ℚ) - crq b a zx zy := by linarith
    rw [e] at bx
    linarith
  · field_simp
    have e : crq p b zx zy = (cross a p b : ℚ) - crq b a zx zy := by linarith
    rw [e] at by'
    linarith

/-- A point of the line `a p` on the side of `a` and `p` selected by the signs lies on the
segment from `a` to `p` and is not `a`. -/
theorem hit_left {a p b : Point} (hD : cross a p b ≠ 0) {zx zy : ℚ}
    (h1 : crq a p zx zy = 0) (h2 : 0 ≤ (cross a p b : ℚ) * crq p b zx zy)
    (hg : 0 < (cross a p b : ℚ) * crq b a zx zy) :
    OnSegment a p zx zy ∧ ¬ (zx = a.x ∧ zy = a.y) := by
  refine ⟨hit_left_on hD h1 h2 hg.le, ?_⟩
  rintro ⟨ex, ey⟩
  have : crq b a zx zy = 0 := by
    rw [ex, ey]; unfold crq; ring
  rw [this, mul_zero] at hg
  exact lt_irrefl _ hg

/-- A point of the line through the side, selected by the signs, lies on the side. -/
theorem hit_right_on {a p b : Point} (hD : cross a p b ≠ 0) {zx zy : ℚ}
    (h2 : crq p b zx zy = 0) (h1 : 0 ≤ (cross a p b : ℚ) * crq a p zx zy)
    (hg : 0 ≤ (cross a p b : ℚ) * crq b a zx zy) :
    OnSegment p b zx zy := by
  have hD' : (cross a p b : ℚ) ≠ 0 := by exact_mod_cast hD
  have hsq := sq_pos_of_cross hD
  have hsum := crq_sum a p b zx zy
  rw [h2, add_zero] at hsum
  have bx := bary_x a p b zx zy
  have by' := bary_y a p b zx zy
  rw [h2, zero_mul, zero_add] at bx by'
  refine ⟨crq a p zx zy / (cross a p b : ℚ), ?_, ?_, ?_, ?_⟩
  · have : crq a p zx zy / (cross a p b : ℚ)
        = ((cross a p b : ℚ) * crq a p zx zy) / ((cross a p b : ℚ) * (cross a p b : ℚ)) := by
      field_simp
      ring
    rw [this]
    exact div_nonneg h1 hsq.le
  · have : crq a p zx zy / (cross a p b : ℚ)
        = ((cross a p b : ℚ) * crq a p zx zy) / ((cross a p b : ℚ) * (cross a p b : ℚ)) := by
      field_simp
      ring
    rw [this, div_le_one hsq]
    have : (cross a p b : ℚ) * (cross a p b : ℚ)
        = (cross a p b : ℚ) * crq a p zx zy + (cross a p b : ℚ) * crq b a zx zy := by
      rw [← mul_add, hsum]
    linarith
  · field_simp
    have e : crq b a zx zy = (cross a p b : ℚ) - crq a p zx zy := by linarith
    rw [e] at bx
    linarith
  · field_simp
    have e : crq b a zx zy = (cross a p b : ℚ) - crq a p zx zy := by linarith
    rw [e] at by'
    linarith

/-- Mirror image of `hit_left` for the segment from `p` to `b`. -/
theorem hit_right {a p b : Point} (hD : cross a p b ≠ 0) {zx zy : ℚ}
    (h2 : crq p b zx zy = 0) (h1 : 0 ≤ (cross a p b : ℚ) * crq a p zx zy)
    (hg : 0 < (cross a p b : ℚ) * crq b a zx zy) :
    OnSegment p b zx zy ∧ ¬ (zx = b.x ∧ zy = b.y) := by
  refine ⟨hit_right_on hD h2 h1 hg.le, ?_⟩
  rintro ⟨ex, ey⟩
  have : crq b a zx zy = 0 := by
    rw [ex, ey]; unfold crq; ring
  rw [this, mul_zero] at hg
  exact lt_irrefl _ hg

theorem crq_affine_q (a p t : Point) (x y s : ℚ) :
    crq a p (x + s * (t.x - x)) (y + s * (t.y - y))
      = (1 - s) * crq a p x y + s * crq a p t.x t.y := by
  unfold crq; ring

theorem onSegment_toward {r t : Point} {x y : ℚ} (h : OnSegment r t x y) {s : ℚ}
    (h0 : 0 ≤ s) (h1 : s ≤ 1) : OnSegment r t (x + s * (t.x - x)) (y + s * (t.y - y)) := by
  obtain ⟨q, q0, q1, hx, hy⟩ := h
  refine ⟨q + s * (1 - q), ?_, ?_, by rw [hx]; ring, by rw [hy]; ring⟩
  · have := mul_nonneg h0 (by linarith : (0:ℚ) ≤ 1 - q); linarith
  · have : s * (1 - q) ≤ 1 * (1 - q) := mul_le_mul_of_nonneg_right h1 (by linarith)
    linarith

/-- Walking from a point of the region (closed wedge at `p`, beyond the level `l`) towards a
point outside of it, without coming closer to the base `a b`, one meets the side `a p` or the
side `p b` of the triangle away from `a` and `b`. -/
theorem region_exit {a p b t : Point} (hD : cross a p b ≠ 0) {l : ℚ} (hl : 0 ≤ l) {x y : ℚ}
    (h1 : 0 ≤ (cross a p b : ℚ) * crq a p x y) (h2 : 0 ≤ (cross a p b : ℚ) * crq p b x y)
    (hg : l < (cross a p b : ℚ) * crq b a x y)
    (hgt : (cross a p b : ℚ) * crq b a x y ≤ (cross a p b : ℚ) * crq b a t.x t.y)
    (ht : ¬ (0 ≤ (cross a p b : ℚ) * crq a p t.x t.y ∧ 0 ≤ (cross a p b : ℚ) * crq p b t.x t.y
      ∧ l < (cross a p b : ℚ) * crq b a t.x t.y)) :
    ∃ s : ℚ, 0 ≤ s ∧ s < 1 ∧
      ((OnSegment a p (x + s * (t.x - x)) (y + s * (t.y - y))
          ∧ ¬ (x + s * (t.x - x) = a.x ∧ y + s * (t.y - y) = a.y))
        ∨ (OnSegment p b (x + s * (t.x - x)) (y + s * (t.y - y))
          ∧ ¬ (x + s * (t.x - x) = b.x ∧ y + s * (t.y - y) = b.y))) := by
  have hD' : (cross a p b : ℚ) ≠ 0 := by exact_mod_cast hD
  have hneg : (cross a p b : ℚ) * crq a p t.x t.y < 0 ∨ (cross a p b : ℚ) * crq p b t.x t.y < 0 := by
    by_contra hc
    push_neg at hc
    exact ht ⟨hc.1, hc.2, by linarith⟩
  obtain ⟨s, s0, s1, hs⟩ := exit_param _ _ _ _ h1 h2 hneg
  refine ⟨s, s0, s1, ?_⟩
  have gz : 0 < (cross a p b : ℚ) * crq b a (x + s * (t.x - x)) (y + s * (t.y - y)) := by
    rw [crq_affine_q]
    have e : (cross a p b : ℚ) * ((1 - s) * crq b a x y + s * crq b a t.x t.y)
        = (cross a p b : ℚ) * crq b a x y
          + s * ((cross a p b : ℚ) * crq b a t.x t.y - (cross a p b : ℚ) * crq b a x y) := by
      ring
    rw [e]
    have := mul_nonneg s0 (by linarith : (0:ℚ) ≤ (cross a p b : ℚ) * crq b a t.x t.y
      - (cross a p b : ℚ) * crq b a x y)
    linarith
  have a1 : (cross a p b : ℚ) * crq a p (x + s * (t.x - x)) (y + s * (t.y - y))
      = (cross a p b : ℚ) * crq a p x y
        + s * ((cross a p b : ℚ) * crq a p t.x t.y - (cross a p b : ℚ) * crq a p x y) := by
    rw [crq_affine_q]; ring
  have a2 : (cross a p b : ℚ) * crq p b (x + s * (t.x - x)) (y + s * (t.y - y))
      = (cross a p b : ℚ) * crq p b x y
        + s * ((cross a p b : ℚ) * crq p b t.x t.y - (cross a p b : ℚ) * crq p b x y) := by
    rw [crq_affine_q]; ring
  rcases hs with ⟨z1, z2⟩ | ⟨z2, z1⟩
  · left
    rw [← a1] at z1
    rw [← a2] at z2
    exact hit_left hD ((mul_eq_zero.mp z1).resolve_left hD') z2 gz
  · right
    rw [← a1] at z1
    rw [← a2] at z2
    exact hit_right hD ((mul_eq_zero.mp z2).resolve_left hD') z1 gz

/-- No point of an edge `r t` lies in the region (closed wedge at `p`, beyond the level `l`)
when its two endpoints are outside of the region and the edge meets the sides `a p` and `p b`
of the triangle at most in `a` and in `b`. -/
theorem no_point_in_region {a p b r t : Point} (hD : cross a p b ≠ 0) {l : ℚ} (hl : 0 ≤ l)
    {x y : ℚ} (hX : OnSegment r t x y)
    (h1 : 0 ≤ (cross a p b : ℚ) * crq a p x y) (h2 : 0 ≤ (cross a p b : ℚ) * crq p b x y)
    (hg : l < (cross a p b : ℚ) * crq b a x y)
    (hr : ¬ (0 ≤ (cross a p b : ℚ) * crq a p r.x r.y ∧ 0 ≤ (cross a p b : ℚ) * crq p b r.x r.y
      ∧ l < (cross a p b : ℚ) * crq b a r.x r.y))
    (ht : ¬ (0 ≤ (cross a p b : ℚ) * crq a p t.x t.y ∧ 0 ≤ (cross a p b : ℚ) * crq p b t.x t.y
      ∧ l < (cross a p b : ℚ) * crq b a t.x t.y))
    (hs1 : ∀ x' y', OnSegment r t x' y' → OnSegment a p x' y' → x' = a.x ∧ y' = a.y)
    (hs2 : ∀ x' y', OnSegment r t x' y' → OnSegment p b x' y' → x' = b.x ∧ y' = b.y) :
    False := by
  have hX' := hX
  obtain ⟨q, q0, q1, hx, hy⟩ := hX'
  have hcomb : (cross a p b : ℚ) * crq b a x y
      = (1 - q) * ((cross a p b : ℚ) * crq b a r.x r.y)
        + q * ((cross a p b : ℚ) * crq b a t.x t.y) := by
    rw [hx, hy, crq_affine]; ring
  by_cases hc : (cross a p b : ℚ) * crq b a x y ≤ (cross a p b : ℚ) * crq b a t.x t.y
  · obtain ⟨s, s0, s1, hs⟩ := region_exit hD hl h1 h2 hg hc ht
    have hZ := onSegment_toward hX s0 s1.le
    rcases hs with ⟨z, nz⟩ | ⟨z, nz⟩
    · exact nz (hs1 _ _ hZ z)
    · exact nz (hs2 _ _ hZ z)
  · have hc' : (cross a p b : ℚ) * crq b a x y ≤ (cross a p b : ℚ) * crq b a r.x r.y := by
      have hlt := not_le.mp hc
      by_contra hh
      have hh' := not_le.mp hh
      have e1 := mul_nonneg (by linarith : (0:ℚ) ≤ 1 - q)
        (by linarith : (0:ℚ) ≤ (cross a p b : ℚ) * crq b a x y
          - (cross a p b : ℚ) * crq b a r.x r.y)
      have e2 := mul_nonneg q0
        (by linarith : (0:ℚ) ≤ (cross a p b : ℚ) * crq b a x y
          - (cross a p b : ℚ) * crq b a t.x t.y)
      have e3 : (1 - q) * ((cross a p b : ℚ) * crq b a x y - (cross a p b : ℚ) * crq b a r.x r.y)
          + q * ((cross a p b : ℚ) * crq b a x y - (cross a p b : ℚ) * crq b a t.x t.y) = 0 := by
        linarith
      by_cases hq : q = 0
      · subst hq
        simp only [sub_zero, one_mul, zero_mul, add_zero] at e3
        linarith
      · have : 0 < q := lt_of_le_of_ne q0 (Ne.symm hq)
        have := mul_pos this (by linarith : (0:ℚ) < (cross a p b : ℚ) * crq b a x y
          - (cross a p b : ℚ) * crq b a t.x t.y)
        linarith
    obtain ⟨s, s0, s1, hs⟩ := region_exit hD hl h1 h2 hg hc' hr
    have hZ := onSegment_symm (onSegment_toward (onSegment_symm hX) s0 s1.le)
    rcases hs with ⟨z, nz⟩ | ⟨z, nz⟩
    · exact nz (hs1 _ _ hZ z)
    · exact nz (hs2 _ _ hZ z)

theorem chainEdges_cons_cons (a b : Point) (l : List Point) :
    chainEdges (a :: b :: l) = (a, b) :: chainEdges (b :: l) := rfl

theorem chainSum_cons_cons (a b : Point) (l : List Point) :
    chainSum (a :: b :: l) = det2 a b + chainSum (b :: l) := rfl

theorem chainEdges_append (L1 : List Point) (x : Point) (L2 : List Point) :
    chainEdges (L1 ++ x :: L2) = chainEdges (L1 ++ [x]) ++ chainEdges (x :: L2) := by
  induction L1 with
  | nil => simp [chainEdges]
  | cons a L1 ih =>
    cases L1 with
    | nil => simp [chainEdges]
    | cons b L1 =>
      rw [List.cons_append, List.cons_append, chainEdges_cons_cons, List.cons_append,
        List.cons_append, chainEdges_cons_cons]
      rw [List.cons_append, List.cons_append] at ih
      rw [ih, List.cons_append]

theorem chainSum_append (L1 : List Point) (x : Point) (L2 : List Point) :
    chainSum (L1 ++ x :: L2) = chainSum (L1 ++ [x]) + chainSum (x :: L2) := by
  induction L1 with
  | nil => simp [chainSum]
  | cons a L1 ih =>
    cases L1 with
    | nil => simp [chainSum]
    | cons b L1 =>
      rw [List.cons_append, List.cons_append, chainSum_cons_cons, List.cons_append,
        List.cons_append, chainSum_cons_cons]
      rw [List.cons_append, List.cons_append] at ih
      rw [ih]; ring

theorem edges_cons (v : Point) (rest : List Point) :
    edges (v :: rest) = chainEdges (v :: rest ++ [v]) := by
  simp [edges]

theorem area2_cons (v : Point) (rest : List Point) :
    area2 (v :: rest) = chainSum (v :: rest ++ [v]) := by
  simp [area2]

/-- Endpoints of the edges of a chain: the start is not the last point, the end is not the
first. -/
theorem mem_chainEdges : ∀ {L : List Point} {e : Point × Point}, e ∈ chainEdges L →
    e.1 ∈ L.dropLast ∧ e.2 ∈ L.tail
  | [], e, h => by simp [chainEdges] at h
  | [_], e, h => by simp [chainEdges] at h
  | a :: b :: L, e, h => by
    rw [chainEdges_cons_cons, List.mem_cons] at h
    rcases h with h | h
    · subst h
      simp [List.dropLast]
    · have := mem_chainEdges h
      rw [List.dropLast_cons₂, List.tail_cons]
      exact ⟨List.mem_cons_of_mem _ this.1, List.mem_of_mem_tail this.2⟩

theorem edges_append (a : Point) (A : List Point) (b : Point) (B : List Point) :
    edges ((a :: A) ++ (b :: B)) = chainEdges (a :: A ++ [b]) ++ chainEdges (b :: B ++ [a]) := by
  rw [List.cons_append, edges_cons]
  have : a :: (A ++ b :: B) ++ [a] = (a :: A) ++ b :: (B ++ [a]) := by simp
  rw [this, chainEdges_append]
  simp

theorem area2_append (a : Point) (A : List Point) (b : Point) (B : List Point) :
    area2 ((a :: A) ++ (b :: B)) = chainSum (a :: A ++ [b]) + chainSum (b :: B ++ [a]) := by
  rw [List.cons_append, area2_cons]
  have : a :: (A ++ b :: B) ++ [a] = (a :: A) ++ b :: (B ++ [a]) := by simp
  rw [this, chainSum_append]
  simp

theorem mem_edges_swap (A B : List Point) (e : Point × Point) :
    e ∈ edges (A ++ B) ↔ e ∈ edges (B ++ A) := by
  cases A with
  | nil => simp
  | cons a A =>
    cases B with
    | nil => simp
    | cons b B =>
      rw [edges_append, edges_append, List.mem_append, List.mem_append]
      exact Or.comm

theorem area2_swap (A B : List Point) : area2 (A ++ B) = area2 (B ++ A) := by
  cases A with
  | nil => simp
  | cons a A =>
    cases B with
    | nil => simp
    | cons b B =>
      rw [area2_append, area2_append]; ring

theorem simpleE_swap {A B : List Point} (h : SimpleE (A ++ B)) : SimpleE (B ++ A) := by
  intro e1 h1 e2 h2
  exact h e1 ((mem_edges_swap A B e1).mpr h1) e2 ((mem_edges_swap A B e2).mpr h2)

/-- Every point of a polygon starts an edge. -/
theorem exists_edge_from {P : List Point} {q : Point} (h : q ∈ P) : ∃ c, (q, c) ∈ edges P := by
  obtain ⟨A, B, rfl⟩ := List.append_of_mem h
  have hh : ∃ c, (q, c) ∈ edges (q :: B ++ A) := by
    rw [List.cons_append, edges_cons]
    cases hBA : B ++ A with
    | nil =>
      refine ⟨q, ?_⟩
      simp [chainEdges]
    | cons c l =>
      refine ⟨c, ?_⟩
      simp [chainEdges]
  obtain ⟨c, hc⟩ := hh
  exact ⟨c, (mem_edges_swap A (q :: B) _).mpr hc⟩

theorem point_ext_q {p q : Point} (hx : (p.x : ℚ) = q.x) (hy : (p.y : ℚ) = q.y) : p = q := by
  cases p; cases q
  simp only [Point.mk.injEq]
  exact ⟨by exact_mod_cast hx, by exact_mod_cast hy⟩

/-- In a simple polygon a vertex lies on an edge only as one of its endpoints. -/
theorem vertex_on_edge {P : List Point} (hs : SimpleE P) {q : Point} (hq : q ∈ P)
    {e : Point × Point} (he : e ∈ edges P) (hon : OnSegment e.1 e.2 q.x q.y) :
    q = e.1 ∨ q = e.2 := by
  obtain ⟨c, hc⟩ := exists_edge_from hq
  by_cases heq : e = (q, c)
  · left; rw [heq]
  · rcases hs e he (q, c) hc heq q.x q.y hon (onSegment_left q c) with ⟨h, -, -⟩ | ⟨-, h1, h2⟩
    · right; exact h.symm
    · left; exact point_ext_q h1 h2

/-- First part of a polygon cut along a chord from its first point `p` to a point `x`. -/
theorem simpleE_split_left {p x : Point} {L1 L2 : List Point}
    (hs : SimpleE (p :: L1 ++ x :: L2)) (hd : (p :: L1 ++ x :: L2).Nodup)
    (hc : ∀ e ∈ edges (p :: L1 ++ x :: L2), ∀ X Y : ℚ, OnSegment e.1 e.2 X Y →
      OnSegment p x X Y → (X = p.x ∧ Y = p.y) ∨ (X = x.x ∧ Y = x.y)) :
    SimpleE (p :: L1 ++ [x]) := by
  have hE : edges (p :: L1 ++ x :: L2)
      = chainEdges (p :: L1 ++ [x]) ++ chainEdges (x :: L2 ++ [p]) := edges_append p L1 x L2
  have hE1 : edges (p :: L1 ++ [x]) = chainEdges (p :: L1 ++ [x]) ++ [(x, p)] := by
    rw [List.cons_append, edges_cons]
    have : p :: (L1 ++ [x]) ++ [p] = (p :: L1) ++ x :: [p] := by simp
    rw [this, chainEdges_append]
    simp [chainEdges]
  have hsub : ∀ e ∈ chainEdges (p :: L1 ++ [x]), e ∈ edges (p :: L1 ++ x :: L2) := by
    intro e he; rw [hE]; exact List.mem_append_left _ he
  have hp : p ∈ p :: L1 ++ x :: L2 := by simp
  have hx : x ∈ p :: L1 ++ x :: L2 := by simp
  have hnd : (p :: (L1 ++ x :: L2)).Nodup := hd
  have hpx : p ≠ x := by
    intro h
    rw [List.nodup_cons] at hnd
    exact hnd.1 (by rw [h]; simp)
  have hends : ∀ e ∈ chainEdges (p :: L1 ++ [x]), e.1 ≠ x ∧ e.2 ≠ p := by
    intro e he
    obtain ⟨h1, h2⟩ := mem_chainEdges he
    have d1 : (p :: L1 ++ [x]).dropLast = p :: L1 := List.dropLast_concat
    rw [d1] at h1
    rw [List.cons_append, List.tail_cons] at h2
    constructor
    · intro h
      rw [h] at h1
      have : (p :: L1 ++ x :: L2).Nodup := hd
      rw [List.nodup_append] at this
      exact this.2.2 h1 (List.mem_cons_self _ _)
    · intro h
      rw [h] at h2
      rw [List.nodup_cons] at hnd
      apply hnd.1
      rcases List.mem_append.mp h2 with h3 | h3
      · exact List.mem_append_left _ h3
      · rw [List.mem_singleton] at h3
        exact absurd h3 hpx
  -- an edge of the chain against the chord
  have key : ∀ e ∈ chainEdges (p :: L1 ++ [x]), ∀ X Y : ℚ, OnSegment e.1 e.2 X Y →
      OnSegment x p X Y → (e.2 = x ∧ X = x.x ∧ Y = x.y) ∨ (e.1 = p ∧ X = p.x ∧ Y = p.y) := by
    intro e he X Y h1 h2
    rcases hc e (hsub e he) X Y h1 (onSegment_symm h2) with ⟨ex, ey⟩ | ⟨ex, ey⟩
    · right
      rw [ex, ey] at h1
      rcases vertex_on_edge hs hp (hsub e he) h1 with h | h
      · exact ⟨h.symm, ex, ey⟩
      · exact absurd h.symm (hends e he).2
    · left
      rw [ex, ey] at h1
      rcases vertex_on_edge hs hx (hsub e he) h1 with h | h
      · exact absurd h.symm (hends e he).1
      · exact ⟨h.symm, ex, ey⟩
  intro e1 h1 e2 h2 hne X Y o1 o2
  rw [hE1, List.mem_append, List.mem_singleton] at h1 h2
  rcases h1 with h1 | h1 <;> rcases h2 with h2 | h2
  · exact hs e1 (hsub e1 h1) e2 (hsub e2 h2) hne X Y o1 o2
  · subst h2
    rcases key e1 h1 X Y o1 o2 with ⟨a, b, c⟩ | ⟨a, b, c⟩
    · left; exact ⟨a, by rw [a]; exact b, by rw [a]; exact c⟩
    · right; exact ⟨a, by rw [a]; exact b, by rw [a]; exact c⟩
  · subst h1
    rcases key e2 h2 X Y o2 o1 with ⟨a, b, c⟩ | ⟨a, b, c⟩
    · right; exact ⟨a.symm, b, c⟩
    · left; exact ⟨a.symm, b, c⟩
  · exact absurd (h1.trans h2.symm) hne

theorem simpleE_split_right {p x : Point} {L1 L2 : List Point}
    (hs : SimpleE (p :: L1 ++ x :: L2)) (hd : (p :: L1 ++ x :: L2).Nodup)
    (hc : ∀ e ∈ edges (p :: L1 ++ x :: L2), ∀ X Y : ℚ, OnSegment e.1 e.2 X Y →
      OnSegment p x X Y → (X = p.x ∧ Y = p.y) ∨ (X = x.x ∧ Y = x.y)) :
    SimpleE (p :: x :: L2) := by
  have hs' : SimpleE (x :: L2 ++ p :: L1) := simpleE_swap hs
  have hd' : (x :: L2 ++ p :: L1).Nodup := by
    have := List.nodup_append_comm.mp hd
    exact this
  have hc' : ∀ e ∈ edges (x :: L2 ++ p :: L1), ∀ X Y : ℚ, OnSegment e.1 e.2 X Y →
      OnSegment x p X Y → (X = x.x ∧ Y = x.y) ∨ (X = p.x ∧ Y = p.y) := by
    intro e he X Y h1 h2
    exact (hc e ((mem_edges_swap _ _ e).mpr he) X Y h1 (onSegment_symm h2)).symm
  have := simpleE_split_left hs' hd' hc'
  exact simpleE_swap (A := x :: L2) (B := [p]) this

theorem det2_antisymm (a b : Point) : det2 a b + det2 b a = 0 := by
  unfold det2; ring

theorem area2_split (p x : Point) (L1 L2 : List Point) :
    area2 (p :: L1 ++ x :: L2) = area2 (p :: L1 ++ [x]) + area2 (p :: x :: L2) := by
  rw [area2_append]
  have e1 : area2 (p :: L1 ++ [x]) = chainSum (p :: L1 ++ [x]) + det2 x p := by
    rw [List.cons_append, area2_cons]
    have : p :: (L1 ++ [x]) ++ [p] = (p :: L1) ++ x :: [p] := by simp
    rw [this, chainSum_append]
    simp [chainSum]
  have e2 : area2 (p :: x :: L2) = det2 p x + chainSum (x :: L2 ++ [p]) := by
    rw [area2_cons]
    rfl
  rw [e1, e2]
  have := det2_antisymm x p
  linarith

/-- Edges of a polygon seen from its first point `p`, between `a` (last) and `b` (second). -/
theorem corner_edges {p b a : Point} {M : List Point} (hd : (p :: b :: M ++ [a]).Nodup)
    {e : Point × Point} (he : e ∈ edges (p :: b :: M ++ [a])) :
    e = (p, b) ∨ e = (a, p) ∨ (e ∈ chainEdges (b :: M ++ [a]) ∧ e.1 ≠ p ∧ e.2 ≠ p ∧ e.1 ≠ a
      ∧ e.2 ≠ b ∧ e.1 ∈ b :: M ++ [a] ∧ e.2 ∈ b :: M ++ [a]) := by
  have hE : edges (p :: b :: M ++ [a])
      = (p, b) :: (chainEdges (b :: M ++ [a]) ++ [(a, p)]) := by
    rw [List.cons_append, edges_cons]
    have : p :: (b :: M ++ [a]) ++ [p] = p :: ((b :: M) ++ a :: [p]) := by simp
    rw [this, List.cons_append, chainEdges_cons_cons, ← List.cons_append, chainEdges_append]
    simp [chainEdges]
  rw [hE, List.mem_cons, List.mem_append, List.mem_singleton] at he
  rcases he with he | he | he
  · exact Or.inl he
  · right; right
    obtain ⟨h1, h2⟩ := mem_chainEdges he
    have d1 : (b :: M ++ [a]).dropLast = b :: M := List.dropLast_concat
    rw [d1] at h1
    rw [List.cons_append, List.tail_cons] at h2
    have hnd : (p :: ((b :: M) ++ [a])).Nodup := hd
    rw [List.nodup_cons] at hnd
    obtain ⟨hp, hrest⟩ := hnd
    have hrest' := hrest
    rw [List.nodup_append] at hrest
    have hb : (b :: (M ++ [a])).Nodup := hrest'
    rw [List.nodup_cons] at hb
    refine ⟨he, ?_, ?_, ?_, ?_, List.mem_append_left _ h1, List.mem_cons_of_mem _ h2⟩
    · intro h; rw [h] at h1; exact hp (List.mem_append_left _ h1)
    · intro h; rw [h] at h2; exact hp (List.mem_cons_of_mem _ h2)
    · intro h; rw [h] at h1; exact hrest.2.2 h1 (List.mem_singleton_self _)
    · intro h; rw [h] at h2; exact hb.1 h2
  · exact Or.inr (Or.inl he)

theorem corner_edge_mem (p b a : Point) (M : List Point) :
    (p, b) ∈ edges (p :: b :: M ++ [a]) ∧ (a, p) ∈ edges (p :: b :: M ++ [a]) := by
  have hE : edges (p :: b :: M ++ [a])
      = (p, b) :: (chainEdges (b :: M ++ [a]) ++ [(a, p)]) := by
    rw [List.cons_append, edges_cons]
    have : p :: (b :: M ++ [a]) ++ [p] = p :: ((b :: M) ++ a :: [p]) := by simp
    rw [this, List.cons_append, chainEdges_cons_cons, ← List.cons_append, chainEdges_append]
    simp [chainEdges]
  rw [hE]
  simp

theorem cast_mul_cross (a p b c d e : Point) :
    ((cross a p b * cross c d e : Int) : ℚ) = (cross a p b : ℚ) * crq c d e.x e.y := by
  rw [crq_pt]; push_cast; ring

/-- An edge that does not touch `p` meets the side `a p` at most in `a`. -/
theorem mid_side_left {p b a : Point} {M : List Point} (hs : SimpleE (p :: b :: M ++ [a]))
    {e : Point × Point} (he : e ∈ edges (p :: b :: M ++ [a])) (h1 : e.1 ≠ p) (h2 : e.2 ≠ p)
    (X Y : ℚ) (o1 : OnSegment e.1 e.2 X Y) (o2 : OnSegment a p X Y) : X = a.x ∧ Y = a.y := by
  have hne : e ≠ (a, p) := by
    intro h; rw [h] at h2; exact h2 rfl
  rcases hs e he (a, p) (corner_edge_mem p b a M).2 hne X Y o1 o2 with ⟨k1, k2, k3⟩ | ⟨k1, -, -⟩
  · simp only at k1
    rw [k1] at k2 k3
    exact ⟨k2, k3⟩
  · exact absurd k1 h1

/-- An edge that does not touch `p` meets the side `p b` at most in `b`. -/
theorem mid_side_right {p b a : Point} {M : List Point} (hs : SimpleE (p :: b :: M ++ [a]))
    {e : Point × Point} (he : e ∈ edges (p :: b :: M ++ [a])) (h1 : e.1 ≠ p) (h2 : e.2 ≠ p)
    (X Y : ℚ) (o1 : OnSegment e.1 e.2 X Y) (o2 : OnSegment p b X Y) : X = b.x ∧ Y = b.y := by
  have hne : e ≠ (p, b) := by
    intro h; rw [h] at h1; exact h1 rfl
  rcases hs e he (p, b) (corner_edge_mem p b a M).1 hne X Y o1 o2 with ⟨k1, -, -⟩ | ⟨k1, k2, k3⟩
  · exact absurd k1 h2
  · simp only at k1
    rw [k1] at k2 k3
    exact ⟨k2, k3⟩

/-- Membership facts in a polygon `p :: b :: M ++ [a]` without duplicate points. -/
theorem corner_nodup {p b a : Point} {M : List Point} (hd : (p :: b :: M ++ [a]).Nodup) :
    p ∉ M ∧ a ∉ M ∧ b ∉ M ∧ p ≠ a ∧ p ≠ b ∧ a ≠ b := by
  have hnd : (p :: b :: (M ++ [a])).Nodup := hd
  rw [List.nodup_cons, List.nodup_cons, List.nodup_append] at hnd
  obtain ⟨hp, hb, -, -, hdis⟩ := hnd
  refine ⟨?_, ?_, ?_, ?_, ?_, ?_⟩
  · intro h; exact hp (List.mem_cons_of_mem _ (List.mem_append_left _ h))
  · intro h; exact hdis h (List.mem_singleton_self _)
  · intro h; exact hb (List.mem_append_left _ h)
  · intro h; exact hp (List.mem_cons_of_mem _ (List.mem_append_right _ (by rw [h]; simp)))
  · intro h; exact hp (by rw [h]; simp)
  · intro h; exact hb (List.mem_append_right _ (by rw [h]; simp))

theorem crq_on_segment {a p : Point} {X Y : ℚ} (h : OnSegment a p X Y) : crq a p X Y = 0 := by
  obtain ⟨s, -, -, hx, hy⟩ := h
  rw [hx, hy]; unfold crq; ring

theorem crq_self_left (a p : Point) : crq a p a.x a.y = 0 := by unfold crq; ring

theorem crq_self_right (a p : Point) : crq a p p.x p.y = 0 := by unfold crq; ring

theorem crq_apex (a p b : Point) : crq b a p.x p.y = (cross a p b : ℚ) := by
  unfold crq cross; push_cast; ring

theorem crq_base_left (a p b : Point) : crq p b a.x a.y = (cross a p b : ℚ) := by
  unfold crq cross; push_cast; ring

theorem crq_base_right (a p b : Point) : crq a p b.x b.y = (cross a p b : ℚ) := by
  unfold crq cross; push_cast; ring

theorem inTri_q {a p b q : Point} (h : InTri a p b q) :
    0 ≤ (cross a p b : ℚ) * crq a p q.x q.y ∧ 0 ≤ (cross a p b : ℚ) * crq p b q.x q.y
      ∧ 0 ≤ (cross a p b : ℚ) * crq b a q.x q.y := by
  obtain ⟨h1, h2, h3⟩ := h
  refine ⟨?_, ?_, ?_⟩
  · rw [← cast_mul_cross]; exact_mod_cast h1
  · rw [← cast_mul_cross]; exact_mod_cast h2
  · rw [← cast_mul_cross]; exact_mod_cast h3

theorem inTri_of_q {a p b q : Point}
    (h1 : 0 ≤ (cross a p b : ℚ) * crq a p q.x q.y) (h2 : 0 ≤ (cross a p b : ℚ) * crq p b q.x q.y)
    (h3 : 0 ≤ (cross a p b : ℚ) * crq b a q.x q.y) : InTri a p b q := by
  rw [← cast_mul_cross] at h1 h2 h3
  exact ⟨by exact_mod_cast h1, by exact_mod_cast h2, by exact_mod_cast h3⟩

/-- No vertex other than `p` lies in the part of the triangle beyond the level of a vertex
`x` of the triangle that is nearest to `p`. -/
theorem vertex_not_in_region {p b a : Point} {M : List Point} {l : ℚ} (hl : 0 ≤ l)
    (hmax : ∀ q ∈ M, InTri a p b q → (cross a p b : ℚ) * crq b a q.x q.y ≤ l)
    {q : Point} (hq : q ∈ b :: M ++ [a]) :
    ¬ (0 ≤ (cross a p b : ℚ) * crq a p q.x q.y ∧ 0 ≤ (cross a p b : ℚ) * crq p b q.x q.y
      ∧ l < (cross a p b : ℚ) * crq b a q.x q.y) := by
  rintro ⟨h1, h2, h3⟩
  rw [List.cons_append, List.mem_cons, List.mem_append, List.mem_singleton] at hq
  rcases hq with hq | hq | hq
  · rw [hq, crq_self_left, mul_zero] at h3; linarith
  · have := hmax q hq (inTri_of_q h1 h2 (by linarith))
    linarith
  · rw [hq, crq_self_right, mul_zero] at h3; linarith

/-- The chord from the corner `p` to a vertex `x` of the triangle `a p b` that is nearest to
`p` (farthest from the base `a b`) meets the polygon only in `p` and `x`, and `x` lies strictly
inside the wedge of the corner. -/
theorem chord_clean {p b a x : Point} {M : List Point} (hs : SimpleE (p :: b :: M ++ [a]))
    (hd : (p :: b :: M ++ [a]).Nodup) (hD : cross a p b ≠ 0) (hx : x ∈ M)
    (hin : InTri a p b x)
    (hmax : ∀ q ∈ M, InTri a p b q →
      cross a p b * cross b a q ≤ cross a p b * cross b a x) :
    (0 < cross a p b * cross a p x ∧ 0 < cross a p b * cross p b x)
      ∧ ∀ e ∈ edges (p :: b :: M ++ [a]), ∀ X Y : ℚ, OnSegment e.1 e.2 X Y →
          OnSegment p x X Y → (X = p.x ∧ Y = p.y) ∨ (X = x.x ∧ Y = x.y) := by
  have hDq : (cross a p b : ℚ) ≠ 0 := by exact_mod_cast hD
  have hsq := sq_pos_of_cross hD
  obtain ⟨hpM, haM, hbM, hpa, hpb, hab⟩ := corner_nodup hd
  obtain ⟨i1, i2, i3⟩ := inTri_q hin
  have hxP : x ∈ p :: b :: M ++ [a] := by simp [hx]
  have hxa : x ≠ a := fun h => haM (h ▸ hx)
  have hxp : x ≠ p := fun h => hpM (h ▸ hx)
  have hxb : x ≠ b := fun h => hbM (h ▸ hx)
  -- strictly inside the wedge
  have w1 : 0 < (cross a p b : ℚ) * crq a p x.x x.y := by
    rcases lt_or_eq_of_le i1 with h | h
    · exact h
    · exfalso
      have hz : crq a p x.x x.y = 0 := (mul_eq_zero.mp h.symm).resolve_left hDq
      have hon := hit_left_on hD hz i2 i3
      rcases vertex_on_edge hs hxP (corner_edge_mem p b a M).2 hon with h | h
      · exact hxa h
      · exact hxp h
  have w2 : 0 < (cross a p b : ℚ) * crq p b x.x x.y := by
    rcases lt_or_eq_of_le i2 with h | h
    · exact h
    · exfalso
      have hz : crq p b x.x x.y = 0 := (mul_eq_zero.mp h.symm).resolve_left hDq
      have hon := hit_right_on hD hz i1 i3
      rcases vertex_on_edge hs hxP (corner_edge_mem p b a M).1 hon with h | h
      · exact hxp h
      · exact hxb h
  have hsum : (cross a p b : ℚ) * crq a p x.x x.y + (cross a p b : ℚ) * crq p b x.x x.y
      + (cross a p b : ℚ) * crq b a x.x x.y = (cross a p b : ℚ) * (cross a p b : ℚ) := by
    rw [← mul_add, ← mul_add, crq_sum]
  have hmaxq : ∀ q ∈ M, InTri a p b q →
      (cross a p b : ℚ) * crq b a q.x q.y ≤ (cross a p b : ℚ) * crq b a x.x x.y := by
    intro q hq hq'
    have := hmax q hq hq'
    rw [← cast_mul_cross, ← cast_mul_cross]
    exact_mod_cast this
  refine ⟨⟨?_, ?_⟩, ?_⟩
  · have := w1; rw [← cast_mul_cross] at this; exact_mod_cast this
  · have := w2; rw [← cast_mul_cross] at this; exact_mod_cast this
  intro e he X Y o1 o2
  obtain ⟨s, s0, s1, hX, hY⟩ := o2
  have c1 : crq a p X Y = s * crq a p x.x x.y := by
    rw [hX, hY, crq_affine, crq_self_right]; ring
  have c2 : crq p b X Y = s * crq p b x.x x.y := by
    rw [hX, hY, crq_affine, crq_self_left]; ring
  have c3 : crq b a X Y = (1 - s) * (cross a p b : ℚ) + s * crq b a x.x x.y := by
    rw [hX, hY, crq_affine, crq_apex]
  have hs0 : s = 0 → (X = p.x ∧ Y = p.y) := by
    intro h; subst h; exact ⟨by rw [hX]; ring, by rw [hY]; ring⟩
  rcases corner_edges hd he with h | h | ⟨hmid, n1, n2, n3, n4, m1, m2⟩
  · left
    apply hs0
    rw [h] at o1
    have z := crq_on_segment o1
    rw [c2] at z
    rcases mul_eq_zero.mp z with z | z
    · exact z
    · rw [z, mul_zero] at w2; exact absurd w2 (lt_irrefl _)
  · left
    apply hs0
    rw [h] at o1
    have z := crq_on_segment o1
    rw [c1] at z
    rcases mul_eq_zero.mp z with z | z
    · exact z
    · rw [z, mul_zero] at w1; exact absurd w1 (lt_irrefl _)
  · by_cases hs1 : s = 1
    · right; subst hs1; exact ⟨by rw [hX]; ring, by rw [hY]; ring⟩
    · exfalso
      have hlt : s < 1 := lt_of_le_of_ne s1 hs1
      refine no_point_in_region hD i3 o1 ?_ ?_ ?_
        (vertex_not_in_region i3 hmaxq m1) (vertex_not_in_region i3 hmaxq m2)
        (mid_side_left hs he n1 n2) (mid_side_right hs he n1 n2)
      · rw [c1, ← mul_assoc, mul_comm _ s, mul_assoc]; exact mul_nonneg s0 w1.le
      · rw [c2, ← mul_assoc, mul_comm _ s, mul_assoc]; exact mul_nonneg s0 w2.le
      · rw [c3]
        have : (cross a p b : ℚ) * ((1 - s) * (cross a p b : ℚ) + s * crq b a x.x x.y)
            = (cross a p b : ℚ) * crq b a x.x x.y + (1 - s)
              * ((cross a p b : ℚ) * (cross a p b : ℚ) - (cross a p b : ℚ) * crq b a x.x x.y) := by
          ring
        rw [this]
        have := mul_pos (by linarith : (0:ℚ) < 1 - s)
          (by linarith : (0:ℚ) < (cross a p b : ℚ) * (cross a p b : ℚ)
            - (cross a p b : ℚ) * crq b a x.x x.y)
        linarith

/-- A short step from a point where two affine functions are positive keeps them
non-negative. -/
theorem step_in (u1 u2 v1 v2 : ℚ) (h1 : 0 < u1) (h2 : 0 < u2) :
    ∃ s : ℚ, 0 < s ∧ s ≤ 1 ∧ 0 ≤ u1 + s * (v1 - u1) ∧ 0 ≤ u2 + s * (v2 - u2) := by
  have one : ∀ u v : ℚ, 0 < u → 0 < u / (u + |v|) ∧ u / (u + |v|) ≤ 1
      ∧ ∀ s : ℚ, 0 ≤ s → s ≤ u / (u + |v|) → 0 ≤ u + s * (v - u) := by
    intro u v hu
    have hpos : 0 < u + |v| := by have := abs_nonneg v; linarith
    refine ⟨div_pos hu hpos, by rw [div_le_one hpos]; have := abs_nonneg v; linarith, ?_⟩
    intro s s0 s1
    have hs : s * (u + |v|) ≤ u := by rwa [le_div_iff₀ hpos] at s1
    have hv : -|v| ≤ v := neg_abs_le v
    have : s * (-|v|) ≤ s * v := mul_le_mul_of_nonneg_left hv s0
    nlinarith
  obtain ⟨a0, a1, a2⟩ := one u1 v1 h1
  obtain ⟨b0, b1, b2⟩ := one u2 v2 h2
  refine ⟨min (u1 / (u1 + |v1|)) (u2 / (u2 + |v2|)), lt_min a0 b0,
    le_trans (min_le_left _ _) a1, ?_, ?_⟩
  · exact a2 _ (le_min a0.le b0.le) (min_le_left _ _)
  · exact b2 _ (le_min a0.le b0.le) (min_le_right _ _)

theorem point_is_a {a p b : Point} (hD : cross a p b ≠ 0) {X Y : ℚ}
    (h1 : crq a p X Y = 0) (h3 : crq b a X Y = 0) : X = a.x ∧ Y = a.y := by
  have hDq : (cross a p b : ℚ) ≠ 0 := by exact_mod_cast hD
  have hsum := crq_sum a p b X Y
  rw [h1, h3, zero_add, add_zero] at hsum
  have bx := bary_x a p b X Y
  have by' := bary_y a p b X Y
  rw [h1, h3, hsum] at bx by'
  constructor
  · apply mul_left_cancel₀ hDq; linarith
  · apply mul_left_cancel₀ hDq; linarith

theorem point_is_b {a p b : Point} (hD : cross a p b ≠ 0) {X Y : ℚ}
    (h2 : crq p b X Y = 0) (h3 : crq b a X Y = 0) : X = b.x ∧ Y = b.y := by
  have hDq : (cross a p b : ℚ) ≠ 0 := by exact_mod_cast hD
  have hsum := crq_sum a p b X Y
  rw [h2, h3, add_zero, add_zero] at hsum
  have bx := bary_x a p b X Y
  have by' := bary_y a p b X Y
  rw [h2, h3, hsum] at bx by'
  constructor
  · apply mul_left_cancel₀ hDq; linarith
  · apply mul_left_cancel₀ hDq; linarith

/-- A segment along the base line `a b` that starts at or before `a` and ends after `a`
contains `a`. -/
theorem base_hits_a {a p b r t : Point} (hD : cross a p b ≠ 0)
    (gr : crq b a r.x r.y = 0) (gt : crq b a t.x t.y = 0)
    (hr : (cross a p b : ℚ) * crq a p r.x r.y ≤ 0)
    (ht : 0 < (cross a p b : ℚ) * crq a p t.x t.y) : OnSegment r t a.x a.y := by
  have hDq : (cross a p b : ℚ) ≠ 0 := by exact_mod_cast hD
  set u := (cross a p b : ℚ) * crq a p r.x r.y with hu
  set v := (cross a p b : ℚ) * crq a p t.x t.y with hv
  have hpos : 0 < v - u := by linarith
  have hZ : crq a p (r.x + (-u / (v - u)) * (t.x - r.x)) (r.y + (-u / (v - u)) * (t.y - r.y)) = 0
      ∧ crq b a (r.x + (-u / (v - u)) * (t.x - r.x)) (r.y + (-u / (v - u)) * (t.y - r.y)) = 0 := by
    constructor
    · rw [crq_affine]
      apply mul_left_cancel₀ hDq
      rw [mul_zero, mul_add, ← mul_assoc, mul_comm _ (1 - -u / (v - u)), mul_assoc,
        ← mul_assoc _ (-u / (v - u)), mul_comm _ (-u / (v - u)), mul_assoc, ← hu, ← hv]
      field_simp
      ring
    · rw [crq_affine, gr, gt]; ring
  obtain ⟨e1, e2⟩ := point_is_a hD hZ.1 hZ.2
  refine ⟨-u / (v - u), div_nonneg (by linarith) hpos.le, ?_, e1.symm, e2.symm⟩
  rw [div_le_one hpos]; linarith

/-- A segment along the base line `a b` that starts at or before `b` and ends after `b`
contains `b`. -/
theorem base_hits_b {a p b r t : Point} (hD : cross a p b ≠ 0)
    (gr : crq b a r.x r.y = 0) (gt : crq b a t.x t.y = 0)
    (hr : (cross a p b : ℚ) * crq p b r.x r.y ≤ 0)
    (ht : 0 < (cross a p b : ℚ) * crq p b t.x t.y) : OnSegment r t b.x b.y := by
  have hDq : (cross a p b : ℚ) ≠ 0 := by exact_mod_cast hD
  set u := (cross a p b : ℚ) * crq p b r.x r.y with hu
  set v := (cross a p b : ℚ) * crq p b t.x t.y with hv
  have hpos : 0 < v - u := by linarith
  have hZ : crq p b (r.x + (-u / (v - u)) * (t.x - r.x)) (r.y + (-u / (v - u)) * (t.y - r.y)) = 0
      ∧ crq b a (r.x + (-u / (v - u)) * (t.x - r.x)) (r.y + (-u / (v - u)) * (t.y - r.y)) = 0 := by
    constructor
    · rw [crq_affine]
      apply mul_left_cancel₀ hDq
      rw [mul_zero, mul_add, ← mul_assoc, mul_comm _ (1 - -u / (v - u)), mul_assoc,
        ← mul_assoc _ (-u / (v - u)), mul_comm _ (-u / (v - u)), mul_assoc, ← hu, ← hv]
      field_simp
      ring
    · rw [crq_affine, gr, gt]; ring
  obtain ⟨e1, e2⟩ := point_is_b hD hZ.1 hZ.2
  refine ⟨-u / (v - u), div_nonneg (by linarith) hpos.le, ?_, e1.symm, e2.symm⟩
  rw [div_le_one hpos]; linarith

/-- An edge through an inner point of the base of an empty triangle does not enter the
triangle: its endpoints are not on the side of `p`. -/
theorem ear_toward {a p b r t : Point} (hD : cross a p b ≠ 0) {X Y : ℚ}
    (o : OnSegment r t X Y)
    (H1 : 0 < (cross a p b : ℚ) * crq a p X Y) (H2 : 0 < (cross a p b : ℚ) * crq p b X Y)
    (G0 : crq b a X Y = 0)
    (hr : ¬ (0 ≤ (cross a p b : ℚ) * crq a p r.x r.y ∧ 0 ≤ (cross a p b : ℚ) * crq p b r.x r.y
      ∧ 0 < (cross a p b : ℚ) * crq b a r.x r.y))
    (ht : ¬ (0 ≤ (cross a p b : ℚ) * crq a p t.x t.y ∧ 0 ≤ (cross a p b : ℚ) * crq p b t.x t.y
      ∧ 0 < (cross a p b : ℚ) * crq b a t.x t.y))
    (hs1 : ∀ x' y', OnSegment r t x' y' → OnSegment a p x' y' → x' = a.x ∧ y' = a.y)
    (hs2 : ∀ x' y', OnSegment r t x' y' → OnSegment p b x' y' → x' = b.x ∧ y' = b.y) :
    (cross a p b : ℚ) * crq b a t.x t.y ≤ 0 := by
  by_contra hc
  have hc' := not_le.mp hc
  obtain ⟨s, s0, s1, k1, k2⟩ := step_in _ _ ((cross a p b : ℚ) * crq a p t.x t.y)
    ((cross a p b : ℚ) * crq p b t.x t.y) H1 H2
  refine no_point_in_region hD (le_refl 0) (onSegment_toward o s0.le s1) ?_ ?_ ?_ hr ht hs1 hs2
  · rw [crq_affine_q]
    have : (cross a p b : ℚ) * ((1 - s) * crq a p X Y + s * crq a p t.x t.y)
        = (cross a p b : ℚ) * crq a p X Y + s * ((cross a p b : ℚ) * crq a p t.x t.y
          - (cross a p b : ℚ) * crq a p X Y) := by ring
    rw [this]; exact k1
  · rw [crq_affine_q]
    have : (cross a p b : ℚ) * ((1 - s) * crq p b X Y + s * crq p b t.x t.y)
        = (cross a p b : ℚ) * crq p b X Y + s * ((cross a p b : ℚ) * crq p b t.x t.y
          - (cross a p b : ℚ) * crq p b X Y) := by ring
    rw [this]; exact k2
  · rw [crq_affine_q, G0]
    have : (cross a p b : ℚ) * ((1 - s) * 0 + s * crq b a t.x t.y)
        = s * ((cross a p b : ℚ) * crq b a t.x t.y) := by ring
    rw [this]
    exact mul_pos s0 hc'

theorem no_edge_b_a {b a : Point} {M : List Point} (hM : M ≠ []) (haM : a ∉ M) (hbM : b ∉ M) :
    (b, a) ∉ chainEdges (b :: M ++ [a]) := by
  cases M with
  | nil => exact absurd rfl hM
  | cons m M' =>
    intro h
    rw [List.cons_append, List.cons_append, chainEdges_cons_cons, List.mem_cons] at h
    rcases h with h | h
    · have : a = m := (Prod.mk.inj h).2
      exact haM (by rw [this]; simp)
    · have := (mem_chainEdges h).1
      have d1 : (m :: (M' ++ [a])).dropLast = m :: M' := by
        rw [← List.cons_append]; exact List.dropLast_concat
      rw [d1] at this
      exact hbM this

/-- The base `a b` of an ear `a p b` (a corner whose closed triangle holds no other vertex)
meets the polygon only in `a` and `b`. -/
theorem ear_clean {p b a : Point} {M : List Point} (hs : SimpleE (p :: b :: M ++ [a]))
    (hd : (p :: b :: M ++ [a]).Nodup) (hD : cross a p b ≠ 0) (hM : M ≠ [])
    (hear : ∀ q ∈ M, ¬ InTri a p b q) :
    ∀ e ∈ edges (p :: b :: M ++ [a]), ∀ X Y : ℚ, OnSegment e.1 e.2 X Y →
      OnSegment a b X Y → (X = a.x ∧ Y = a.y) ∨ (X = b.x ∧ Y = b.y) := by
  have hDq : (cross a p b : ℚ) ≠ 0 := by exact_mod_cast hD
  have hsq := sq_pos_of_cross hD
  obtain ⟨hpM, haM, hbM, hpa, hpb, hab⟩ := corner_nodup hd
  have hmax0 : ∀ q ∈ M, InTri a p b q → (cross a p b : ℚ) * crq b a q.x q.y ≤ 0 :=
    fun q hq h => absurd h (hear q hq)
  have vin : ∀ q ∈ b :: M ++ [a], InTri a p b q → q = a ∨ q = b := by
    intro q hq h
    rw [List.cons_append, List.mem_cons, List.mem_append, List.mem_singleton] at hq
    rcases hq with hq | hq | hq
    · exact Or.inr hq
    · exact absurd h (hear q hq)
    · exact Or.inl hq
  have haP : a ∈ p :: b :: M ++ [a] := by simp
  have hbP : b ∈ p :: b :: M ++ [a] := by simp
  intro e he X Y o1 o2
  obtain ⟨s, s0, s1, hX, hY⟩ := o2
  have c1 : crq a p X Y = s * (cross a p b : ℚ) := by
    rw [hX, hY, crq_affine, crq_self_left, crq_base_right]; ring
  have c2 : crq p b X Y = (1 - s) * (cross a p b : ℚ) := by
    rw [hX, hY, crq_affine, crq_self_right, crq_base_left]; ring
  have c3 : crq b a X Y = 0 := by
    rw [hX, hY, crq_affine, crq_self_left, crq_self_right]; ring
  have hs0 : s = 0 → (X = a.x ∧ Y = a.y) := by
    intro h; subst h; exact ⟨by rw [hX]; ring, by rw [hY]; ring⟩
  have hs1 : s = 1 → (X = b.x ∧ Y = b.y) := by
    intro h; subst h; exact ⟨by rw [hX]; ring, by rw [hY]; ring⟩
  rcases corner_edges hd he with h | h | ⟨hmid, n1, n2, n3, n4, m1, m2⟩
  · right
    apply hs1
    rw [h] at o1
    have z := crq_on_segment o1
    rw [c2] at z
    rcases mul_eq_zero.mp z with z | z
    · linarith
    · exact absurd z hDq
  · left
    apply hs0
    rw [h] at o1
    have z := crq_on_segment o1
    rw [c1] at z
    rcases mul_eq_zero.mp z with z | z
    · exact z
    · exact absurd z hDq
  by_cases e0 : s = 0
  · exact Or.inl (hs0 e0)
  by_cases e1 : s = 1
  · exact Or.inr (hs1 e1)
  have spos : 0 < s := lt_of_le_of_ne s0 (Ne.symm e0)
  have slt : s < 1 := lt_of_le_of_ne s1 e1
  have H1 : 0 < (cross a p b : ℚ) * crq a p X Y := by
    rw [c1, ← mul_assoc, mul_comm _ s, mul_assoc]; exact mul_pos spos hsq
  have H2 : 0 < (cross a p b : ℚ) * crq p b X Y := by
    rw [c2, ← mul_assoc, mul_comm _ (1 - s), mul_assoc]
    exact mul_pos (by linarith) hsq
  have vr := vertex_not_in_region (le_refl (0:ℚ)) hmax0 m1
  have vt := vertex_not_in_region (le_refl (0:ℚ)) hmax0 m2
  have gt0 := ear_toward hD o1 H1 H2 c3 vr vt (mid_side_left hs he n1 n2)
    (mid_side_right hs he n1 n2)
  have gr0 := ear_toward hD (onSegment_symm o1) H1 H2 c3 vt vr
    (fun x' y' h1 h2 => mid_side_left hs he n1 n2 x' y' (onSegment_symm h1) h2)
    (fun x' y' h1 h2 => mid_side_right hs he n1 n2 x' y' (onSegment_symm h1) h2)
  obtain ⟨q, q0, q1, eX, eY⟩ := o1
  have gcomb : (1 - q) * ((cross a p b : ℚ) * crq b a e.1.x e.1.y)
      + q * ((cross a p b : ℚ) * crq b a e.2.x e.2.y) = 0 := by
    have := c3
    rw [eX, eY, crq_affine] at this
    have h2 : (cross a p b : ℚ) * ((1 - q) * crq b a e.1.x e.1.y + q * crq b a e.2.x e.2.y)
        = 0 := by rw [this, mul_zero]
    linarith
  have a1 : crq a p X Y = (1 - q) * crq a p e.1.x e.1.y + q * crq a p e.2.x e.2.y := by
    rw [eX, eY, crq_affine]
  have a2 : crq p b X Y = (1 - q) * crq p b e.1.x e.1.y + q * crq p b e.2.x e.2.y := by
    rw [eX, eY, crq_affine]
  by_cases hq0 : q = 0
  · -- the point is the vertex `e.1`
    subst hq0
    have x1 : X = e.1.x := by rw [eX]; ring
    have y1 : Y = e.1.y := by rw [eY]; ring
    rw [x1, y1] at H1 H2 c3
    have := vin e.1 m1 (inTri_of_q H1.le H2.le (by rw [c3, mul_zero]))
    rcases this with h | h
    · left; rw [x1, y1, h]; exact ⟨rfl, rfl⟩
    · right; rw [x1, y1, h]; exact ⟨rfl, rfl⟩
  by_cases hq1 : q = 1
  · subst hq1
    have x1 : X = e.2.x := by rw [eX]; ring
    have y1 : Y = e.2.y := by rw [eY]; ring
    rw [x1, y1] at H1 H2 c3
    have := vin e.2 m2 (inTri_of_q H1.le H2.le (by rw [c3, mul_zero]))
    rcases this with h | h
    · left; rw [x1, y1, h]; exact ⟨rfl, rfl⟩
    · right; rw [x1, y1, h]; exact ⟨rfl, rfl⟩
  exfalso
  have qpos : 0 < q := lt_of_le_of_ne q0 (Ne.symm hq0)
  have qlt : q < 1 := lt_of_le_of_ne q1 hq1
  -- both endpoints are on the base line
  have gr : crq b a e.1.x e.1.y = 0 := by
    have h1 := mul_nonpos_of_nonneg_of_nonpos (by linarith : (0:ℚ) ≤ 1 - q) gr0
    have h2 := mul_nonpos_of_nonneg_of_nonpos q0 gt0
    have h3 : (1 - q) * ((cross a p b : ℚ) * crq b a e.1.x e.1.y) = 0 := by linarith
    rcases mul_eq_zero.mp h3 with h | h
    · linarith
    · exact (mul_eq_zero.mp h).resolve_left hDq
  have gt : crq b a e.2.x e.2.y = 0 := by
    have h1 := mul_nonpos_of_nonneg_of_nonpos (by linarith : (0:ℚ) ≤ 1 - q) gr0
    have h2 := mul_nonpos_of_nonneg_of_nonpos q0 gt0
    have h3 : q * ((cross a p b : ℚ) * crq b a e.2.x e.2.y) = 0 := by linarith
    rcases mul_eq_zero.mp h3 with h | h
    · linarith
    · exact (mul_eq_zero.mp h).resolve_left hDq
  -- sums on the base line
  have sr : (cross a p b : ℚ) * crq a p e.1.x e.1.y + (cross a p b : ℚ) * crq p b e.1.x e.1.y
      = (cross a p b : ℚ) * (cross a p b : ℚ) := by
    have := crq_sum a p b e.1.x e.1.y
    rw [gr, add_zero] at this
    rw [← mul_add, this]
  have st : (cross a p b : ℚ) * crq a p e.2.x e.2.y + (cross a p b : ℚ) * crq p b e.2.x e.2.y
      = (cross a p b : ℚ) * (cross a p b : ℚ) := by
    have := crq_sum a p b e.2.x e.2.y
    rw [gt, add_zero] at this
    rw [← mul_add, this]
  -- a vertex on the base line is outside of the open base
  have outr : (cross a p b : ℚ) * crq a p e.1.x e.1.y ≤ 0
      ∨ (cross a p b : ℚ) * crq p b e.1.x e.1.y ≤ 0 := by
    by_contra hc
    push_neg at hc
    rcases vin e.1 m1 (inTri_of_q hc.1.le hc.2.le (by rw [gr, mul_zero])) with h | h
    · have := hc.1; rw [h, crq_self_left, mul_zero] at this; exact lt_irrefl _ this
    · have := hc.2; rw [h, crq_self_right, mul_zero] at this; exact lt_irrefl _ this
  have outt : (cross a p b : ℚ) * crq a p e.2.x e.2.y ≤ 0
      ∨ (cross a p b : ℚ) * crq p b e.2.x e.2.y ≤ 0 := by
    by_contra hc
    push_neg at hc
    rcases vin e.2 m2 (inTri_of_q hc.1.le hc.2.le (by rw [gt, mul_zero])) with h | h
    · have := hc.1; rw [h, crq_self_left, mul_zero] at this; exact lt_irrefl _ this
    · have := hc.2; rw [h, crq_self_right, mul_zero] at this; exact lt_irrefl _ this
  have E1 : 0 < (1 - q) * ((cross a p b : ℚ) * crq a p e.1.x e.1.y)
      + q * ((cross a p b : ℚ) * crq a p e.2.x e.2.y) := by
    have := H1; rw [a1] at this; linarith
  have E2 : 0 < (1 - q) * ((cross a p b : ℚ) * crq p b e.1.x e.1.y)
      + q * ((cross a p b : ℚ) * crq p b e.2.x e.2.y) := by
    have := H2; rw [a2] at this; linarith
  have hq' : 0 < 1 - q := by linarith
  rcases outr with r1 | r1
  · -- `e.1` at or before `a`, hence `e.2` after `a`
    have t1 : 0 < (cross a p b : ℚ) * crq a p e.2.x e.2.y := by
      by_contra hc
      have h1 := mul_nonpos_of_nonneg_of_nonpos hq'.le r1
      have h2 := mul_nonpos_of_nonneg_of_nonpos q0 (not_lt.mp hc)
      linarith
    have hon := base_hits_a hD gr gt r1 t1
    rcases vertex_on_edge hs haP he hon with h | h
    · exact n3 h.symm
    · rw [← h, crq_self_left, mul_zero] at t1; exact lt_irrefl _ t1
  · have t2 : 0 < (cross a p b : ℚ) * crq p b e.2.x e.2.y := by
      by_contra hc
      have h1 := mul_nonpos_of_nonneg_of_nonpos hq'.le r1
      have h2 := mul_nonpos_of_nonneg_of_nonpos q0 (not_lt.mp hc)
      linarith
    have honb := base_hits_b hD gr gt r1 t2
    have hb1 : b = e.1 := by
      rcases vertex_on_edge hs hbP he honb with h | h
      · exact h
      · exact absurd h.symm n4
    -- then `e.2` is at or before `a` and `e.1 = b` after `a`
    have r2 : 0 < (cross a p b : ℚ) * crq a p e.1.x e.1.y := by
      rw [← hb1, crq_base_right]; exact hsq
    have t3 : (cross a p b : ℚ) * crq a p e.2.x e.2.y ≤ 0 := by
      rcases outt with h | h
      · exact h
      · linarith
    have hona := onSegment_symm (base_hits_a hD gt gr t3 r2)
    have ha2 : a = e.2 := by
      rcases vertex_on_edge hs haP he hona with h | h
      · exact absurd h.symm n3
      · exact h
    apply no_edge_b_a hM haM hbM
    have : e = (b, a) := by rw [hb1, ha2]
    rw [← this]; exact hmid

/-- A combination of three lexicographically positive vectors with non-negative weights, not
all zero, is not the zero vector. -/
theorem lex_pos3 {s1 t1 s2 t2 s3 t3 : Point} (h1 : lexLt s1 t1) (h2 : lexLt s2 t2)
    (h3 : lexLt s3 t3) {α β γ : ℚ} (hα : 0 ≤ α) (hβ : 0 ≤ β) (hγ : 0 ≤ γ) (hsum : 0 < α + β + γ)
    (ex : α * ((t1.x : ℚ) - s1.x) + β * ((t2.x : ℚ) - s2.x) + γ * ((t3.x : ℚ) - s3.x) = 0)
    (ey : α * ((t1.y : ℚ) - s1.y) + β * ((t2.y : ℚ) - s2.y) + γ * ((t3.y : ℚ) - s3.y) = 0) :
    False := by
  have key : ∀ {s t : Point}, lexLt s t → (0 : ℚ) ≤ (t.x : ℚ) - s.x
      ∧ ((t.x : ℚ) - s.x = 0 → 0 < (t.y : ℚ) - s.y) := by
    intro s t h
    unfold lexLt at h
    rcases h with h | ⟨h, h'⟩
    · have : (s.x : ℚ) < t.x := by exact_mod_cast h
      exact ⟨by linarith, fun h0 => by linarith⟩
    · have e : (s.x : ℚ) = t.x := by exact_mod_cast h
      have : (s.y : ℚ) < t.y := by exact_mod_cast h'
      exact ⟨by linarith, fun _ => by linarith⟩
  obtain ⟨a1, b1⟩ := key h1
  obtain ⟨a2, b2⟩ := key h2
  obtain ⟨a3, b3⟩ := key h3
  have p1 := mul_nonneg hα a1
  have p2 := mul_nonneg hβ a2
  have p3 := mul_nonneg hγ a3
  have z1 : α * ((t1.x : ℚ) - s1.x) = 0 := by linarith
  have z2 : β * ((t2.x : ℚ) - s2.x) = 0 := by linarith
  have z3 : γ * ((t3.x : ℚ) - s3.x) = 0 := by linarith
  have y1 : 0 ≤ α * ((t1.y : ℚ) - s1.y) ∧ (0 < α → 0 < α * ((t1.y : ℚ) - s1.y)) := by
    rcases mul_eq_zero.mp z1 with h | h
    · rw [h]; simp
    · exact ⟨mul_nonneg hα (b1 h).le, fun hp => mul_pos hp (b1 h)⟩
  have y2 : 0 ≤ β * ((t2.y : ℚ) - s2.y) ∧ (0 < β → 0 < β * ((t2.y : ℚ) - s2.y)) := by
    rcases mul_eq_zero.mp z2 with h | h
    · rw [h]; simp
    · exact ⟨mul_nonneg hβ (b2 h).le, fun hp => mul_pos hp (b2 h)⟩
  have y3 : 0 ≤ γ * ((t3.y : ℚ) - s3.y) ∧ (0 < γ → 0 < γ * ((t3.y : ℚ) - s3.y)) := by
    rcases mul_eq_zero.mp z3 with h | h
    · rw [h]; simp
    · exact ⟨mul_nonneg hγ (b3 h).le, fun hp => mul_pos hp (b3 h)⟩
  by_cases c1 : 0 < α
  · have := y1.2 c1; linarith [y2.1, y3.1]
  by_cases c2 : 0 < β
  · have := y2.2 c2; linarith [y1.1, y3.1]
  by_cases c3 : 0 < γ
  · have := y3.2 c3; linarith [y1.1, y2.1]
  linarith

/-- A point lexicographically smaller than the three corners of a triangle is not in it. -/
theorem inTri_not_lexLt {a p b q : Point} (hD : cross a p b ≠ 0) (hin : InTri a p b q)
    (ha : lexLt q a) (hp : lexLt q p) (hb : lexLt q b) : False := by
  obtain ⟨i1, i2, i3⟩ := inTri_q hin
  have hsq := sq_pos_of_cross hD
  have hsum : (cross a p b : ℚ) * crq p b q.x q.y + (cross a p b : ℚ) * crq a p q.x q.y
      + (cross a p b : ℚ) * crq b a q.x q.y = (cross a p b : ℚ) * (cross a p b : ℚ) := by
    rw [← mul_add, ← mul_add]
    have := crq_sum a p b q.x q.y
    rw [show crq p b q.x q.y + crq a p q.x q.y + crq b a q.x q.y
      = crq a p q.x q.y + crq p b q.x q.y + crq b a q.x q.y by ring, this]
  have bx := bary_x a p b q.x q.y
  have by' := bary_y a p b q.x q.y
  have hcs := crq_sum a p b q.x q.y
  refine lex_pos3 ha hb hp i2 i1 i3 (by rw [hsum]; exact hsq) ?_ ?_
  · linear_combination (-(cross a p b : ℚ)) * bx - ((cross a p b : ℚ) * q.x) * hcs
  · linear_combination (-(cross a p b : ℚ)) * by' - ((cross a p b : ℚ) * q.y) * hcs

theorem sameSign_or_neg {x y : Int} (hx : x ≠ 0) (hy : y ≠ 0) : SameSign x y ∨ x * y < 0 := by
  unfold SameSign
  rcases lt_trichotomy x 0 with h | h | h
  · rcases lt_trichotomy y 0 with h' | h' | h'
    · exact Or.inl (Or.inr ⟨h, h'⟩)
    · exact absurd h' hy
    · exact Or.inr (mul_neg_of_neg_of_pos h h')
  · exact absurd h hx
  · rcases lt_trichotomy y 0 with h' | h' | h'
    · exact Or.inr (mul_neg_of_pos_of_neg h h')
    · exact absurd h' hy
    · exact Or.inl (Or.inl ⟨h, h'⟩)

/-- The segment from `b` to a point `z` beyond the line `a p` (on the side of `p` of the base,
not beyond the line `p b`) meets the side `a p`. -/
theorem cross_seg_left {a p b z : Point} (hD : cross a p b ≠ 0)
    (h1 : (cross a p b : ℚ) * crq a p z.x z.y < 0)
    (h2 : 0 ≤ (cross a p b : ℚ) * crq p b z.x z.y)
    (hg : 0 ≤ (cross a p b : ℚ) * crq b a z.x z.y) :
    ∃ X Y : ℚ, OnSegment b z X Y ∧ OnSegment a p X Y := by
  have hDq : (cross a p b : ℚ) ≠ 0 := by exact_mod_cast hD
  have hsq := sq_pos_of_cross hD
  set D := (cross a p b : ℚ) with hDdef
  set u := D * crq a p z.x z.y with hu
  have hpos : 0 < D * D - u := by linarith
  set s := D * D / (D * D - u) with hs
  have s0 : 0 ≤ s := div_nonneg hsq.le hpos.le
  have s1 : s ≤ 1 := by rw [hs, div_le_one hpos]; linarith
  refine ⟨b.x + s * (z.x - b.x), b.y + s * (z.y - b.y), ⟨s, s0, s1, rfl, rfl⟩, ?_⟩
  apply hit_left_on hD
  · have e : crq a p (b.x + s * (z.x - b.x)) (b.y + s * (z.y - b.y))
        = (1 - s) * D + s * crq a p z.x z.y := by
      rw [crq_affine, crq_base_right a p b]
    have k : (1 - s) * (D * D) + s * u = 0 := by
      rw [hs]; field_simp; ring
    have k2 : D * ((1 - s) * D + s * crq a p z.x z.y) = 0 := by
      rw [← k, hu]; ring
    rw [e]
    exact (mul_eq_zero.mp k2).resolve_left hDq
  · rw [crq_affine, crq_self_right p b]
    have : D * ((1 - s) * 0 + s * crq p b z.x z.y) = s * (D * crq p b z.x z.y) := by ring
    rw [this]; exact mul_nonneg s0 h2
  · rw [crq_affine, crq_self_left b a]
    have : D * ((1 - s) * 0 + s * crq b a z.x z.y) = s * (D * crq b a z.x z.y) := by ring
    rw [this]; exact mul_nonneg s0 hg

/-- Mirror image of `cross_seg_left`: the segment from `z` to `a` meets the side `p b`. -/
theorem cross_seg_right {a p b z : Point} (hD : cross a p b ≠ 0)
    (h2 : (cross a p b : ℚ) * crq p b z.x z.y < 0)
    (h1 : 0 ≤ (cross a p b : ℚ) * crq a p z.x z.y)
    (hg : 0 ≤ (cross a p b : ℚ) * crq b a z.x z.y) :
    ∃ X Y : ℚ, OnSegment z a X Y ∧ OnSegment p b X Y := by
  have hDq : (cross a p b : ℚ) ≠ 0 := by exact_mod_cast hD
  have hsq := sq_pos_of_cross hD
  set D := (cross a p b : ℚ) with hDdef
  set u := D * crq p b z.x z.y with hu
  have hpos : 0 < D * D - u := by linarith
  set s := -u / (D * D - u) with hs
  have s0 : 0 ≤ s := div_nonneg (by linarith) hpos.le
  have s1 : s ≤ 1 := by rw [hs, div_le_one hpos]; linarith
  refine ⟨z.x + s * (a.x - z.x), z.y + s * (a.y - z.y), ⟨s, s0, s1, rfl, rfl⟩, ?_⟩
  apply hit_right_on hD
  · have e : crq p b (z.x + s * (a.x - z.x)) (z.y + s * (a.y - z.y))
        = (1 - s) * crq p b z.x z.y + s * D := by
      rw [crq_affine, crq_base_left a p b]
    have k : (1 - s) * u + s * (D * D) = 0 := by
      rw [hs]; field_simp; ring
    have k2 : D * ((1 - s) * crq p b z.x z.y + s * D) = 0 := by
      rw [← k, hu]; ring
    rw [e]
    exact (mul_eq_zero.mp k2).resolve_left hDq
  · rw [crq_affine, crq_self_left a p]
    have : D * ((1 - s) * crq a p z.x z.y + s * 0) = (1 - s) * (D * crq a p z.x z.y) := by ring
    rw [this]; exact mul_nonneg (by linarith) h1
  · rw [crq_affine, crq_self_right b a]
    have : D * ((1 - s) * crq b a z.x z.y + s * 0) = (1 - s) * (D * crq b a z.x z.y) := by ring
    rw [this]; exact mul_nonneg (by linarith) hg

theorem cross_swap_last (a b c : Point) : cross a c b = -cross a b c := by
  unfold cross; ring

theorem cross_swap_first (a b c : Point) : cross b a c = -cross a b c := by
  unfold cross; ring

theorem q_sum (a p b z : Point) :
    (cross a p b : ℚ) * crq a p z.x z.y + (cross a p b : ℚ) * crq p b z.x z.y
      + (cross a p b : ℚ) * crq b a z.x z.y = (cross a p b : ℚ) * (cross a p b : ℚ) := by
  rw [← mul_add, ← mul_add, crq_sum]

/-- The corner at the second smallest point `b`, next to the smallest point `v` whose ear
`a v b` is empty, turns like the corner at `v`. -/
theorem second_corner_sign {a v b m : Point} (hD : cross a v b ≠ 0) (hvb : lexLt v b)
    (hba : lexLt b a) (hbm : lexLt b m) (hnot : ¬ InTri a v b m)
    (hdis : ∀ X Y : ℚ, OnSegment b m X Y → OnSegment a v X Y → False)
    (hne : cross a b m ≠ 0) : SameSign (cross a b m) (cross a v b) := by
  rcases sameSign_or_neg hne hD with h | h
  · exact h
  exfalso
  have hsq := sq_pos_of_cross hD
  have hg : 0 < (cross a v b : ℚ) * crq b a m.x m.y := by
    rw [crq_pt, cross_swap_first a b m]
    have : ((cross a b m * cross a v b : Int) : ℚ) < 0 := by exact_mod_cast h
    push_cast at this ⊢
    linarith
  have hsum := q_sum a v b m
  have bx := bary_x a v b m.x m.y
  have by' := bary_y a v b m.x m.y
  have hcs := crq_sum a v b m.x m.y
  by_cases h2 : (cross a v b : ℚ) * crq v b m.x m.y < 0
  · refine lex_pos3 hbm hba hvb hsq.le (by linarith : (0:ℚ) ≤ -((cross a v b : ℚ) * crq v b m.x m.y))
      hg.le (by linarith) ?_ ?_
    · linear_combination (cross a v b : ℚ) * bx + ((cross a v b : ℚ) * b.x) * hcs
    · linear_combination (cross a v b : ℚ) * by' + ((cross a v b : ℚ) * b.y) * hcs
  · have h2' := not_lt.mp h2
    have h1 : (cross a v b : ℚ) * crq a v m.x m.y < 0 := by
      by_contra hc
      exact hnot (inTri_of_q (not_lt.mp hc) h2' hg.le)
    obtain ⟨X, Y, o1, o2⟩ := cross_seg_left hD h1 h2' hg.le
    exact hdis X Y o1 o2

/-- In a quadrilateral `v b z a` whose smallest point is `v`, with the ear `a v b` empty, the
corner at `z` turns like the corner at `v`. -/
theorem quad_corner_sign {a v b z : Point} (hD : cross a v b ≠ 0) (hva : lexLt v a)
    (hvb : lexLt v b) (hvz : lexLt v z) (hnot : ¬ InTri a v b z)
    (hd1 : ∀ X Y : ℚ, OnSegment b z X Y → OnSegment a v X Y → False)
    (hd2 : ∀ X Y : ℚ, OnSegment z a X Y → OnSegment v b X Y → False)
    (hne : cross b z a ≠ 0) : SameSign (cross b z a) (cross a v b) := by
  rcases sameSign_or_neg hne hD with h | h
  · exact h
  exfalso
  have hsq := sq_pos_of_cross hD
  have hg : 0 < (cross a v b : ℚ) * crq b a z.x z.y := by
    rw [crq_pt, cross_swap_last b z a]
    have : ((cross b z a * cross a v b : Int) : ℚ) < 0 := by exact_mod_cast h
    push_cast at this ⊢
    linarith
  have hsum := q_sum a v b z
  have bx := bary_x a v b z.x z.y
  have by' := bary_y a v b z.x z.y
  have hcs := crq_sum a v b z.x z.y
  by_cases h2 : (cross a v b : ℚ) * crq v b z.x z.y < 0
  · by_cases h1 : (cross a v b : ℚ) * crq a v z.x z.y < 0
    · refine lex_pos3 hvz hva hvb hsq.le
        (by linarith : (0:ℚ) ≤ -((cross a v b : ℚ) * crq v b z.x z.y))
        (by linarith : (0:ℚ) ≤ -((cross a v b : ℚ) * crq a v z.x z.y)) (by linarith) ?_ ?_
      · linear_combination (cross a v b : ℚ) * bx + ((cross a v b : ℚ) * v.x) * hcs
      · linear_combination (cross a v b : ℚ) * by' + ((cross a v b : ℚ) * v.y) * hcs
    · obtain ⟨X, Y, o1, o2⟩ := cross_seg_right hD h2 (not_lt.mp h1) hg.le
      exact hd2 X Y o1 o2
  · have h2' := not_lt.mp h2
    have h1 : (cross a v b : ℚ) * crq a v z.x z.y < 0 := by
      by_contra hc
      exact hnot (inTri_of_q (not_lt.mp hc) h2' hg.le)
    obtain ⟨X, Y, o1, o2⟩ := cross_seg_left hD h1 h2' hg.le
    exact hd1 X Y o1 o2

theorem eq_nil_or_snoc (L : List Point) : L = [] ∨ ∃ L' b, L = L' ++ [b] := by
  rcases List.eq_nil_or_concat L with h | ⟨L', b, h⟩
  · exact Or.inl h
  · exact Or.inr ⟨L', b, by rw [h, List.concat_eq_append]⟩

theorem hd_cons (x : Point) (L : List Point) : hd (x :: L) = x := rfl

theorem la_concat (L : List Point) (x : Point) : la (L ++ [x]) = x := by
  unfold la; simp

theorem hd_append {A : List Point} (B : List Point) (h : A ≠ []) : hd (A ++ B) = hd A := by
  cases A with
  | nil => exact absurd rfl h
  | cons a A => rfl

theorem la_append (A : List Point) {B : List Point} (h : B ≠ []) : la (A ++ B) = la B := by
  unfold la
  rcases eq_nil_or_snoc B with hB | ⟨B', x, hB⟩
  · exact absurd hB h
  · subst hB
    rw [← List.append_assoc]
    simp

theorem la_cons {L : List Point} (x : Point) (h : L ≠ []) : la (x :: L) = la L :=
  la_append [x] h

/-- A chain of at least two points is its first point, a middle part and its last point. -/
theorem decomp {L : List Point} (h : 2 ≤ L.length) : ∃ M, L = hd L :: M ++ [la L] := by
  cases L with
  | nil => simp at h
  | cons b L' =>
    rcases eq_nil_or_snoc L' with hL | ⟨M, a, hL⟩
    · subst hL; simp at h
    · subst hL
      refine ⟨M, ?_⟩
      rw [hd_cons, ← List.cons_append, la_concat]

theorem hd_mem {L : List Point} (h : L ≠ []) : hd L ∈ L := by
  cases L with
  | nil => exact absurd rfl h
  | cons a A => simp [hd]

theorem la_mem {L : List Point} (h : L ≠ []) : la L ∈ L := by
  rcases eq_nil_or_snoc L with hB | ⟨B', x, hB⟩
  · exact absurd hB h
  · subst hB; rw [la_concat]; simp

theorem ne_nil_of_length {L : List Point} {n : Nat} (h : n + 1 ≤ L.length) : L ≠ [] := by
  intro h0; subst h0; simp at h

theorem inTri_swap {a p b q : Point} : InTri b p a q ↔ InTri a p b q := by
  unfold InTri
  have e0 : cross b p a = -cross a p b := by unfold cross; ring
  have e1 : cross b p q = -cross p b q := by unfold cross; ring
  have e2 : cross p a q = -cross a p q := by unfold cross; ring
  have e3 : cross a b q = -cross b a q := by unfold cross; ring
  rw [e0, e1, e2, e3]
  constructor
  · rintro ⟨h1, h2, h3⟩
    exact ⟨by linarith, by linarith, by linarith⟩
  · rintro ⟨h1, h2, h3⟩
    exact ⟨by linarith, by linarith, by linarith⟩

theorem sameSign_neg {x y : Int} (h : SameSign (-x) (-y)) : SameSign x y := by
  unfold SameSign at *; omega

theorem sameSign_symm {x y : Int} (h : SameSign x y) : SameSign y x := by
  unfold SameSign at *; omega

theorem sameSign_trans {x y z : Int} (h1 : SameSign x y) (h2 : SameSign y z) :
    SameSign x z := by
  unfold SameSign at *; omega

theorem sameSign_add {x y z : Int} (h1 : SameSign x z) (h2 : SameSign y z) :
    SameSign (x + y) z := by
  unfold SameSign at *; omega

theorem sameSign_ne {x y : Int} (h : SameSign x y) : x ≠ 0 ∧ y ≠ 0 := by
  unfold SameSign at *; omega

theorem sameSign_of_mul_pos {x y : Int} (h : 0 < x * y) : SameSign x y := by
  unfold SameSign
  rcases lt_trichotomy x 0 with hx | hx | hx
  · right; exact ⟨hx, by nlinarith⟩
  · rw [hx] at h; simp at h
  · left; exact ⟨hx, by nlinarith⟩

/-- Mirror image of `second_corner_sign`, for the second smallest point `a` before `v`. -/
theorem second_corner_sign_last {a v b m : Point} (hD : cross a v b ≠ 0) (hva : lexLt v a)
    (hab : lexLt a b) (ham : lexLt a m) (hnot : ¬ InTri a v b m)
    (hdis : ∀ X Y : ℚ, OnSegment m a X Y → OnSegment v b X Y → False)
    (hne : cross m a b ≠ 0) : SameSign (cross m a b) (cross a v b) := by
  have e1 : cross b v a = -cross a v b := cross_reverse a v b
  have e2 : cross b a m = -cross m a b := cross_reverse m a b
  have := second_corner_sign (a := b) (v := v) (b := a) (m := m) (by rw [e1]; omega) hva hab ham
    (fun h => hnot (inTri_swap.mp h))
    (fun X Y o1 o2 => hdis X Y (onSegment_symm o1) (onSegment_symm o2))
    (by rw [e2]; omega)
  rw [e1, e2] at this
  exact sameSign_neg this

/-- The corner at a point smaller than all others of a simple polygon is not degenerate. -/
theorem corner_ne_zero {v : Point} {rest : List Point} (hs : SimpleE (v :: rest))
    (hd' : (v :: rest).Nodup) (hlen : 2 ≤ rest.length) (hmin : ∀ q ∈ rest, lexLt v q) :
    cross (la rest) v (hd rest) ≠ 0 := by
  have hne : rest ≠ [] := ne_nil_of_length (by omega : 0 + 1 ≤ rest.length)
  have hla := hmin _ (la_mem hne)
  have hhd := hmin _ (hd_mem hne)
  obtain ⟨M, hM⟩ := decomp hlen
  generalize hd rest = b at *
  generalize la rest = a at *
  subst hM
  intro h0
  obtain ⟨X, Y, o1, o2, hX⟩ := colinear_corner_overlap _ _ _ hla hhd h0
  have hd2 : (v :: b :: M ++ [a]).Nodup := hd'
  have hs2 : SimpleE (v :: b :: M ++ [a]) := hs
  obtain ⟨-, -, -, hpa, -, hab⟩ := corner_nodup hd2
  obtain ⟨m1, m2⟩ := corner_edge_mem v b a M
  have hne12 : ((a, v) : Point × Point) ≠ (v, b) := by
    intro h; exact hpa (Prod.mk.inj h).1.symm
  rcases hs2 _ m2 _ m1 hne12 X Y o1 o2 with ⟨-, k1, k2⟩ | ⟨k, -, -⟩
  · exact hX ⟨k1, k2⟩
  · exact hab k

theorem chainSum_pair (a b : Point) : chainSum [a, b] = det2 a b := by
  simp [chainSum]

/-- Removing the first point of a polygon changes the doubled area by the cross product of
the corner. -/
theorem area2_ear {p : Point} {rest : List Point} (hlen : 2 ≤ rest.length) :
    area2 (p :: rest) = area2 rest + cross (la rest) p (hd rest) := by
  obtain ⟨M, hM⟩ := decomp hlen
  generalize hd rest = b at *
  generalize la rest = a at *
  subst hM
  have e1 : area2 (p :: (b :: M ++ [a])) = det2 p b + chainSum (b :: M ++ [a]) + det2 a p := by
    rw [area2_cons]
    have : p :: (b :: M ++ [a]) ++ [p] = p :: ((b :: M) ++ a :: [p]) := by simp
    rw [this, List.cons_append, chainSum_cons_cons, ← List.cons_append, chainSum_append,
      chainSum_pair]
    ring
  have e2 : area2 (b :: M ++ [a]) = chainSum (b :: M ++ [a]) + det2 a b := by
    rw [List.cons_append, area2_cons]
    have : b :: (M ++ [a]) ++ [b] = (b :: M) ++ a :: [b] := by simp
    rw [this, chainSum_append, chainSum_pair, List.cons_append]
  rw [e1, e2]
  unfold det2 cross
  ring

/-- Cutting an ear off a simple polygon leaves a simple polygon. -/
theorem ear_simple {p : Point} {rest : List Point} (hs : SimpleE (p :: rest))
    (hd' : (p :: rest).Nodup) (hlen : 3 ≤ rest.length) (hD : cross (la rest) p (hd rest) ≠ 0)
    (hear : Ear p rest) : SimpleE rest := by
  unfold Ear at hear
  obtain ⟨M, hM⟩ := decomp (by omega : 2 ≤ rest.length)
  generalize hd rest = b at *
  generalize la rest = a at *
  subst hM
  have hd2 : (p :: b :: M ++ [a]).Nodup := hd'
  have hs2 : SimpleE (p :: b :: M ++ [a]) := hs
  obtain ⟨hpM, haM, hbM, hpa, hpb, hab⟩ := corner_nodup hd2
  have hMne : M ≠ [] := by
    intro h0
    rw [h0] at hlen
    simp at hlen
  have hear2 : ∀ q ∈ M, ¬ InTri a p b q := by
    intro q hq
    apply hear q
    · simp [hq]
    · intro h; exact hbM (h ▸ hq)
    · intro h; exact haM (h ▸ hq)
  have hclean := ear_clean hs2 hd2 hD hMne hear2
  -- the polygon seen from `a`: `a :: [p] ++ b :: M`
  have hs3 : SimpleE (a :: [p] ++ b :: M) := by
    have := simpleE_swap (A := p :: b :: M) (B := [a]) hs2
    exact this
  have hd3 : (a :: [p] ++ b :: M).Nodup := by
    have h1 : ((p :: b :: M) ++ [a]).Nodup := hd2
    have h2 : ([a] ++ (p :: b :: M)).Nodup := List.nodup_append_comm.mp h1
    exact h2
  have hc3 : ∀ e ∈ edges (a :: [p] ++ b :: M), ∀ X Y : ℚ, OnSegment e.1 e.2 X Y →
      OnSegment a b X Y → (X = a.x ∧ Y = a.y) ∨ (X = b.x ∧ Y = b.y) := by
    intro e he X Y o1 o2
    exact hclean e ((mem_edges_swap (p :: b :: M) [a] e).mpr he) X Y o1 o2
  have h4 := simpleE_split_right hs3 hd3 hc3
  exact simpleE_swap (A := [a]) (B := b :: M) h4

/-- A non-empty list has an element maximising an integer function. -/
theorem exists_max_of_list {α : Type} (f : α → Int) :
    ∀ (L : List α), L ≠ [] → ∃ x ∈ L, ∀ q ∈ L, f q ≤ f x
  | [], h => absurd rfl h
  | [a], _ => ⟨a, by simp, by simp⟩
  | a :: b :: L, _ => by
    obtain ⟨x, hx, hmax⟩ := exists_max_of_list f (b :: L) (by simp)
    by_cases h : f x ≤ f a
    · refine ⟨a, by simp, ?_⟩
      intro q hq
      rcases List.mem_cons.mp hq with hq | hq
      · rw [hq]
      · exact le_trans (hmax q hq) h
    · refine ⟨x, List.mem_cons_of_mem _ hx, ?_⟩
      intro q hq
      rcases List.mem_cons.mp hq with hq | hq
      · rw [hq]; omega
      · exact hmax q hq

/-- A corner of a simple polygon that is not an ear has a chord to a vertex inside its
triangle that cuts the polygon in two simple polygons. -/
theorem chord_split {p : Point} {rest : List Point} (hs : SimpleE (p :: rest))
    (hd' : (p :: rest).Nodup) (hlen : 2 ≤ rest.length) (hD : cross (la rest) p (hd rest) ≠ 0)
    (hnot : ¬ Ear p rest) :
    ∃ x K1 K2, rest = K1 ++ x :: K2 ∧ K1 ≠ [] ∧ K2 ≠ []
      ∧ InTri (la rest) p (hd rest) x
      ∧ 0 < cross (la rest) p (hd rest) * cross (la rest) p x
      ∧ 0 < cross (la rest) p (hd rest) * cross p (hd rest) x
      ∧ SimpleE (p :: K1 ++ [x]) ∧ SimpleE (p :: x :: K2) := by
  unfold Ear at hnot
  obtain ⟨M, hM⟩ := decomp hlen
  generalize hd rest = b at *
  generalize la rest = a at *
  subst hM
  have hd2 : (p :: b :: M ++ [a]).Nodup := hd'
  have hs2 : SimpleE (p :: b :: M ++ [a]) := hs
  push_neg at hnot
  obtain ⟨q0, hq0, n1, n2, hin0⟩ := hnot
  have hq0M : q0 ∈ M := by
    rw [List.cons_append, List.mem_cons, List.mem_append, List.mem_singleton] at hq0
    rcases hq0 with h | h | h
    · exact absurd h n1
    · exact h
    · exact absurd h n2
  have hne : M.filter (fun q => decide (InTri a p b q)) ≠ [] := by
    intro h0
    have : q0 ∈ M.filter (fun q => decide (InTri a p b q)) := by
      rw [List.mem_filter]; exact ⟨hq0M, by simpa using hin0⟩
    rw [h0] at this
    simp at this
  obtain ⟨x, hx, hmax⟩ := exists_max_of_list (fun q => cross a p b * cross b a q) _ hne
  rw [List.mem_filter] at hx
  obtain ⟨hxM, hxin⟩ := hx
  have hxin' : InTri a p b x := by simpa using hxin
  have hmax' : ∀ q ∈ M, InTri a p b q → cross a p b * cross b a q ≤ cross a p b * cross b a x := by
    intro q hq hqin
    apply hmax q
    rw [List.mem_filter]; exact ⟨hq, by simpa using hqin⟩
  obtain ⟨⟨w1, w2⟩, hclean⟩ := chord_clean hs2 hd2 hD hxM hxin' hmax'
  obtain ⟨N1, N2, hN⟩ := List.append_of_mem hxM
  subst hN
  have e : p :: b :: (N1 ++ x :: N2) ++ [a] = p :: (b :: N1) ++ x :: (N2 ++ [a]) := by simp
  rw [e] at hs2 hd2 hclean
  refine ⟨x, b :: N1, N2 ++ [a], by simp, by simp, by simp, hxin', w1, w2,
    simpleE_split_left hs2 hd2 hclean, simpleE_split_right hs2 hd2 hclean⟩

theorem sameSign_self {x : Int} (h : x ≠ 0) : SameSign x x := by
  unfold SameSign; omega

theorem case_triangle {v : Point} {rest : List Point} (hlen : rest.length = 2)
    (hs : SimpleE (v :: rest)) (hd' : (v :: rest).Nodup) (hmin : ∀ q ∈ rest, lexLt v q) :
    SameSign (area2 (v :: rest)) (cross (la rest) v (hd rest)) := by
  have hne := corner_ne_zero hs hd' (by omega) hmin
  rw [area2_ear (by omega)]
  have : area2 rest = 0 := by
    match rest, hlen with
    | [b, a], _ =>
      simp only [area2, List.take, List.cons_append, List.nil_append, chainSum]
      have := det2_antisymm b a
      omega
  rw [this, zero_add]
  exact sameSign_self hne

theorem case_of_ear {v : Point} {rest : List Point} (hlen : 2 ≤ rest.length)
    (h : SameSign (area2 rest) (cross (la rest) v (hd rest))) :
    SameSign (area2 (v :: rest)) (cross (la rest) v (hd rest)) := by
  rw [area2_ear hlen]
  exact sameSign_add h (sameSign_self (sameSign_ne h).2)

theorem nodup_split_left {p x : Point} {K1 K2 : List Point}
    (h : (p :: K1 ++ x :: K2).Nodup) : (p :: K1 ++ [x]).Nodup := by
  have hsub : List.Sublist (p :: K1 ++ [x]) (p :: K1 ++ x :: K2) := by
    apply List.Sublist.append (List.Sublist.refl _)
    exact List.Sublist.cons₂ _ (List.nil_sublist _)
  exact h.sublist hsub

theorem nodup_split_right {p x : Point} {K1 K2 : List Point}
    (h : (p :: K1 ++ x :: K2).Nodup) : (p :: x :: K2).Nodup := by
  have hsub : List.Sublist (p :: x :: K2) (p :: K1 ++ x :: K2) := by
    rw [List.cons_append]
    exact List.Sublist.cons₂ _ (List.sublist_append_right _ _)
  exact h.sublist hsub

/-- The corner at the smallest point is not an ear: the polygon is cut by a chord from that
point and both parts turn the same way. -/
theorem case_chord {n : Nat} (ihS : SHyp n) {v : Point} {rest : List Point}
    (hn : rest.length = n) (hlen : 2 ≤ rest.length)
    (hs : SimpleE (v :: rest)) (hd' : (v :: rest).Nodup) (hmin : ∀ q ∈ rest, lexLt v q)
    (hnot : ¬ Ear v rest) :
    SameSign (area2 (v :: rest)) (cross (la rest) v (hd rest)) := by
  have hD := corner_ne_zero hs hd' hlen hmin
  obtain ⟨x, K1, K2, hK, hK1, hK2, -, w1, w2, s1, s2⟩ := chord_split hs hd' hlen hD hnot
  have hhd : hd rest = hd K1 := by rw [hK]; exact hd_append _ hK1
  have hla : la rest = la K2 := by
    rw [hK]; rw [la_append K1 (by simp : x :: K2 ≠ [])]; exact la_cons x hK2
  have hlenK : rest.length = K1.length + (K2.length + 1) := by rw [hK]; simp
  have l1 : 1 ≤ K1.length := List.length_pos.mpr hK1
  have l2 : 1 ≤ K2.length := List.length_pos.mpr hK2
  have hdK : (v :: K1 ++ x :: K2).Nodup := by rw [List.cons_append, ← hK]; exact hd'
  have r1 := ihS v (K1 ++ [x]) (by simp; omega) (by simp; omega) s1 (nodup_split_left hdK)
    (by
      intro q hq
      apply hmin q
      rw [hK]
      rcases List.mem_append.mp hq with h | h
      · exact List.mem_append_left _ h
      · rw [List.mem_singleton] at h; rw [h]; simp)
  have r2 := ihS v (x :: K2) (by simp; omega) (by simp; omega) s2 (nodup_split_right hdK)
    (by
      intro q hq
      apply hmin q
      rw [hK]
      exact List.mem_append_right _ hq)
  rw [la_concat, hd_append _ hK1, ← hhd] at r1
  rw [hd_cons, la_cons x hK2, ← hla] at r2
  have e1 : cross x v (hd rest) = cross v (hd rest) x := (cross_rotate x v (hd rest)).symm
  rw [e1] at r1
  have t1 : SameSign (cross v (hd rest) x) (cross (la rest) v (hd rest)) :=
    sameSign_of_mul_pos (by rw [mul_comm]; exact w2)
  have t2 : SameSign (cross (la rest) v x) (cross (la rest) v (hd rest)) :=
    sameSign_of_mul_pos (by rw [mul_comm]; exact w1)
  have hsplit : area2 (v :: rest) = area2 (v :: K1 ++ [x]) + area2 (v :: x :: K2) := by
    rw [hK]; exact area2_split v x K1 K2
  rw [hsplit]
  exact sameSign_add (sameSign_trans r1 t1) (sameSign_trans r2 t2)

theorem exists_lexmin : ∀ (L : List Point), L ≠ [] → ∃ z ∈ L, ∀ q ∈ L, lexLe z q
  | [], h => absurd rfl h
  | [a], _ => ⟨a, by simp, by intro q hq; rw [List.mem_singleton] at hq; rw [hq]; exact lexLe_refl a⟩
  | a :: b :: L, _ => by
    obtain ⟨z, hz, hmin⟩ := exists_lexmin (b :: L) (by simp)
    by_cases h : lexLt a z
    · refine ⟨a, by simp, ?_⟩
      intro q hq
      rcases List.mem_cons.mp hq with hq | hq
      · rw [hq]; exact lexLe_refl a
      · exact lexLe_of_lexLt (lexLt_of_lexLt_of_lexLe h (hmin q hq))
    · refine ⟨z, List.mem_cons_of_mem _ hz, ?_⟩
      intro q hq
      rcases List.mem_cons.mp hq with hq | hq
      · rw [hq]; exact lexLe_of_not_lexLt h
      · exact hmin q hq

theorem hd_ne_la {L : List Point} (hd' : L.Nodup) (hlen : 2 ≤ L.length) : hd L ≠ la L := by
  obtain ⟨M, hM⟩ := decomp hlen
  generalize hd L = b at *
  generalize la L = a at *
  subst hM
  intro h
  subst h
  have : (b :: (M ++ [b])).Nodup := hd'
  rw [List.nodup_cons] at this
  exact this.1 (by simp)

/-- The edges of the chain `rest` are edges of the polygon `v :: rest`. -/
theorem chain_sub_edges (v : Point) {rest : List Point} {e : Point × Point}
    (he : e ∈ chainEdges rest) : e ∈ edges (v :: rest) := by
  rw [edges_cons]
  rcases eq_nil_or_snoc rest with h | ⟨L, a, h⟩
  · subst h; simp [chainEdges] at he
  · subst h
    have : v :: (L ++ [a]) ++ [v] = (v :: L) ++ a :: [v] := by simp
    rw [this, chainEdges_append]
    apply List.mem_append_left
    cases L with
    | nil => simp [chainEdges] at he
    | cons b L =>
      rw [List.cons_append, List.cons_append, chainEdges_cons_cons]
      exact List.mem_cons_of_mem _ he

theorem first_edge_mem (v : Point) {rest : List Point} (h : rest ≠ []) :
    (v, hd rest) ∈ edges (v :: rest) := by
  rw [edges_cons]
  cases rest with
  | nil => exact absurd rfl h
  | cons b L =>
    rw [List.cons_append, List.cons_append, chainEdges_cons_cons, hd_cons]
    exact List.mem_cons_self _ _

theorem last_edge_mem (v : Point) {rest : List Point} (h : rest ≠ []) :
    (la rest, v) ∈ edges (v :: rest) := by
  rw [edges_cons]
  rcases eq_nil_or_snoc rest with h0 | ⟨L, a, h0⟩
  · exact absurd h0 h
  · subst h0
    rw [la_concat]
    have : v :: (L ++ [a]) ++ [v] = (v :: L) ++ a :: [v] := by simp
    rw [this, chainEdges_append]
    apply List.mem_append_right
    simp [chainEdges]

theorem chain_first_mem {L : List Point} (b : Point) (h : L ≠ []) :
    (b, hd L) ∈ chainEdges (b :: L) := by
  cases L with
  | nil => exact absurd rfl h
  | cons c L => rw [chainEdges_cons_cons, hd_cons]; exact List.mem_cons_self _ _

theorem chain_last_mem {L : List Point} (a : Point) (h : L ≠ []) :
    (la L, a) ∈ chainEdges (L ++ [a]) := by
  rcases eq_nil_or_snoc L with h0 | ⟨L', c, h0⟩
  · exact absurd h0 h
  · subst h0
    rw [la_concat, List.append_assoc]
    show (c, a) ∈ chainEdges (L' ++ c :: [a])
    rw [chainEdges_append]
    apply List.mem_append_right
    simp [chainEdges]

/-- Two edges of a simple polygon that do not follow each other have no common point. -/
theorem edges_disjoint {P : List Point} (hs : SimpleE P) {e1 e2 : Point × Point}
    (h1 : e1 ∈ edges P) (h2 : e2 ∈ edges P) (hne : e1 ≠ e2) (n1 : e1.2 ≠ e2.1)
    (n2 : e1.1 ≠ e2.2) (X Y : ℚ) (o1 : OnSegment e1.1 e1.2 X Y)
    (o2 : OnSegment e2.1 e2.2 X Y) : False := by
  rcases hs e1 h1 e2 h2 hne X Y o1 o2 with ⟨k, -, -⟩ | ⟨k, -, -⟩
  · exact n1 k
  · exact n2 k

/-- Ear case where the second smallest point follows the smallest one. -/
theorem case_second_first {n : Nat} (ihS : SHyp n) {v z : Point} {A : List Point}
    (hn : (z :: A).length = n) (hlen : 3 ≤ (z :: A).length)
    (hs : SimpleE (v :: z :: A)) (hd' : (v :: z :: A).Nodup)
    (hmin : ∀ q ∈ z :: A, lexLt v q) (hear : Ear v (z :: A))
    (hz : ∀ q ∈ A, lexLt z q) :
    SameSign (area2 (z :: A)) (cross (la (z :: A)) v (hd (z :: A))) := by
  have hA2 : 2 ≤ A.length := by simp at hlen; omega
  have hAne : A ≠ [] := ne_nil_of_length (by omega : 0 + 1 ≤ A.length)
  have hD := corner_ne_zero hs hd' (by omega) hmin
  have hsQ := ear_simple hs hd' hlen hD hear
  have hdQ : (z :: A).Nodup := (List.nodup_cons.mp hd').2
  have r := ihS z A (by simp at hn; omega) hA2 hsQ hdQ hz
  rw [la_cons z hAne, hd_cons] at hD ⊢
  have hdA : A.Nodup := (List.nodup_cons.mp hdQ).2
  have hzA : z ∉ A := (List.nodup_cons.mp hdQ).1
  have hnot : ¬ InTri (la A) v z (hd A) := by
    have := hear (hd A) (List.mem_cons_of_mem _ (hd_mem hAne))
    rw [la_cons z hAne, hd_cons] at this
    apply this
    · intro h; exact hzA (h ▸ hd_mem hAne)
    · exact hd_ne_la hdA hA2
  have hvz : v ≠ z := by
    intro h
    have := (List.nodup_cons.mp hd').1
    exact this (by rw [h]; simp)
  have e1 : (z, hd A) ∈ edges (v :: z :: A) := chain_sub_edges v (chain_first_mem z hAne)
  have e2 : (la A, v) ∈ edges (v :: z :: A) := by
    have := last_edge_mem v (by simp : z :: A ≠ [])
    rwa [la_cons z hAne] at this
  have hdis : ∀ X Y : ℚ, OnSegment z (hd A) X Y → OnSegment (la A) v X Y → False := by
    intro X Y o1 o2
    refine edges_disjoint hs e1 e2 ?_ ?_ ?_ X Y o1 o2
    · intro h
      apply hzA
      rw [(Prod.mk.inj h).1]
      exact la_mem hAne
    · exact hd_ne_la hdA hA2
    · exact fun h => hvz h.symm
  have key := second_corner_sign hD (hmin z (by simp)) (hz _ (la_mem hAne))
    (hz _ (hd_mem hAne)) hnot hdis (sameSign_ne r).2
  exact sameSign_trans r key

/-- Ear case where the second smallest point precedes the smallest one. -/
theorem case_second_last {n : Nat} (ihS : SHyp n) {v z : Point} {B : List Point}
    (hn : (B ++ [z]).length = n) (hlen : 3 ≤ (B ++ [z]).length)
    (hs : SimpleE (v :: (B ++ [z]))) (hd' : (v :: (B ++ [z])).Nodup)
    (hmin : ∀ q ∈ B ++ [z], lexLt v q) (hear : Ear v (B ++ [z]))
    (hz : ∀ q ∈ B, lexLt z q) :
    SameSign (area2 (B ++ [z])) (cross (la (B ++ [z])) v (hd (B ++ [z]))) := by
  have hB2 : 2 ≤ B.length := by simp at hlen; omega
  have hBne : B ≠ [] := ne_nil_of_length (by omega : 0 + 1 ≤ B.length)
  have hD := corner_ne_zero hs hd' (by omega) hmin
  have hsQ := ear_simple hs hd' hlen hD hear
  have hdQ : (B ++ [z]).Nodup := (List.nodup_cons.mp hd').2
  have hsQ' : SimpleE (z :: B) := simpleE_swap (A := B) (B := [z]) hsQ
  have hdQ' : (z :: B).Nodup := by
    have h2 : ([z] ++ B).Nodup := List.nodup_append_comm.mp hdQ
    exact h2
  have r := ihS z B (by simp at hn; omega) hB2 hsQ' hdQ' hz
  have ea : area2 (z :: B) = area2 (B ++ [z]) := area2_swap [z] B
  rw [ea] at r
  rw [la_concat, hd_append _ hBne] at hD ⊢
  have hdB : B.Nodup := (List.nodup_cons.mp hdQ').2
  have hzB : z ∉ B := (List.nodup_cons.mp hdQ').1
  have hnot : ¬ InTri z v (hd B) (la B) := by
    have := hear (la B) (List.mem_append_left _ (la_mem hBne))
    rw [la_concat, hd_append _ hBne] at this
    apply this
    · exact fun h => hd_ne_la hdB hB2 h.symm
    · intro h; exact hzB (h ▸ la_mem hBne)
  have hvz : v ≠ z := by
    intro h
    have := (List.nodup_cons.mp hd').1
    exact this (by rw [h]; simp)
  have e1 : (la B, z) ∈ edges (v :: (B ++ [z])) := chain_sub_edges v (chain_last_mem z hBne)
  have e2 : (v, hd B) ∈ edges (v :: (B ++ [z])) := by
    have := first_edge_mem v (by simp : B ++ [z] ≠ [])
    rwa [hd_append _ hBne] at this
  have hdis : ∀ X Y : ℚ, OnSegment (la B) z X Y → OnSegment v (hd B) X Y → False := by
    intro X Y o1 o2
    refine edges_disjoint hs e1 e2 ?_ ?_ ?_ X Y o1 o2
    · intro h
      apply hzB
      rw [(Prod.mk.inj h).2]
      exact hd_mem hBne
    · exact fun h => hvz h.symm
    · exact fun h => hd_ne_la hdB hB2 h.symm
  have key := second_corner_sign_last hD (hmin z (by simp)) (hz _ (hd_mem hBne))
    (hz _ (la_mem hBne)) hnot hdis (sameSign_ne r).2
  exact sameSign_trans r key

theorem la_mid (B : List Point) (z : Point) {A : List Point} (hA : A ≠ []) :
    la (B ++ z :: A) = la A := by
  rw [la_append B (by simp : z :: A ≠ []), la_cons z hA]

/-- Facts on a polygon `v :: (B ++ z :: A)` without duplicate points. -/
theorem mid_nodup {v z : Point} {A B : List Point} (h : (v :: (B ++ z :: A)).Nodup) :
    (z :: (A ++ v :: B)).Nodup ∧ (z :: (A ++ B)).Nodup ∧ (v :: (B ++ A)).Nodup
      ∧ v ≠ z ∧ v ∉ A ∧ v ∉ B ∧ z ∉ A ∧ z ∉ B := by
  have h1 : ((v :: B) ++ (z :: A)).Nodup := h
  have h2 : ((z :: A) ++ (v :: B)).Nodup := List.nodup_append_comm.mp h1
  have h3 : (z :: (A ++ v :: B)).Nodup := h2
  have hsub1 : List.Sublist (z :: (A ++ B)) (z :: (A ++ v :: B)) :=
    List.Sublist.cons₂ _ (List.Sublist.append (List.Sublist.refl _) (List.sublist_cons_self _ _))
  have hsub2 : List.Sublist (v :: (B ++ A)) (v :: (B ++ z :: A)) :=
    List.Sublist.cons₂ _ (List.Sublist.append (List.Sublist.refl _) (List.sublist_cons_self _ _))
  refine ⟨h3, h3.sublist hsub1, h.sublist hsub2, ?_, ?_, ?_, ?_, ?_⟩
  · intro e
    exact (List.nodup_cons.mp h).1 (by rw [e]; simp)
  · intro e
    exact (List.nodup_cons.mp h).1 (by simp [e])
  · intro e
    exact (List.nodup_cons.mp h).1 (by simp [e])
  · intro e
    exact (List.nodup_cons.mp h3).1 (by simp [e])
  · intro e
    exact (List.nodup_cons.mp h3).1 (by simp [e])

/-- Ear case, second smallest point `z` not next to `v`, with the corner at `z` an ear too:
both ears can be cut off, in either order. -/
theorem case_two_ears {n : Nat} (ihE : EHyp n) {v z : Point} {A B : List Point}
    (hA : A ≠ []) (hB : B ≠ []) (hn : (B ++ z :: A).length = n) (h3 : 3 ≤ (A ++ B).length)
    (hs : SimpleE (v :: (B ++ z :: A))) (hd' : (v :: (B ++ z :: A)).Nodup)
    (hmin : ∀ q ∈ B ++ z :: A, lexLt v q) (hear : Ear v (B ++ z :: A))
    (hz : ∀ q ∈ B ++ z :: A, q ≠ z → lexLt z q) (ht : cross (la B) z (hd A) ≠ 0)
    (hsQ : SimpleE (B ++ z :: A)) (hearz : Ear z (A ++ v :: B)) :
    SameSign (cross (la B) z (hd A)) (cross (la A) v (hd B)) := by
  obtain ⟨dz, dq, dv, hvz, hvA, hvB, hzA, hzB⟩ := mid_nodup hd'
  have hsPz : SimpleE (z :: (A ++ v :: B)) := simpleE_swap (A := v :: B) (B := z :: A) hs
  have hlz : la (A ++ v :: B) = la B := la_mid A v hB
  have hhz : hd (A ++ v :: B) = hd A := hd_append _ hA
  have lenAB : (A ++ B).length + 1 = n := by
    rw [← hn]; simp; omega
  -- cut the ear at `z`, then look from `v`
  have hs1 : SimpleE (A ++ v :: B) :=
    ear_simple hsPz dz (by simp; simp at h3; omega) (by rw [hlz, hhz]; exact ht) hearz
  have hs2 : SimpleE (v :: (B ++ A)) := simpleE_swap (A := A) (B := v :: B) hs1
  have hear2 : Ear v (B ++ A) := by
    intro q hq n1 n2
    simp only [la_append B hA, hd_append A hB] at n1 n2 ⊢
    have hq' : q ∈ B ++ z :: A := by
      rcases List.mem_append.mp hq with h | h
      · exact List.mem_append_left _ h
      · exact List.mem_append_right _ (List.mem_cons_of_mem _ h)
    have := hear q hq'
    rw [la_mid B z hA, hd_append _ hB] at this
    exact this n1 n2
  have r1 := ihE v (B ++ A) (by simp; simp at lenAB; omega) (by simp; simp at h3; omega)
    hs2 dv (by
      intro q hq
      apply hmin
      rcases List.mem_append.mp hq with h | h
      · exact List.mem_append_left _ h
      · exact List.mem_append_right _ (List.mem_cons_of_mem _ h)) hear2
  rw [la_append B hA, hd_append A hB] at r1
  -- cut the ear at `v`, then look from `z`
  have hs3 : SimpleE (z :: (A ++ B)) := simpleE_swap (A := B) (B := z :: A) hsQ
  have hear3 : Ear z (A ++ B) := by
    intro q hq n1 n2
    simp only [la_append A hB, hd_append B hA] at n1 n2 ⊢
    have hq' : q ∈ A ++ v :: B := by
      rcases List.mem_append.mp hq with h | h
      · exact List.mem_append_left _ h
      · exact List.mem_append_right _ (List.mem_cons_of_mem _ h)
    have := hearz q hq'
    rw [hlz, hhz] at this
    exact this n1 n2
  have r2 := ihE z (A ++ B) (by omega) h3 hs3 dq (by
      intro q hq
      have hq' : q ∈ B ++ z :: A := by
        rcases List.mem_append.mp hq with h | h
        · exact List.mem_append_right _ (List.mem_cons_of_mem _ h)
        · exact List.mem_append_left _ h
      apply hz q hq'
      intro e
      rcases List.mem_append.mp hq with h | h
      · exact hzA (e ▸ h)
      · exact hzB (e ▸ h)) hear3
  rw [la_append A hB, hd_append B hA, area2_swap A B] at r2
  exact sameSign_trans (sameSign_symm r2) r1

/-- Ear case for a quadrilateral `v b z a` whose second smallest point `z` is opposite to
`v`. -/
theorem case_quad {v z a b : Point} (hs : SimpleE [v, b, z, a]) (hd' : [v, b, z, a].Nodup)
    (hmin : ∀ q ∈ [b, z, a], lexLt v q) (hear : Ear v [b, z, a])
    (ht : cross b z a ≠ 0) : SameSign (cross b z a) (cross a v b) := by
  have hD : cross a v b ≠ 0 := @corner_ne_zero v [b, z, a] hs hd' (by simp) hmin
  have hE : edges [v, b, z, a] = [(v, b), (b, z), (z, a), (a, v)] := by
    simp [edges, chainEdges]
  simp only [List.nodup_cons, List.mem_cons, List.mem_singleton, not_or, List.not_mem_nil,
    not_false_eq_true, List.nodup_nil, and_true] at hd'
  obtain ⟨⟨vb, vz, va⟩, ⟨bz, ba⟩, za⟩ := hd'
  have hnot : ¬ InTri a v b z := by
    have := hear z (by simp)
    exact this (fun h => bz h.symm) za
  have m1 : (b, z) ∈ edges [v, b, z, a] := by rw [hE]; simp
  have m2 : (a, v) ∈ edges [v, b, z, a] := by rw [hE]; simp
  have m3 : (z, a) ∈ edges [v, b, z, a] := by rw [hE]; simp
  have m4 : (v, b) ∈ edges [v, b, z, a] := by rw [hE]; simp
  refine quad_corner_sign hD (hmin a (by simp)) (hmin b (by simp)) (hmin z (by simp)) hnot
    ?_ ?_ ht
  · intro X Y o1 o2
    exact edges_disjoint hs m1 m2 (fun h => ba (Prod.mk.inj h).1) za (fun h => vb h.symm)
      X Y o1 o2
  · intro X Y o1 o2
    exact edges_disjoint hs m3 m4 (fun h => vz (Prod.mk.inj h).1.symm) (fun h => va h.symm)
      (fun h => bz h.symm) X Y o1 o2

theorem hd_mid_eq (K : List Point) (x : Point) (K2 : List Point) :
    hd (K ++ x :: K2) = hd (K ++ [x]) := by
  cases K with
  | nil => rfl
  | cons k K => rfl

theorem la_mid_eq (K1 : List Point) (x : Point) (K : List Point) :
    la (K1 ++ x :: K) = la (x :: K) := la_append K1 (by simp)

/-- Position of a vertex `x` different from `v` in a chain `A ++ v :: B`. -/
theorem locate {A B K1 K2 : List Point} {v x : Point} (h : A ++ v :: B = K1 ++ x :: K2)
    (hxv : x ≠ v) :
    (∃ K, A = K1 ++ x :: K ∧ K2 = K ++ v :: B) ∨ (∃ K, B = K ++ x :: K2 ∧ K1 = A ++ v :: K) := by
  rcases List.append_eq_append_iff.mp h with ⟨a', h1, h2⟩ | ⟨c', h1, h2⟩
  · right
    cases a' with
    | nil =>
      simp only [List.nil_append, List.cons.injEq] at h2
      exact absurd h2.1.symm hxv
    | cons w a'' =>
      simp only [List.cons_append, List.cons.injEq] at h2
      obtain ⟨rfl, h2⟩ := h2
      exact ⟨a'', h2, h1⟩
  · left
    cases c' with
    | nil =>
      simp only [List.nil_append, List.cons.injEq] at h2
      exact absurd h2.1 hxv
    | cons w c'' =>
      simp only [List.cons_append, List.cons.injEq] at h2
      obtain ⟨rfl, h2⟩ := h2
      exact ⟨c'', h1, h2⟩

/-- Ear case, second smallest point `z` not next to `v`, with a vertex `x` inside the triangle
of the corner at `z`, located after `z` and before `v`. -/
theorem inner_chord_after {n : Nat} (ihS : SHyp n) (ihE : EHyp n) {v z x : Point}
    {B K1 K : List Point} (hB : B ≠ []) (hK1 : K1 ≠ [])
    (hn : (B ++ z :: (K1 ++ x :: K)).length = n)
    (hd' : (v :: (B ++ z :: (K1 ++ x :: K))).Nodup)
    (hmin : ∀ q ∈ B ++ z :: (K1 ++ x :: K), lexLt v q)
    (hear : Ear v (B ++ z :: (K1 ++ x :: K)))
    (hz : ∀ q ∈ B ++ z :: (K1 ++ x :: K), q ≠ z → lexLt z q)
    (s2 : SimpleE (z :: x :: (K ++ v :: B)))
    (w1 : 0 < cross (la B) z (hd (K1 ++ x :: K)) * cross (la B) z x) :
    SameSign (cross (la B) z (hd (K1 ++ x :: K))) (cross (la (K1 ++ x :: K)) v (hd B)) := by
  have hAne : K1 ++ x :: K ≠ [] := by simp
  have hsub : List.Sublist (v :: (B ++ z :: x :: K)) (v :: (B ++ z :: (K1 ++ x :: K))) :=
    List.Sublist.cons₂ _ (List.Sublist.append (List.Sublist.refl _)
      (List.Sublist.cons₂ _ (List.sublist_append_right _ _)))
  have dv : (v :: (B ++ z :: x :: K)).Nodup := hd'.sublist hsub
  have hmem : ∀ q ∈ B ++ z :: x :: K, q ∈ B ++ z :: (K1 ++ x :: K) := by
    intro q hq
    have := hsub.subset (List.mem_cons_of_mem v hq)
    rcases List.mem_cons.mp this with h | h
    · exfalso
      exact (List.nodup_cons.mp dv).1 (h ▸ hq)
    · exact h
  have hsv : SimpleE (v :: (B ++ z :: x :: K)) :=
    simpleE_swap (A := z :: x :: K) (B := v :: B) s2
  have hl : la (B ++ z :: x :: K) = la (K1 ++ x :: K) := by
    rw [la_append B (by simp : z :: x :: K ≠ []), la_cons z (by simp : x :: K ≠ []), la_mid_eq]
  have hh : hd (B ++ z :: x :: K) = hd B := hd_append _ hB
  have hearv : Ear v (B ++ z :: x :: K) := by
    intro q hq n1 n2
    simp only [hl, hh] at n1 n2 ⊢
    have := hear q (hmem q hq)
    simp only [la_mid B z hAne, hd_append _ hB] at this
    exact this n1 n2
  have lB : 1 ≤ B.length := List.length_pos.mpr hB
  have lK : 1 ≤ K1.length := List.length_pos.mpr hK1
  have rE := ihE v (B ++ z :: x :: K) (by simp at hn ⊢; omega) (by simp; omega) hsv dv
    (fun q hq => hmin q (hmem q hq)) hearv
  have hsr : SimpleE (B ++ z :: x :: K) :=
    ear_simple hsv dv (by simp; omega) (sameSign_ne rE).2 hearv
  rw [hl, hh] at rE
  have hsz : SimpleE (z :: (x :: K ++ B)) := simpleE_swap (A := B) (B := z :: x :: K) hsr
  have dr : (B ++ z :: x :: K).Nodup := (List.nodup_cons.mp dv).2
  have dz : (z :: (x :: K ++ B)).Nodup := by
    have h2 : ((z :: x :: K) ++ B).Nodup := List.nodup_append_comm.mp dr
    exact h2
  have rS := ihS z (x :: K ++ B) (by simp at hn ⊢; omega) (by simp; omega) hsz dz (by
    intro q hq
    have hq' : q ∈ B ++ z :: x :: K := by
      rcases List.mem_append.mp hq with h | h
      · exact List.mem_append_right _ (List.mem_cons_of_mem _ h)
      · exact List.mem_append_left _ h
    apply hz q (hmem q hq')
    intro e
    exact (List.nodup_cons.mp dz).1 (e ▸ hq))
  have ea : area2 (z :: (x :: K ++ B)) = area2 (B ++ z :: x :: K) :=
    area2_swap (z :: x :: K) B
  rw [ea, la_append _ hB, List.cons_append, hd_cons] at rS
  exact sameSign_trans (sameSign_trans (sameSign_of_mul_pos w1) (sameSign_symm rS)) rE

/-- Ear case, second smallest point `z` not next to `v`, with a vertex `x` inside the triangle
of the corner at `z`, located after `v` and before `z`. -/
theorem inner_chord_before {n : Nat} (ihS : SHyp n) (ihE : EHyp n) {v z x : Point}
    {A K K2 : List Point} (hA : A ≠ []) (hK2 : K2 ≠ [])
    (hn : ((K ++ x :: K2) ++ z :: A).length = n)
    (hd' : (v :: ((K ++ x :: K2) ++ z :: A)).Nodup)
    (hmin : ∀ q ∈ (K ++ x :: K2) ++ z :: A, lexLt v q)
    (hear : Ear v ((K ++ x :: K2) ++ z :: A))
    (hz : ∀ q ∈ (K ++ x :: K2) ++ z :: A, q ≠ z → lexLt z q)
    (s1 : SimpleE (z :: (A ++ v :: K) ++ [x]))
    (w2 : 0 < cross (la (K ++ x :: K2)) z (hd A) * cross z (hd A) x) :
    SameSign (cross (la (K ++ x :: K2)) z (hd A)) (cross (la A) v (hd (K ++ x :: K2))) := by
  have hBne : K ++ x :: K2 ≠ [] := by simp
  have hKx : K ++ [x] ≠ [] := by simp
  have hsub : List.Sublist (v :: ((K ++ [x]) ++ z :: A)) (v :: ((K ++ x :: K2) ++ z :: A)) :=
    List.Sublist.cons₂ _ (List.Sublist.append
      (List.Sublist.append (List.Sublist.refl _) (List.Sublist.cons₂ _ (List.nil_sublist _)))
      (List.Sublist.refl _))
  have dv : (v :: ((K ++ [x]) ++ z :: A)).Nodup := hd'.sublist hsub
  have hmem : ∀ q ∈ (K ++ [x]) ++ z :: A, q ∈ (K ++ x :: K2) ++ z :: A := by
    intro q hq
    have := hsub.subset (List.mem_cons_of_mem v hq)
    rcases List.mem_cons.mp this with h | h
    · exfalso
      exact (List.nodup_cons.mp dv).1 (h ▸ hq)
    · exact h
  have e1 : z :: (A ++ v :: K) ++ [x] = (z :: A) ++ (v :: (K ++ [x])) := by simp
  rw [e1] at s1
  have hsv : SimpleE (v :: ((K ++ [x]) ++ z :: A)) :=
    simpleE_swap (A := z :: A) (B := v :: (K ++ [x])) s1
  have hl : la ((K ++ [x]) ++ z :: A) = la A := la_mid _ z hA
  have hh : hd ((K ++ [x]) ++ z :: A) = hd (K ++ x :: K2) := by
    rw [hd_append _ hKx]
    exact (hd_mid_eq K x K2).symm
  have hearv : Ear v ((K ++ [x]) ++ z :: A) := by
    intro q hq n1 n2
    simp only [hl, hh] at n1 n2 ⊢
    have := hear q (hmem q hq)
    simp only [la_mid _ z hA, hd_append _ hBne] at this
    exact this n1 n2
  have lA : 1 ≤ A.length := List.length_pos.mpr hA
  have lK : 1 ≤ K2.length := List.length_pos.mpr hK2
  have rE := ihE v ((K ++ [x]) ++ z :: A) (by simp at hn ⊢; omega) (by simp; omega) hsv dv
    (fun q hq => hmin q (hmem q hq)) hearv
  have hsr : SimpleE ((K ++ [x]) ++ z :: A) :=
    ear_simple hsv dv (by simp; omega) (sameSign_ne rE).2 hearv
  rw [hl, hh] at rE
  have hsz : SimpleE (z :: (A ++ (K ++ [x]))) :=
    simpleE_swap (A := K ++ [x]) (B := z :: A) hsr
  have dr : ((K ++ [x]) ++ z :: A).Nodup := (List.nodup_cons.mp dv).2
  have dz : (z :: (A ++ (K ++ [x]))).Nodup := by
    have h2 : ((z :: A) ++ (K ++ [x])).Nodup := List.nodup_append_comm.mp dr
    exact h2
  have rS := ihS z (A ++ (K ++ [x])) (by simp at hn ⊢; omega) (by simp; omega) hsz dz (by
    intro q hq
    have hq' : q ∈ (K ++ [x]) ++ z :: A := by
      rcases List.mem_append.mp hq with h | h
      · exact List.mem_append_right _ (List.mem_cons_of_mem _ h)
      · exact List.mem_append_left _ h
    apply hz q (hmem q hq')
    intro e
    exact (List.nodup_cons.mp dz).1 (e ▸ hq))
  have ea : area2 (z :: (A ++ (K ++ [x]))) = area2 ((K ++ [x]) ++ z :: A) :=
    area2_swap (z :: A) (K ++ [x])
  rw [ea, la_append A hKx, la_concat, hd_append _ hA, ← cross_rotate x z (hd A)] at rS
  exact sameSign_trans (sameSign_trans (sameSign_of_mul_pos w2) (sameSign_symm rS)) rE

/-- Ear case where the second smallest point `z` is not next to the smallest point `v`. -/
theorem case_second_middle {n : Nat} (ihS : SHyp n) (ihE : EHyp n) {v z : Point}
    {A B : List Point} (hA : A ≠ []) (hB : B ≠ []) (hn : (B ++ z :: A).length = n)
    (hs : SimpleE (v :: (B ++ z :: A))) (hd' : (v :: (B ++ z :: A)).Nodup)
    (hmin : ∀ q ∈ B ++ z :: A, lexLt v q) (hear : Ear v (B ++ z :: A))
    (hz : ∀ q ∈ B ++ z :: A, q ≠ z → lexLt z q) :
    SameSign (area2 (B ++ z :: A)) (cross (la (B ++ z :: A)) v (hd (B ++ z :: A))) := by
  have lA : 1 ≤ A.length := List.length_pos.mpr hA
  have lB : 1 ≤ B.length := List.length_pos.mpr hB
  have hlen3 : 3 ≤ (B ++ z :: A).length := by simp; omega
  have hD := corner_ne_zero hs hd' (by omega) hmin
  have hsQ := ear_simple hs hd' hlen3 hD hear
  obtain ⟨dz, dq, dv, hvz, hvA, hvB, hzA, hzB⟩ := mid_nodup hd'
  have hs3 : SimpleE (z :: (A ++ B)) := simpleE_swap (A := B) (B := z :: A) hsQ
  have rt := ihS z (A ++ B) (by simp at hn ⊢; omega) (by simp; omega) hs3 dq (by
    intro q hq
    have hq' : q ∈ B ++ z :: A := by
      rcases List.mem_append.mp hq with h | h
      · exact List.mem_append_right _ (List.mem_cons_of_mem _ h)
      · exact List.mem_append_left _ h
    apply hz q hq'
    intro e
    rcases List.mem_append.mp hq with h | h
    · exact hzA (e ▸ h)
    · exact hzB (e ▸ h))
  have ea : area2 (z :: (A ++ B)) = area2 (B ++ z :: A) := area2_swap (z :: A) B
  rw [ea, la_append A hB, hd_append B hA] at rt
  have ht := (sameSign_ne rt).2
  rw [la_mid B z hA, hd_append _ hB]
  refine sameSign_trans rt ?_
  have hsPz : SimpleE (z :: (A ++ v :: B)) := simpleE_swap (A := v :: B) (B := z :: A) hs
  have hlz : la (A ++ v :: B) = la B := la_mid A v hB
  have hhz : hd (A ++ v :: B) = hd A := hd_append _ hA
  by_cases hE : Ear z (A ++ v :: B)
  · by_cases h3 : 3 ≤ (A ++ B).length
    · exact case_two_ears ihE hA hB hn h3 hs hd' hmin hear hz ht hsQ hE
    · match A, B, hA, hB with
      | [a], [b], _, _ =>
        exact case_quad (v := v) (z := z) (a := a) (b := b) hs hd' hmin hear ht
      | _ :: _ :: _, _ :: _, _, _ =>
        exfalso; apply h3
        simp only [List.length_append, List.length_cons]; omega
      | _ :: _, _ :: _ :: _, _, _ =>
        exfalso; apply h3
        simp only [List.length_append, List.length_cons]; omega
  · obtain ⟨x, K1, K2, hK, hK1, hK2, hin, w1, w2, s1, s2⟩ :=
      chord_split hsPz dz (by simp; omega) (by rw [hlz, hhz]; exact ht) hE
    simp only [hlz, hhz] at hin w1 w2
    have hxv : x ≠ v := by
      intro e
      subst e
      exact inTri_not_lexLt ht hin
        (hmin _ (List.mem_append_left _ (la_mem hB)))
        (hmin z (by simp))
        (hmin _ (List.mem_append_right _ (List.mem_cons_of_mem _ (hd_mem hA))))
    rcases locate hK hxv with ⟨K, h1, h2⟩ | ⟨K, h1, h2⟩
    · subst h1 h2
      exact inner_chord_after ihS ihE hB hK1 hn hd' hmin hear hz s2 w1
    · subst h1 h2
      exact inner_chord_before ihS ihE hA hK2 hn hd' hmin hear hz s1 w2

/-- Orientation of simple polygons, by induction on the number of points. -/
theorem orientation_all : ∀ n : Nat, SHyp n ∧ EHyp n := by
  intro n
  induction n with
  | zero =>
    constructor
    · intro v rest h; omega
    · intro v rest h; omega
  | succ n ih =>
    obtain ⟨ihS, ihE⟩ := ih
    have hE : EHyp (n + 1) := by
      intro v rest hn hlen hs hd' hmin hear
      by_cases hsmall : rest.length + 1 ≤ n
      · exact ihE v rest hsmall hlen hs hd' hmin hear
      have hn' : rest.length = n := by omega
      have hne : rest ≠ [] := ne_nil_of_length (by omega : 0 + 1 ≤ rest.length)
      obtain ⟨z, hzm, hzmin⟩ := exists_lexmin rest hne
      have hz : ∀ q ∈ rest, q ≠ z → lexLt z q :=
        fun q hq hne => lexLt_of_lexLe_of_ne (hzmin q hq) (Ne.symm hne)
      obtain ⟨B, A, hBA⟩ := List.append_of_mem hzm
      subst hBA
      by_cases hB : B = []
      · subst hB
        have dq : (z :: A).Nodup := (List.nodup_cons.mp hd').2
        exact case_second_first ihS hn' hlen hs hd' hmin hear
          (fun q hq => hz q (List.mem_cons_of_mem _ hq)
            (fun e => (List.nodup_cons.mp dq).1 (e ▸ hq)))
      by_cases hA : A = []
      · subst hA
        have dq : (B ++ [z]).Nodup := (List.nodup_cons.mp hd').2
        have dq' : ([z] ++ B).Nodup := List.nodup_append_comm.mp dq
        exact case_second_last ihS hn' hlen hs hd' hmin hear
          (fun q hq => hz q (List.mem_append_left _ hq)
            (fun e => (List.nodup_cons.mp dq').1 (e ▸ hq)))
      exact case_second_middle ihS ihE hA hB hn' hs hd' hmin hear hz
    refine ⟨?_, hE⟩
    intro v rest hn hlen hs hd' hmin
    by_cases hsmall : rest.length + 1 ≤ n
    · exact ihS v rest hsmall hlen hs hd' hmin
    have hn' : rest.length = n := by omega
    by_cases h2 : rest.length = 2
    · exact case_triangle h2 hs hd' hmin
    by_cases hear : Ear v rest
    · exact case_of_ear hlen (hE v rest hn (by omega) hs hd' hmin hear)
    · exact case_chord ihS hn' hlen hs hd' hmin hear

/-- Orientation theorem: in a simple polygon without duplicate points, whose first point `v`
is the lexicographically smallest, the doubled signed area has the sign of the turn at `v`. -/
theorem area_sign {v : Point} {rest : List Point} (hlen : 2 ≤ rest.length)
    (hs : SimpleE (v :: rest)) (hd' : (v :: rest).Nodup) (hmin : ∀ q ∈ rest, lexLt v q) :
    SameSign (area2 (v :: rest)) (cross (la rest) v (hd rest)) :=
  (orientation_all (rest.length + 1)).1 v rest (le_refl _) hlen hs hd' hmin

theorem pt_cons_succ (a : Point) (L : List Point) (i : Nat) : pt (a :: L) (i + 1) = pt L i := by
  unfold pt; simp

theorem pt_cons_zero (a : Point) (L : List Point) : pt (a :: L) 0 = a := by
  unfold pt; simp

/-- An edge of a chain joins two consecutive points of the chain. -/
theorem chain_mem_index : ∀ {L : List Point} {e : Point × Point}, e ∈ chainEdges L →
    ∃ i, i + 1 < L.length ∧ e = (pt L i, pt L (i + 1))
  | [], e, h => by simp [chainEdges] at h
  | [_], e, h => by simp [chainEdges] at h
  | a :: b :: L, e, h => by
    rw [chainEdges_cons_cons, List.mem_cons] at h
    rcases h with h | h
    · exact ⟨0, by simp, by rw [h, pt_cons_zero, pt_cons_succ, pt_cons_zero]⟩
    · obtain ⟨i, hi, he⟩ := chain_mem_index h
      refine ⟨i + 1, by simp at hi ⊢; omega, ?_⟩
      rw [he, pt_cons_succ a (b :: L) i, pt_cons_succ a (b :: L) (i + 1)]

theorem pt_closed_lt (P : List Point) {i : Nat} (h : i < P.length) :
    pt (P ++ P.take 1) i = pt P i := by
  unfold pt
  rw [List.getD_append _ _ _ _ h]

theorem pt_closed_last (P : List Point) (h : 1 ≤ P.length) :
    pt (P ++ P.take 1) P.length = pt P 0 := by
  unfold pt
  rw [List.getD_append_right _ _ _ _ (le_refl _)]
  cases P with
  | nil => simp at h
  | cons a P => simp

theorem pt_closed_succ (P : List Point) {i : Nat} (h : i < P.length) :
    pt (P ++ P.take 1) (i + 1) = pt P ((i + 1) % P.length) := by
  by_cases h1 : i + 1 < P.length
  · rw [pt_closed_lt P h1, Nat.mod_eq_of_lt h1]
  · have : i + 1 = P.length := by omega
    rw [this, Nat.mod_self, pt_closed_last P (by omega)]

theorem length_closed (P : List Point) (h : 1 ≤ P.length) :
    (P ++ P.take 1).length = P.length + 1 := by
  cases P with
  | nil => simp at h
  | cons a P => simp

/-- The edges of a polygon in terms of the indices of their endpoints. -/
theorem mem_edges_index {P : List Point} {e : Point × Point} (h : e ∈ edges P) :
    ∃ i, i < P.length ∧ e = (pt P i, pt P ((i + 1) % P.length)) := by
  unfold edges at h
  obtain ⟨i, hi, he⟩ := chain_mem_index h
  cases hP : P with
  | nil => rw [hP] at h; simp [chainEdges] at h
  | cons a P' =>
    rw [← hP]
    have h1 : 1 ≤ P.length := by rw [hP]; simp
    rw [length_closed P h1] at hi
    have hi' : i < P.length := by omega
    refine ⟨i, hi', ?_⟩
    rw [he, pt_closed_lt P hi', pt_closed_succ P hi']

/-- A simple polygon is simple in terms of its list of edges. -/
theorem simpleE_of_simple {P : List Point} (hs : Simple P) : SimpleE P := by
  intro e1 h1 e2 h2 hne X Y o1 o2
  obtain ⟨i, hi, he1⟩ := mem_edges_index h1
  obtain ⟨j, hj, he2⟩ := mem_edges_index h2
  have hij : i ≠ j := by
    intro h; apply hne; rw [he1, he2, h]
  rw [he1] at o1 ⊢
  rw [he2] at o2 ⊢
  rcases hs i j hi hj hij X Y o1 o2 with ⟨k1, k2, k3⟩ | ⟨k1, k2, k3⟩
  · left
    simp only
    rw [← k1]
    exact ⟨rfl, k2, k3⟩
  · right
    simp only
    rw [← k1]
    exact ⟨rfl, k2, k3⟩

theorem chainSum_index : ∀ (L : List Point),
    chainSum L = ((List.range (L.length - 1)).map
      (fun i => det2 (pt L i) (pt L (i + 1)))).sum
  | [] => by simp [chainSum]
  | [_] => by simp [chainSum]
  | a :: b :: L => by
    rw [chainSum_cons_cons, chainSum_index (b :: L)]
    have : (a :: b :: L).length - 1 = ((b :: L).length - 1) + 1 := by simp
    rw [this, List.range_succ_eq_map, List.map_cons, List.sum_cons, List.map_map]
    rw [pt_cons_zero, pt_cons_succ, pt_cons_zero]
    congr 1

/-- The shoelace sum of a polygon is the chain sum of the closed chain of its points. -/
theorem shoelace_eq_area2 (P : List Point) : shoelace P = area2 P := by
  unfold shoelace area2
  cases hP : P with
  | nil => simp [chainSum]
  | cons a P' =>
    rw [← hP]
    have h1 : 1 ≤ P.length := by rw [hP]; simp
    rw [chainSum_index, length_closed P h1, Nat.add_sub_cancel]
    congr 1
    apply List.map_congr_left
    intro i hi
    rw [List.mem_range] at hi
    rw [pt_closed_lt P hi, pt_closed_succ P hi]
    unfold det2
    ring

theorem pt_zero_eq_hd (L : List Point) : pt L 0 = hd L := by
  cases L with
  | nil => rfl
  | cons a L => rfl

theorem pt_last_eq_la (L : List Point) : pt L (L.length - 1) = la L := by
  rcases eq_nil_or_snoc L with h | ⟨L', a, h⟩
  · subst h; rfl
  · subst h
    rw [la_concat]
    unfold pt
    simp

theorem pt_append_mid (A : List Point) (v : Point) (B : List Point) :
    pt (A ++ v :: B) A.length = v := by
  unfold pt
  rw [List.getD_append_right _ _ _ _ (le_refl _)]
  simp

/-- The corner examined by `is_ccw` in terms of the polygon turned to start at its smallest
point. -/
theorem corner_points (A : List Point) (v : Point) (B : List Point)
    (hlen : 3 ≤ (A ++ v :: B).length) :
    pt (A ++ v :: B) (is_ccw_iPrev (A ++ v :: B) A.length) = la (B ++ A)
      ∧ pt (A ++ v :: B) (is_ccw_iNext (A ++ v :: B) A.length) = hd (B ++ A) := by
  constructor
  · unfold is_ccw_iPrev
    rcases eq_nil_or_snoc A with h | ⟨A', a, h⟩
    · subst h
      have hB : B ≠ [] := by
        intro h0; subst h0; simp at hlen
      simp only [List.length_nil, if_true, List.nil_append, List.append_nil]
      rw [pt_last_eq_la, la_cons v hB]
    · subst h
      have hne : (A' ++ [a]).length ≠ 0 := by simp
      rw [if_neg hne, la_append B (by simp : A' ++ [a] ≠ []), la_concat]
      have e : A' ++ [a] ++ v :: B = A' ++ a :: v :: B := by simp
      have e2 : (A' ++ [a]).length - 1 = A'.length := by simp
      rw [e, e2, pt_append_mid]
  · unfold is_ccw_iNext
    cases B with
    | nil =>
      have hA : A ≠ [] := by
        intro h0; subst h0; simp at hlen
      have : A.length + 1 = (A ++ [v]).length := by simp
      rw [if_pos this, List.nil_append, pt_zero_eq_hd, hd_append _ hA]
    | cons b B' =>
      have : ¬ A.length + 1 = (A ++ v :: b :: B').length := by simp
      rw [if_neg this]
      have e : A ++ v :: b :: B' = (A ++ [v]) ++ b :: B' := by simp
      have e2 : A.length + 1 = (A ++ [v]).length := by simp
      rw [e, e2, pt_append_mid]
      rfl

theorem split_at_index (P : List Point) {i : Nat} (hi : i < P.length) :
    ∃ A B, P = A ++ pt P i :: B ∧ A.length = i := by
  refine ⟨P.take i, P.drop (i + 1), ?_, by simp; omega⟩
  rw [pt_eq_getElem P hi]
  rw [← List.drop_eq_getElem_cons hi, List.take_append_drop]

/-- For a simple polygon without duplicate points, the shoelace sum has the sign of the exact
cross product at the corner examined by `is_ccw`. -/
theorem shoelace_sign_corner {P : List Point} (hs : Simple P) (hn : 3 ≤ P.length)
    (hd' : P.Nodup) :
    SameSign (shoelace P)
      (cross (pt P (is_ccw_iPrev P (is_ccw_imin P))) (pt P (is_ccw_imin P))
        (pt P (is_ccw_iNext P (is_ccw_imin P)))) := by
  have hi := is_ccw_imin_spec P (by omega)
  obtain ⟨A, B, hP, hA⟩ := split_at_index P hi.1
  have hstrict : ∀ q ∈ P, q ≠ pt P (is_ccw_imin P) → lexLt (pt P (is_ccw_imin P)) q := by
    intro q hq hne
    obtain ⟨j, hj, hjq⟩ := List.mem_iff_getElem.mp hq
    rw [← pt_eq_getElem P hj] at hjq
    rw [← hjq] at hne ⊢
    exact lexLt_of_lexLe_of_ne (hi.2.1 j hj) (Ne.symm hne)
  have hsE := simpleE_of_simple hs
  rw [shoelace_eq_area2]
  generalize pt P (is_ccw_imin P) = v at *
  rw [← hA]
  subst hP
  obtain ⟨c1, c2⟩ := corner_points A v B hn
  rw [c1, c2]
  have hs2 : SimpleE (v :: (B ++ A)) := simpleE_swap (A := A) (B := v :: B) hsE
  have hd2 : (v :: (B ++ A)).Nodup := by
    have h2 : ((v :: B) ++ A).Nodup := List.nodup_append_comm.mp hd'
    exact h2
  have hlen : 2 ≤ (B ++ A).length := by simp at hn ⊢; omega
  have hmin : ∀ q ∈ B ++ A, lexLt v q := by
    intro q hq
    apply hstrict q
    · rcases List.mem_append.mp hq with h | h
      · exact List.mem_append_right _ (List.mem_cons_of_mem _ h)
      · exact List.mem_append_left _ h
    · intro e
      exact (List.nodup_cons.mp hd2).1 (e ▸ hq)
  have key := area_sign hlen hs2 hd2 hmin
  have ea : area2 (v :: (B ++ A)) = area2 (A ++ v :: B) := area2_swap (v :: B) A
  rw [ea] at key
  exact key

/-- C7: for every simple polygon with at least 3 points, no duplicate points and coordinates
within the 30-bit bound, `is_ccw` returns true if and only if the shoelace sum
`sum (x_i * y_{i+1} - x_{i+1} * y_i)` is positive. -/
theorem is_ccw_iff_shoelace_pos (P : List Point) (hs : Simple P) (hn : 3 ≤ P.length)
    (hd' : P.Nodup) (hb : ∀ p ∈ P, InBound p) :
    is_ccw P = true ↔ 0 < shoelace P := by
  have hi := is_ccw_imin_spec P (by omega)
  obtain ⟨hp1, -, -⟩ := iPrev_facts P hn hi.1
  obtain ⟨hn1, -, -⟩ := iNext_facts P hn hi.1
  have hd1 := orient_d_eq_cross (hb _ (pt_mem P hp1)) (hb _ (pt_mem P hi.1))
    (hb _ (pt_mem P hn1))
  have key := shoelace_sign_corner hs hn hd'
  unfold is_ccw
  rw [if_neg (by omega), decide_eq_true_iff]
  have e : is_ccw_corner P = orient (pt P (is_ccw_iPrev P (is_ccw_imin P)))
      (pt P (is_ccw_imin P)) (pt P (is_ccw_iNext P (is_ccw_imin P))) := rfl
  rw [e, orient_ccw_iff, hd1]
  unfold SameSign at key
  constructor
  · intro h; omega
  · intro h; omega

theorem is_ccw_iff_shoelace_pos_witness :
    is_ccw [⟨0, 0⟩, ⟨4, 0⟩, ⟨0, 3⟩] = true ↔ 0 < shoelace [⟨0, 0⟩, ⟨4, 0⟩, ⟨0, 3⟩] :=
  is_ccw_iff_shoelace_pos [⟨0, 0⟩, ⟨4, 0⟩, ⟨0, 3⟩] (triangle_simple _ _ _ (by decide))
    (by decide) (by decide) (by decide)

/-! ### Rotation of the arguments of `orient` and overflow -/

/-- C11: for points within the 30-bit coordinate bound `orient` is invariant under cyclic
rotation of its arguments: `orient(a,b,c) = orient(b,c,a) = orient(c,a,b)`. -/
theorem orient_cyclic (a b c : Point) (ha : InBound a) (hb : InBound b) (hc : InBound c) :
    orient a b c = orient b c a ∧ orient b c a = orient c a b := by
  have h1 := orient_d_eq_cross ha hb hc
  have h2 := orient_d_eq_cross hb hc ha
  have h3 := orient_d_eq_cross hc ha hb
  rw [cross_rotate] at h2
  rw [cross_rotate, cross_rotate] at h3
  unfold orient
  rw [h1, h2, h3]
  exact ⟨rfl, rfl⟩

theorem orient_cyclic_witness :
    orient ⟨0, 0⟩ ⟨4, 0⟩ ⟨0, 3⟩ = orient ⟨4, 0⟩ ⟨0, 3⟩ ⟨0, 0⟩
      ∧ orient ⟨4, 0⟩ ⟨0, 3⟩ ⟨0, 0⟩ = orient ⟨0, 3⟩ ⟨0, 0⟩ ⟨4, 0⟩ :=
  orient_cyclic ⟨0, 0⟩ ⟨4, 0⟩ ⟨0, 3⟩ (by decide) (by decide) (by decide)

theorem abs_lt_of_bounds {n m : Int} (h1 : -m < n) (h2 : n < m) : |n| < m :=
  abs_lt.mpr ⟨h1, h2⟩

/-- C12: for points whose coordinates have absolute value below `2^30`, no step of `orient`
overflows `int64_t`: the six products fit, each of `u`, `v`, `w` has absolute value below
`2^61`, the intermediate `u - v` and `d = u - v + w` have absolute value below `2^63`, every
temporary computed with wraparound equals its value over unbounded integers, and so does the
result. -/
theorem orient_no_overflow (a b c : Point) (ha : InBound a) (hb : InBound b)
    (hc : InBound c) :
    (FitsInt64 (b.x * c.y) ∧ FitsInt64 (b.y * c.x) ∧ FitsInt64 (a.x * c.y)
        ∧ FitsInt64 (a.y * c.x) ∧ FitsInt64 (a.x * b.y) ∧ FitsInt64 (a.y * b.x))
      ∧ (|orient_u_exact b c| < 2 ^ 61 ∧ |orient_v_exact a c| < 2 ^ 61
        ∧ |orient_w_exact a b| < 2 ^ 61)
      ∧ |orient_u_exact b c - orient_v_exact a c| < 2 ^ 63
      ∧ |orient_d_exact a b c| < 2 ^ 63
      ∧ (orient_u b c = orient_u_exact b c ∧ orient_v a c = orient_v_exact a c
        ∧ orient_w a b = orient_w_exact a b)
      ∧ sub64 (orient_u b c) (orient_v a c) = orient_u_exact b c - orient_v_exact a c
      ∧ orient_d a b c = orient_d_exact a b c
      ∧ orient a b c = orient_unbounded a b c := by
  obtain ⟨hu, hu1, hu2⟩ := det_term_exact hb hc
  obtain ⟨hv, hv1, hv2⟩ := det_term_exact ha hc
  obtain ⟨hw, hw1, hw2⟩ := det_term_exact ha hb
  have hd : orient_d a b c = orient_d_exact a b c := by
    rw [orient_d_eq_cross ha hb hc]
    unfold cross orient_d_exact orient_u_exact orient_v_exact orient_w_exact
    ring
  obtain ⟨a1, a2, a3, a4⟩ := ha
  obtain ⟨b1, b2, b3, b4⟩ := hb
  obtain ⟨c1, c2, c3, c4⟩ := hc
  have fits : ∀ {p q : Int}, -(2 : Int) ^ 30 < p → p < 2 ^ 30 → -(2 : Int) ^ 30 < q →
      q < 2 ^ 30 → FitsInt64 (p * q) := by
    intro p q p1 p2 q1 q2
    have := mul_bound p1 p2 q1 q2
    exact ⟨by linarith [this.1], by linarith [this.2]⟩
  refine ⟨⟨fits b1 b2 c3 c4, fits b3 b4 c1 c2, fits a1 a2 c3 c4, fits a3 a4 c1 c2,
    fits a1 a2 b3 b4, fits a3 a4 b1 b2⟩, ⟨abs_lt_of_bounds hu1 hu2, abs_lt_of_bounds hv1 hv2,
    abs_lt_of_bounds hw1 hw2⟩, ?_, ?_, ⟨hu, hv, hw⟩, ?_, hd, ?_⟩
  · unfold orient_u_exact orient_v_exact
    exact abs_lt_of_bounds (by linarith) (by linarith)
  · unfold orient_d_exact orient_u_exact orient_v_exact orient_w_exact
    exact abs_lt_of_bounds (by linarith) (by linarith)
  · unfold orient_u orient_v
    rw [hu, hv]
    unfold sub64 orient_u_exact orient_v_exact
    exact wrap64_eq_self (by linarith) (by linarith)
  · unfold orient orient_unbounded
    rw [hd]

theorem orient_no_overflow_witness :
    (FitsInt64 ((4 : Int) * 3) ∧ FitsInt64 ((0 : Int) * 0) ∧ FitsInt64 ((0 : Int) * 3)
        ∧ FitsInt64 ((0 : Int) * 0) ∧ FitsInt64 ((0 : Int) * 0) ∧ FitsInt64 ((0 : Int) * 4))
      ∧ (|orient_u_exact ⟨4, 0⟩ ⟨0, 3⟩| < 2 ^ 61 ∧ |orient_v_exact ⟨0, 0⟩ ⟨0, 3⟩| < 2 ^ 61
        ∧ |orient_w_exact ⟨0, 0⟩ ⟨4, 0⟩| < 2 ^ 61)
      ∧ |orient_u_exact ⟨4, 0⟩ ⟨0, 3⟩ - orient_v_exact ⟨0, 0⟩ ⟨0, 3⟩| < 2 ^ 63
      ∧ |orient_d_exact ⟨0, 0⟩ ⟨4, 0⟩ ⟨0, 3⟩| < 2 ^ 63
      ∧ (orient_u ⟨4, 0⟩ ⟨0, 3⟩ = orient_u_exact ⟨4, 0⟩ ⟨0, 3⟩
        ∧ orient_v ⟨0, 0⟩ ⟨0, 3⟩ = orient_v_exact ⟨0, 0⟩ ⟨0, 3⟩
        ∧ orient_w ⟨0, 0⟩ ⟨4, 0⟩ = orient_w_exact ⟨0, 0⟩ ⟨4, 0⟩)
      ∧ sub64 (orient_u ⟨4, 0⟩ ⟨0, 3⟩) (orient_v ⟨0, 0⟩ ⟨0, 3⟩)
          = orient_u_exact ⟨4, 0⟩ ⟨0, 3⟩ - orient_v_exact ⟨0, 0⟩ ⟨0, 3⟩
      ∧ orient_d ⟨0, 0⟩ ⟨4, 0⟩ ⟨0, 3⟩ = orient_d_exact ⟨0, 0⟩ ⟨4, 0⟩ ⟨0, 3⟩
      ∧ orient ⟨0, 0⟩ ⟨4, 0⟩ ⟨0, 3⟩ = orient_unbounded ⟨0, 0⟩ ⟨4, 0⟩ ⟨0, 3⟩ :=
  orient_no_overflow ⟨0, 0⟩ ⟨4, 0⟩ ⟨0, 3⟩ (by decide) (by decide) (by decide)

/-! ### The corner test of `is_ccw` -/

theorem wrap64_modEq (n : Int) : wrap64 n ≡ n [ZMOD 2 ^ 64] := by
  unfold wrap64
  have h : (n + 2 ^ 63) % 2 ^ 64 ≡ n + 2 ^ 63 [ZMOD 2 ^ 64] := Int.mod_modEq _ _
  have := h.sub_right (2 ^ 63)
  simpa using this

theorem wrap64_range (n : Int) : -(2 : Int) ^ 63 ≤ wrap64 n ∧ wrap64 n < 2 ^ 63 := by
  unfold wrap64
  have h1 := Int.emod_nonneg (n + 2 ^ 63) (show (2 : Int) ^ 64 ≠ 0 by norm_num)
  have h2 := Int.emod_lt_of_pos (n + 2 ^ 63) (show (0 : Int) < 2 ^ 64 by norm_num)
  constructor <;> linarith

theorem det_term_modEq (p q : Point) :
    sub64 (mul64 (wrap64 p.x) (wrap64 q.y)) (mul64 (wrap64 p.y) (wrap64 q.x))
      ≡ p.x * q.y - p.y * q.x [ZMOD 2 ^ 64] := by
  unfold sub64 mul64
  refine (wrap64_modEq _).trans ?_
  exact Int.ModEq.sub
    ((wrap64_modEq _).trans (Int.ModEq.mul (wrap64_modEq _) (wrap64_modEq _)))
    ((wrap64_modEq _).trans (Int.ModEq.mul (wrap64_modEq _) (wrap64_modEq _)))

/-- Whatever the coordinates, the temporary `d` of `orient` is the exact cross product
modulo `2^64`. -/
theorem orient_d_modEq_cross (a b c : Point) :
    orient_d a b c ≡ cross a b c [ZMOD 2 ^ 64] := by
  unfold orient_d orient_u orient_v orient_w add64 sub64
  refine (wrap64_modEq _).trans ?_
  have h := Int.ModEq.add
    ((wrap64_modEq _).trans (Int.ModEq.sub (det_term_modEq b c) (det_term_modEq a c)))
    (det_term_modEq a b)
  refine h.trans ?_
  have e : b.x * c.y - b.y * c.x - (a.x * c.y - a.y * c.x) + (a.x * b.y - a.y * b.x)
      = cross a b c := by unfold cross; ring
  rw [e]

/-- Upper bound on a difference of products of coordinate differences. -/
theorem det_le_sq {p s q r L : Int} (hp : -L ≤ p ∧ p ≤ L) (hs : -L ≤ s ∧ s ≤ L)
    (hps : -L ≤ p - s ∧ p - s ≤ L) (hq : -L ≤ q ∧ q ≤ L) (hr : -L ≤ r ∧ r ≤ L)
    (hqr : -L ≤ q - r ∧ q - r ≤ L) : p * q - r * s ≤ L * L := by
  obtain ⟨p1, p2⟩ := hp
  obtain ⟨s1, s2⟩ := hs
  obtain ⟨ps1, ps2⟩ := hps
  obtain ⟨q1, q2⟩ := hq
  obtain ⟨r1, r2⟩ := hr
  obtain ⟨qr1, qr2⟩ := hqr
  have hL : 0 ≤ L := by linarith
  rcases le_total 0 p with h1 | h1 <;> rcases le_total 0 s with h2 | h2
  · rcases le_total 0 q with h3 | h3 <;> rcases le_total 0 r with h4 | h4
    · linarith [mul_nonneg h4 h2, mul_nonneg h1 (sub_nonneg.mpr q2),
        mul_nonneg hL (sub_nonneg.mpr p2)]
    · linarith [mul_nonneg (sub_nonneg.mpr p2) h3,
        mul_nonneg (sub_nonneg.mpr s2) (neg_nonneg.mpr h4),
        mul_nonneg hL (sub_nonneg.mpr qr2)]
    · linarith [mul_nonneg h1 (neg_nonneg.mpr h3), mul_nonneg h4 h2, mul_nonneg hL hL]
    · linarith [mul_nonneg h1 (neg_nonneg.mpr h3), mul_nonneg h2 (sub_nonneg.mpr r1),
        mul_nonneg hL (sub_nonneg.mpr s2)]
  · linarith [mul_nonneg h1 (sub_nonneg.mpr q2),
      mul_nonneg (neg_nonneg.mpr h2) (sub_nonneg.mpr r2),
      mul_nonneg hL (sub_nonneg.mpr ps2)]
  · linarith [mul_nonneg (neg_nonneg.mpr h1) (sub_nonneg.mpr q1),
      mul_nonneg h2 (sub_nonneg.mpr r1), mul_nonneg hL (sub_nonneg.mpr ps1)]
  · rcases le_total 0 q with h3 | h3 <;> rcases le_total 0 r with h4 | h4
    · linarith [mul_nonneg (neg_nonneg.mpr h1) h3,
        mul_nonneg (neg_nonneg.mpr h2) (sub_nonneg.mpr r2),
        mul_nonneg hL (sub_nonneg.mpr s1)]
    · linarith [mul_nonneg (neg_nonneg.mpr h1) h3,
        mul_nonneg (neg_nonneg.mpr h4) (neg_nonneg.mpr h2), mul_nonneg hL hL]
    · linarith [mul_nonneg (sub_nonneg.mpr p1) (neg_nonneg.mpr h3),
        mul_nonneg (sub_nonneg.mpr s1) h4, mul_nonneg hL (sub_nonneg.mpr qr1)]
    · linarith [mul_nonneg (neg_nonneg.mpr h4) (neg_nonneg.mpr h2),
        mul_nonneg (neg_nonneg.mpr h1) (sub_nonneg.mpr q1),
        mul_nonneg hL (sub_nonneg.mpr p1)]

/-- For points with `int32_t` coordinates the exact cross product is below `2^64` in absolute
value. -/
theorem cross_bound_int32 {a b c : Point} (ha : InInt32 a) (hb : InInt32 b) (hc : InInt32 c) :
    -(2 : Int) ^ 64 < cross a b c ∧ cross a b c < 2 ^ 64 := by
  obtain ⟨a1, a2, a3, a4⟩ := ha
  obtain ⟨b1, b2, b3, b4⟩ := hb
  obtain ⟨c1, c2, c3, c4⟩ := hc
  have u := @det_le_sq (b.x - a.x) (c.x - a.x) (c.y - a.y) (b.y - a.y) (2 ^ 32 - 1)
    ⟨by linarith, by linarith⟩ ⟨by linarith, by linarith⟩ ⟨by linarith, by linarith⟩
    ⟨by linarith, by linarith⟩ ⟨by linarith, by linarith⟩ ⟨by linarith, by linarith⟩
  have l := @det_le_sq (c.x - a.x) (b.x - a.x) (b.y - a.y) (c.y - a.y) (2 ^ 32 - 1)
    ⟨by linarith, by linarith⟩ ⟨by linarith, by linarith⟩ ⟨by linarith, by linarith⟩
    ⟨by linarith, by linarith⟩ ⟨by linarith, by linarith⟩ ⟨by linarith, by linarith⟩
  unfold cross
  constructor
  · linarith
  · linarith

/-- For points with `int32_t` coordinates, `d` is zero only when the exact cross product
is. -/
theorem orient_d_ne_zero_int32 {a b c : Point} (ha : InInt32 a) (hb : InInt32 b)
    (hc : InInt32 c) (h : cross a b c ≠ 0) : orient_d a b c ≠ 0 := by
  intro h0
  have hm := orient_d_modEq_cross a b c
  rw [h0] at hm
  have hdvd : (2 : Int) ^ 64 ∣ cross a b c := by
    have := (Int.modEq_zero_iff_dvd).mp hm.symm
    exact this
  obtain ⟨k, hk⟩ := hdvd
  obtain ⟨l1, l2⟩ := cross_bound_int32 ha hb hc
  rw [hk] at l1 l2
  have hk0 : k = 0 := by omega
  apply h
  rw [hk, hk0, mul_zero]

theorem succ_mod_cycle {n i j : Nat} (hn : 3 ≤ n) (hi : i < n) (hj : j < n)
    (h1 : j = (i + 1) % n) (h2 : i = (j + 1) % n) : False := by
  by_cases hi1 : i + 1 < n
  · rw [Nat.mod_eq_of_lt hi1] at h1
    subst h1
    by_cases hi2 : i + 1 + 1 < n
    · rw [Nat.mod_eq_of_lt hi2] at h2; omega
    · have : i + 1 + 1 = n := by omega
      rw [this, Nat.mod_self] at h2; omega
  · have : i + 1 = n := by omega
    rw [this, Nat.mod_self] at h1
    subst h1
    rw [Nat.mod_eq_of_lt (by omega)] at h2
    omega

/-- The edges of a simple polygon with at least three points do not overlap. -/
theorem noOverlap_of_simple {P : List Point} (hs : Simple P) (hn : 3 ≤ P.length) :
    NoOverlappingEdges P := by
  intro i j hi hj hij ⟨x, y, x', y', hne, h1, h2, h3, h4⟩
  rcases hs i j hi hj hij x y h1 h2 with ⟨e1, e2, e3⟩ | ⟨e1, e2, e3⟩ <;>
    rcases hs i j hi hj hij x' y' h3 h4 with ⟨f1, f2, f3⟩ | ⟨f1, f2, f3⟩
  · exact hne ⟨e2.trans f2.symm, e3.trans f3.symm⟩
  · exact succ_mod_cycle hn hi hj e1 f1
  · exact succ_mod_cycle hn hi hj f1 e1
  · exact hne ⟨e2.trans f2.symm, e3.trans f3.symm⟩

/-- The corner at the lexicographically smallest point of a polygon without duplicate points
and without overlapping edges is not collinear. -/
theorem corner_cross_ne_zero_of_noOverlap {P : List Point} (ho : NoOverlappingEdges P)
    (hn : 3 ≤ P.length) (hd : P.Nodup) {i : Nat} (hi : IsFirstLexMin P P.length i) :
    cross (pt P (is_ccw_iPrev P i)) (pt P i) (pt P (is_ccw_iNext P i)) ≠ 0 := by
  intro h0
  obtain ⟨hp1, hp2, hp3⟩ := iPrev_facts P hn hi.1
  obtain ⟨hn1, hn2, hn3⟩ := iNext_facts P hn hi.1
  obtain ⟨x, y, hx1, hx2, hx3⟩ := colinear_corner_overlap _ _ _
    (lexmin_strict hd hi hp1 hp2) (lexmin_strict hd hi hn1 hn2) h0
  refine ho (is_ccw_iPrev P i) i hp1 hi.1 hp2 ⟨x, y, (pt P i).x, (pt P i).y, hx3, ?_, ?_, ?_, ?_⟩
  · rw [hp3]; exact hx1
  · rw [← is_ccw_iNext_eq P i hi.1]; exact hx2
  · rw [hp3]; exact onSegment_right _ _
  · exact onSegment_left _ _

/-- C13 (amended): for every polygon with at least 3 points, no duplicate points, no overlapping
edges and coordinates representable in `int32_t` (in particular within the 30-bit bound), the
orientation computed at the lexicographically smallest corner is not `ORIENTATION_COLINEAR`,
so the assertion `o != ORIENTATION_COLINEAR` of `is_ccw` holds. -/
theorem is_ccw_corner_not_colinear (P : List Point) (hn : 3 ≤ P.length) (hd : P.Nodup)
    (ho : NoOverlappingEdges P) (hb : ∀ p ∈ P, InInt32 p) :
    is_ccw_corner P ≠ .ORIENTATION_COLINEAR := by
  have hi := is_ccw_imin_spec P (by omega)
  obtain ⟨hp1, -, -⟩ := iPrev_facts P hn hi.1
  obtain ⟨hn1, -, -⟩ := iNext_facts P hn hi.1
  have hc := corner_cross_ne_zero_of_noOverlap ho hn hd hi
  have hne := orient_d_ne_zero_int32 (hb _ (pt_mem P hp1)) (hb _ (pt_mem P hi.1))
    (hb _ (pt_mem P hn1)) hc
  have e : is_ccw_corner P = orient (pt P (is_ccw_iPrev P (is_ccw_imin P)))
      (pt P (is_ccw_imin P)) (pt P (is_ccw_iNext P (is_ccw_imin P))) := rfl
  rw [e, Ne, orient_colinear_iff]
  exact hne

theorem is_ccw_corner_not_colinear_witness :
    is_ccw_corner [⟨0, 0⟩, ⟨4, 0⟩, ⟨0, 3⟩] ≠ .ORIENTATION_COLINEAR :=
  is_ccw_corner_not_colinear [⟨0, 0⟩, ⟨4, 0⟩, ⟨0, 3⟩] (by decide) (by decide)
    (noOverlap_of_simple (triangle_simple _ _ _ (by decide)) (by decide)) (by decide)

set_option maxRecDepth 100000 in
/-- C13 as stated fails for coordinates beyond `int32_t`: `wrapTriangle` has 3 points, no
duplicate points and no overlapping edges, the exact cross product at its smallest corner is
`2^64`, which wraps to `0` in `int64_t`, and the corner is reported `ORIENTATION_COLINEAR`. -/
theorem is_ccw_corner_colinear_overflow :
    3 ≤ wrapTriangle.length ∧ wrapTriangle.Nodup ∧ NoOverlappingEdges wrapTriangle
      ∧ is_ccw_corner wrapTriangle = .ORIENTATION_COLINEAR := by
  refine ⟨by decide, by decide,
    noOverlap_of_simple (triangle_simple _ _ _ (by decide)) (by decide), ?_⟩
  decide

/-- C14: for every polygon with fewer than 3 points `is_ccw` (assertions disabled) returns
true, and it reads no point of the polygon. -/
theorem is_ccw_short (points : List Point) (h : points.length < 3) :
    is_ccw points = true ∧ is_ccw_reads points = [] := by
  unfold is_ccw is_ccw_reads
  rw [if_pos h, if_pos h]
  exact ⟨rfl, rfl⟩

theorem is_ccw_short_witness :
    is_ccw [⟨5, 7⟩, ⟨-3, 2⟩] = true ∧ is_ccw_reads [⟨5, 7⟩, ⟨-3, 2⟩] = [] :=
  is_ccw_short [⟨5, 7⟩, ⟨-3, 2⟩] (by decide)

/-! ### Mirroring of a `Transformation` -/

/-- C15: `is_left_handed()` returns true iff the product `mirror.x * mirror.y * mirror.z` is
negative; when every mirror component is `+1` or `-1` this is exactly when the number of
mirrored axes is odd. -/
theorem is_left_handed_iff {K : Type} [LinearOrderedField K] (t : Transformation K) :
    (t.is_left_handed = true ↔ t.m_mirror.x * t.m_mirror.y * t.m_mirror.z < 0)
      ∧ ((t.m_mirror.x = 1 ∨ t.m_mirror.x = -1) → (t.m_mirror.y = 1 ∨ t.m_mirror.y = -1)
          → (t.m_mirror.z = 1 ∨ t.m_mirror.z = -1)
          → (t.is_left_handed = true ↔ Odd (mirrored_axes t.m_mirror))) := by
  have h1 : t.is_left_handed = true ↔ t.m_mirror.x * t.m_mirror.y * t.m_mirror.z < 0 := by
    unfold Transformation.is_left_handed
    exact decide_eq_true_iff
  refine ⟨h1, ?_⟩
  intro hx hy hz
  rw [h1]
  have ne : (1 : K) ≠ -1 := by
    intro h
    have : (0 : K) < 1 := zero_lt_one
    linarith
  unfold mirrored_axes
  have n10 : ¬ (1 : K) < 0 := not_lt.mpr zero_le_one
  rcases hx with hx | hx <;> rcases hy with hy | hy <;> rcases hz with hz | hz <;>
    rw [hx, hy, hz] <;> simp [ne, n10, Nat.odd_iff]

theorem is_left_handed_iff_witness :
    ((⟨⟨0, 0, 0⟩, ⟨0, 0, 0⟩, ⟨1, 1, 1⟩, ⟨1, -1, 1⟩⟩ : Transformation ℚ).is_left_handed = true
        ↔ (1 : ℚ) * (-1) * 1 < 0)
      ∧ (((1 : ℚ) = 1 ∨ (1 : ℚ) = -1) → ((-1 : ℚ) = 1 ∨ (-1 : ℚ) = -1)
          → ((1 : ℚ) = 1 ∨ (1 : ℚ) = -1)
          → ((⟨⟨0, 0, 0⟩, ⟨0, 0, 0⟩, ⟨1, 1, 1⟩, ⟨1, -1, 1⟩⟩ : Transformation ℚ).is_left_handed
              = true ↔ Odd (mirrored_axes (⟨1, -1, 1⟩ : Vec3d ℚ)))) :=
  is_left_handed_iff ⟨⟨0, 0, 0⟩, ⟨0, 0, 0⟩, ⟨1, 1, 1⟩, ⟨1, -1, 1⟩⟩

/-! ### Rotations by multiples of 90 degrees -/

theorem fmod_of_decomp {K : Type} [LinearOrderedField K] [FloorRing K] {x y d : K} {m : Int}
    (hy : 0 < y) (hx : 0 ≤ x) (h0 : 0 ≤ d) (h1 : d < y) (e : x = m * y + d) :
    fmod x y = d := by
  have hq : x / y = m + d / y := by
    rw [e]; field_simp
  have hf : ⌊x / y⌋ = m := by
    rw [Int.floor_eq_iff, hq]
    constructor
    · have : 0 ≤ d / y := div_nonneg h0 hy.le
      linarith
    · have : d / y < 1 := (div_lt_one hy).mpr h1
      linarith
  unfold fmod
  rw [if_pos (div_nonneg hx hy.le), hf, e]
  ring

/-- The value `fmod(|a|, h)` is `|a| - n * h` for an integer `n >= 0` and lies in
`[0, h)`. -/
theorem fmod_abs_spec {K : Type} [LinearOrderedField K] [FloorRing K] {h : K} (hh : 0 < h)
    (a : K) : ∃ n : Int, fmod |a| h = |a| - n * h ∧ 0 ≤ fmod |a| h ∧ fmod |a| h < h := by
  have hx : 0 ≤ |a| / h := div_nonneg (abs_nonneg a) hh.le
  refine ⟨⌊|a| / h⌋, ?_, ?_, ?_⟩
  · unfold fmod; rw [if_pos hx]
  · unfold fmod; rw [if_pos hx]
    have := Int.floor_le (|a| / h)
    have h2 : (⌊|a| / h⌋ : K) * h ≤ |a| := by
      have := mul_le_mul_of_nonneg_right this hh.le
      rwa [div_mul_cancel₀ _ hh.ne'] at this
    linarith
  · unfold fmod; rw [if_pos hx]
    have := Int.lt_floor_add_one (|a| / h)
    have h2 : |a| < ((⌊|a| / h⌋ : K) + 1) * h := by
      have := mul_lt_mul_of_pos_right this hh
      rwa [div_mul_cancel₀ _ hh.ne'] at this
    linarith

/-- Some multiple of `h` is within `e` of `a` iff some multiple is within `e` of `|a|`. -/
theorem near_multiple_abs {K : Type} [LinearOrderedField K] (h e a : K) :
    (∃ k : Int, |a - k * h| < e) ↔ ∃ m : Int, |(|a| - m * h)| < e := by
  rcases le_total 0 a with ha | ha
  · rw [abs_of_nonneg ha]
  · rw [abs_of_nonpos ha]
    constructor
    · rintro ⟨k, hk⟩
      refine ⟨-k, ?_⟩
      rw [← abs_neg]
      have : -(-a - ((-k : Int) : K) * h) = a - k * h := by push_cast; ring
      rwa [this]
    · rintro ⟨m, hm⟩
      refine ⟨-m, ?_⟩
      rw [← abs_neg]
      have : -(a - ((-m : Int) : K) * h) = -a - m * h := by push_cast; ring
      rwa [this]

/-- With `M_PI = PI` and `PI > 0.004`: the test succeeds iff some integer multiple of `PI / 2`
is closer than `0.001` to the angle. -/
theorem is_rotation_ninety_degrees_exists {K : Type} [LinearOrderedField K] [FloorRing K]
    (PI : K) (hPI : 1 / 250 < PI) (a : K) :
    is_rotation_ninety_degrees PI PI a = true ↔ ∃ k : Int, |a - k * (PI / 2)| < 1 / 1000 := by
  have hh : 0 < PI / 2 := by linarith
  have e1 : 1 / 2 * PI = PI / 2 := by ring
  have e2 : 1 / 4 * PI = PI / 2 / 2 := by ring
  rw [near_multiple_abs]
  unfold is_rotation_ninety_degrees
  simp only [e1, e2, decide_eq_true_eq]
  constructor
  · intro hlt
    obtain ⟨n, hn, f0, f1⟩ := fmod_abs_spec hh a
    by_cases hc : fmod |a| (PI / 2) > PI / 2 / 2
    · rw [if_pos hc] at hlt
      refine ⟨n + 1, ?_⟩
      have : |a| - ((n + 1 : Int) : K) * (PI / 2) = -(PI / 2 - fmod |a| (PI / 2)) := by
        rw [hn]; push_cast; ring
      rw [this, abs_neg, abs_of_nonneg (by linarith)]
      exact hlt
    · rw [if_neg hc] at hlt
      refine ⟨n, ?_⟩
      rw [← hn, abs_of_nonneg f0]
      exact hlt
  · rintro ⟨m, hm⟩
    rw [abs_lt] at hm
    obtain ⟨m1, m2⟩ := hm
    rcases le_total 0 (|a| - m * (PI / 2)) with hd | hd
    · have hf : fmod |a| (PI / 2) = |a| - m * (PI / 2) :=
        fmod_of_decomp hh (abs_nonneg a) hd (by linarith) (by ring)
      rw [hf, if_neg (by linarith)]
      exact m2
    · rcases eq_or_lt_of_le hd with h0 | hneg
      · have hf : fmod |a| (PI / 2) = |a| - m * (PI / 2) :=
          fmod_of_decomp hh (abs_nonneg a) (by linarith) (by linarith) (by ring)
        rw [hf, if_neg (by linarith)]
        exact m2
      · have hf : fmod |a| (PI / 2) = |a| - m * (PI / 2) + PI / 2 :=
          fmod_of_decomp (m := m - 1) hh (abs_nonneg a) (by linarith) (by linarith)
            (by push_cast; ring)
        rw [hf, if_pos (by linarith)]
        linarith

/-- The value `dist_nearest_multiple h a` is the least distance from `a` to an integer
multiple of `h`. -/
theorem dist_nearest_multiple_le {K : Type} [LinearOrderedField K] [FloorRing K] {h : K}
    (hh : 0 < h) (a : K) (k : Int) : dist_nearest_multiple h a ≤ |a - k * h| := by
  unfold dist_nearest_multiple
  have key := round_le (a / h) k
  have e1 : a - (round (a / h) : K) * h = (a / h - round (a / h)) * h := by
    rw [sub_mul, div_mul_cancel₀ _ hh.ne']
  have e2 : a - (k : K) * h = (a / h - k) * h := by
    rw [sub_mul, div_mul_cancel₀ _ hh.ne']
  rw [e1, e2, abs_mul, abs_mul]
  exact mul_le_mul_of_nonneg_right key (abs_nonneg h)

theorem dist_nearest_multiple_lt_iff {K : Type} [LinearOrderedField K] [FloorRing K] {h : K}
    (hh : 0 < h) (a e : K) :
    dist_nearest_multiple h a < e ↔ ∃ k : Int, |a - k * h| < e := by
  constructor
  · intro hlt
    exact ⟨round (a / h), hlt⟩
  · rintro ⟨k, hk⟩
    exact lt_of_le_of_lt (dist_nearest_multiple_le hh a k) hk

/-- C16: with exact real arithmetic and `M_PI = PI = π`, `is_rotation_ninety_degrees(a)` is
true iff the distance from `a` to the nearest integer multiple of `π/2` is less than `0.001`;
it is true for every exact multiple of 90 degrees, it takes the same value at `-a` and `a`,
and the `Vec3d` overload is true iff the test is true for each of the three components. -/
theorem is_rotation_ninety_degrees_iff (a : ℝ) :
    (∀ k : Int, dist_nearest_multiple (Real.pi / 2) a ≤ |a - k * (Real.pi / 2)|)
      ∧ (is_rotation_ninety_degrees Real.pi Real.pi a = true
          ↔ dist_nearest_multiple (Real.pi / 2) a < 1 / 1000)
      ∧ (∀ k : Int, is_rotation_ninety_degrees Real.pi Real.pi (k * (Real.pi / 2)) = true)
      ∧ is_rotation_ninety_degrees Real.pi Real.pi (-a)
          = is_rotation_ninety_degrees Real.pi Real.pi a
      ∧ (∀ r : Vec3d ℝ, is_rotation_ninety_degrees_vec3d Real.pi Real.pi r = true
          ↔ (is_rotation_ninety_degrees Real.pi Real.pi r.x = true
            ∧ is_rotation_ninety_degrees Real.pi Real.pi r.y = true
            ∧ is_rotation_ninety_degrees Real.pi Real.pi r.z = true)) := by
  have hpi : (1 : ℝ) / 250 < Real.pi := by
    have := Real.pi_gt_three
    linarith
  have hh : (0 : ℝ) < Real.pi / 2 := by linarith
  refine ⟨dist_nearest_multiple_le hh a, ?_, ?_, ?_, ?_⟩
  · rw [is_rotation_ninety_degrees_exists Real.pi hpi, dist_nearest_multiple_lt_iff hh]
  · intro k
    rw [is_rotation_ninety_degrees_exists Real.pi hpi]
    exact ⟨k, by rw [sub_self, abs_zero]; norm_num⟩
  · unfold is_rotation_ninety_degrees
    rw [abs_neg]
  · intro r
    unfold is_rotation_ninety_degrees_vec3d
    rw [Bool.and_eq_true, Bool.and_eq_true, and_assoc]

/-! ### Path chaining -/

theorem preferred_refl (points : List Point) (cur : Point) (i : Nat) :
    Preferred points cur i i := Or.inr ⟨rfl, le_refl _⟩

/-- The selected index is a candidate and is preferred to every candidate. -/
theorem nearest_index_spec (points : List Point) (cur : Point) :
    ∀ (cands : List Nat), cands.Pairwise (· < ·) →
      (cands = [] → nearest_index points cur cands = none)
      ∧ (cands ≠ [] → ∃ i, nearest_index points cur cands = some i ∧ i ∈ cands
          ∧ ∀ j ∈ cands, Preferred points cur i j) := by
  intro cands
  induction cands with
  | nil => intro _; exact ⟨fun _ => rfl, fun h => absurd rfl h⟩
  | cons i rest ih =>
    intro hp
    rw [List.pairwise_cons] at hp
    obtain ⟨hi, hrest⟩ := hp
    obtain ⟨ih1, ih2⟩ := ih hrest
    refine ⟨fun h => absurd h (List.cons_ne_nil _ _), fun _ => ?_⟩
    by_cases hr : rest = []
    · refine ⟨i, ?_, List.mem_cons_self _ _, ?_⟩
      · simp only [nearest_index, ih1 hr]
      · intro j hj
        rw [hr, List.mem_singleton] at hj
        rw [hj]
        exact preferred_refl _ _ _
    · obtain ⟨b, hb, hbm, hbest⟩ := ih2 hr
      by_cases hc : dist2 cur (pt points i) ≤ dist2 cur (pt points b)
      · refine ⟨i, ?_, List.mem_cons_self _ _, ?_⟩
        · simp only [nearest_index, hb, if_pos hc]
        · intro j hj
          rcases List.mem_cons.mp hj with hj | hj
          · rw [hj]; exact preferred_refl _ _ _
          · have hij : i ≤ j := le_of_lt (hi j hj)
            rcases hbest j hj with h | ⟨h, -⟩
            · exact Or.inl (lt_of_le_of_lt hc h)
            · rcases lt_or_eq_of_le hc with h2 | h2
              · exact Or.inl (by rw [← h]; exact h2)
              · exact Or.inr ⟨by rw [h2, h], hij⟩
      · refine ⟨b, ?_, List.mem_cons_of_mem _ hbm, ?_⟩
        · simp only [nearest_index, hb, if_neg hc]
        · intro j hj
          rcases List.mem_cons.mp hj with hj | hj
          · rw [hj]; exact Or.inl (not_le.mp hc)
          · exact hbest j hj

/-- The selection step returns a candidate whenever one is left. -/
theorem chained_path_select_spec (points : List Point) (cur : Option Point) (U : List Nat)
    (hp : U.Pairwise (· < ·)) :
    (U = [] → chained_path_select points cur U = none)
      ∧ (U ≠ [] → ∃ i, chained_path_select points cur U = some i ∧ i ∈ U
          ∧ ∀ c, cur = some c → ∀ j ∈ U, Preferred points c i j) := by
  cases cur with
  | none =>
    refine ⟨fun h => by rw [h]; rfl, fun h => ?_⟩
    cases U with
    | nil => exact absurd rfl h
    | cons a t =>
      exact ⟨a, rfl, List.mem_cons_self _ _, fun c hc => by cases hc⟩
  | some c =>
    obtain ⟨h1, h2⟩ := nearest_index_spec points c U hp
    refine ⟨fun h => h1 h, fun h => ?_⟩
    obtain ⟨i, e, hm, hb⟩ := h2 h
    refine ⟨i, e, hm, fun c' hc' j hj => ?_⟩
    cases hc'
    exact hb j hj

theorem chained_path_loop_none (points : List Point) (fuel : Nat) (cur : Option Point)
    (U : List Nat) (h : chained_path_select points cur U = none) :
    chained_path_loop points (fuel + 1) cur U = [] := by
  simp only [chained_path_loop, h]

theorem chained_path_loop_some (points : List Point) (fuel : Nat) (cur : Option Point)
    (U : List Nat) {i : Nat} (h : chained_path_select points cur U = some i) :
    chained_path_loop points (fuel + 1) cur U
      = i :: chained_path_loop points fuel (some (pt points i)) (U.erase i) := by
  simp only [chained_path_loop, h]

theorem not_mem_take_of_nodup : ∀ (r : List Nat) (k j : Nat), r.Nodup → r[k]? = some j →
    j ∉ r.take k := by
  intro r
  induction r with
  | nil => intro k j _ _; simp
  | cons a t ih =>
    intro k j hnd hk
    rw [List.nodup_cons] at hnd
    cases k with
    | zero => simp
    | succ k =>
      rw [List.getElem?_cons_succ] at hk
      rw [List.take_succ_cons, List.mem_cons, not_or]
      refine ⟨?_, ih k j hnd.2 hk⟩
      intro e
      rw [e] at hk
      exact hnd.1 (List.getElem?_mem hk)

/-- Invariant of the loop of `chained_path`: with enough fuel the output is a permutation of
the unvisited indices, its first element is preferred from the current position to every
unvisited index, and every later element is preferred, from the point chosen just before, to
every index not chosen yet. -/
theorem chained_path_loop_spec (points : List Point) :
    ∀ (fuel : Nat) (cur : Option Point) (U : List Nat), U.length ≤ fuel →
      U.Pairwise (· < ·) →
      (chained_path_loop points fuel cur U).Perm U
      ∧ (∀ c i, cur = some c → (chained_path_loop points fuel cur U)[0]? = some i →
          ∀ j ∈ U, Preferred points c i j)
      ∧ (∀ k i j, (chained_path_loop points fuel cur U)[k]? = some i →
          (chained_path_loop points fuel cur U)[k + 1]? = some j →
          ∀ m ∈ U, m ∉ (chained_path_loop points fuel cur U).take (k + 1) →
            Preferred points (pt points i) j m) := by
  intro fuel
  induction fuel with
  | zero =>
    intro cur U hlen _
    have hU : U = [] := List.length_eq_zero.mp (Nat.le_zero.mp hlen)
    subst hU
    refine ⟨List.Perm.refl _, ?_, ?_⟩
    · intro c i _ h; simp [chained_path_loop] at h
    · intro k i j h; simp [chained_path_loop] at h
  | succ fuel ih =>
    intro cur U hlen hp
    obtain ⟨s1, s2⟩ := chained_path_select_spec points cur U hp
    by_cases hU : U = []
    · rw [chained_path_loop_none points fuel cur U (s1 hU), hU]
      refine ⟨List.Perm.refl _, ?_, ?_⟩
      · intro c i _ h; simp at h
      · intro k i j h; simp at h
    · obtain ⟨i0, hsel, hmem, hbest⟩ := s2 hU
      rw [chained_path_loop_some points fuel cur U hsel]
      have hlen' : (U.erase i0).length ≤ fuel := by
        rw [List.length_erase_of_mem hmem]; omega
      have hp' : (U.erase i0).Pairwise (· < ·) := hp.sublist (List.erase_sublist _ _)
      obtain ⟨ih1, ih2, ih3⟩ := ih (some (pt points i0)) (U.erase i0) hlen' hp'
      refine ⟨?_, ?_, ?_⟩
      · exact (List.Perm.cons i0 ih1).trans (List.perm_cons_erase hmem).symm
      · intro c i hc h0 j hj
        rw [List.getElem?_cons_zero, Option.some.injEq] at h0
        rw [← h0]
        exact hbest c hc j hj
      · intro k i j hk hk1 m hm hnot
        rw [List.getElem?_cons_succ] at hk1
        rw [List.take_succ_cons, List.mem_cons, not_or] at hnot
        have hm' : m ∈ U.erase i0 := (List.mem_erase_of_ne hnot.1).mpr hm
        cases k with
        | zero =>
          rw [List.getElem?_cons_zero, Option.some.injEq] at hk
          rw [← hk]
          exact ih2 (pt points i0) j rfl hk1 m hm'
        | succ k =>
          rw [List.getElem?_cons_succ] at hk
          exact ih3 k i j hk hk1 m hm' hnot.2

/-- C18: `chained_path` returns a permutation of the indices `0..n-1`; when a seed is given
its first index is nearest to the seed; every later index is unvisited and nearest, among
the unvisited points, to the point chosen just before it; among equidistant candidates the
lowest index is chosen (`Preferred` allows a tie only towards a higher index). -/
theorem chained_path_greedy (points : List Point) (start_near : Option Point) :
    (chained_path points start_near).Perm (List.range points.length)
      ∧ (∀ s i, start_near = some s → (chained_path points start_near)[0]? = some i →
          ∀ j, j < points.length → Preferred points s i j)
      ∧ (∀ k i j, (chained_path points start_near)[k]? = some i →
          (chained_path points start_near)[k + 1]? = some j →
          j < points.length ∧ j ∉ (chained_path points start_near).take (k + 1)
            ∧ ∀ m, m < points.length → m ∉ (chained_path points start_near).take (k + 1) →
              Preferred points (pt points i) j m) := by
  have hp : (List.range points.length).Pairwise (· < ·) := List.pairwise_lt_range _
  obtain ⟨h1, h2, h3⟩ := chained_path_loop_spec points points.length start_near
    (List.range points.length) (by rw [List.length_range]) hp
  have hnd : (chained_path points start_near).Nodup :=
    (List.Perm.nodup_iff h1).mpr (List.nodup_range _)
  refine ⟨h1, ?_, ?_⟩
  · intro s i hs h0 j hj
    exact h2 s i hs h0 j (List.mem_range.mpr hj)
  · intro k i j hk hk1
    refine ⟨?_, not_mem_take_of_nodup _ _ _ hnd hk1, ?_⟩
    · exact List.mem_range.mp ((List.Perm.mem_iff h1).mp (List.getElem?_mem hk1))
    · intro m hm hnot
      exact h3 k i j hk hk1 m (List.mem_range.mpr hm) hnot

/-- Instance of C18 with ties: from the seed `(0,0)` the points at `x = 1` and `x = -1` are
equidistant and the lower index is visited first; so are, next, the points at `x = 3` and
`x = -1`. -/
theorem chained_path_tie_example :
    chained_path [⟨3, 0⟩, ⟨10, 0⟩, ⟨1, 0⟩, ⟨-1, 0⟩, ⟨5, 0⟩] (some ⟨0, 0⟩) = [2, 0, 4, 1, 3] := by
  decide

/-! ### Assembling a transformation -/

theorem apply_mul_scaling {K : Type} [Field K] (M : Transform3d K) (s p : Vec3d K) :
    Transform3d.apply (M * scaling_matrix s) p = Transform3d.apply M (scale_point s p) := by
  simp [Transform3d.apply, scaling_matrix, scale_point, Matrix.mul_apply, Fin.sum_univ_four,
    Matrix.vecHead, Matrix.vecTail]
  refine ⟨?_, ?_, ?_⟩ <;> ring

theorem apply_mul_rotation_x {K : Type} [Field K] (M : Transform3d K) (cos sin : K → K)
    (a : K) (p : Vec3d K) :
    Transform3d.apply (M * rotation_x_matrix (cos a) (sin a)) p
      = Transform3d.apply M (rotate_x_point cos sin a p) := by
  simp [Transform3d.apply, rotation_x_matrix, rotate_x_point, Matrix.mul_apply,
    Fin.sum_univ_four, Matrix.vecHead, Matrix.vecTail]
  refine ⟨?_, ?_, ?_⟩ <;> ring

theorem apply_mul_rotation_y {K : Type} [Field K] (M : Transform3d K) (cos sin : K → K)
    (a : K) (p : Vec3d K) :
    Transform3d.apply (M * rotation_y_matrix (cos a) (sin a)) p
      = Transform3d.apply M (rotate_y_point cos sin a p) := by
  simp [Transform3d.apply, rotation_y_matrix, rotate_y_point, Matrix.mul_apply,
    Fin.sum_univ_four, Matrix.vecHead, Matrix.vecTail]
  refine ⟨?_, ?_, ?_⟩ <;> ring

theorem apply_mul_rotation_z {K : Type} [Field K] (M : Transform3d K) (cos sin : K → K)
    (a : K) (p : Vec3d K) :
    Transform3d.apply (M * rotation_z_matrix (cos a) (sin a)) p
      = Transform3d.apply M (rotate_z_point cos sin a p) := by
  simp [Transform3d.apply, rotation_z_matrix, rotate_z_point, Matrix.mul_apply,
    Fin.sum_univ_four, Matrix.vecHead, Matrix.vecTail]
  refine ⟨?_, ?_, ?_⟩ <;> ring

theorem apply_translation {K : Type} [Field K] (t p : Vec3d K) :
    Transform3d.apply (translation_matrix t) p = translate_point t p := by
  simp [Transform3d.apply, translation_matrix, translate_point, Matrix.vecHead, Matrix.vecTail]

theorem translation_matrix_zero {K : Type} [Field K] :
    translation_matrix (⟨0, 0, 0⟩ : Vec3d K) = 1 := by
  ext i j
  fin_cases i <;> fin_cases j <;> simp [translation_matrix, Matrix.vecHead, Matrix.vecTail]

theorem scaling_matrix_one {K : Type} [Field K] :
    scaling_matrix (⟨1, 1, 1⟩ : Vec3d K) = 1 := by
  ext i j
  fin_cases i <;> fin_cases j <;> simp [scaling_matrix, Matrix.vecHead, Matrix.vecTail]

theorem rotation_x_matrix_one {K : Type} [Field K] : rotation_x_matrix (1 : K) 0 = 1 := by
  ext i j
  fin_cases i <;> fin_cases j <;> simp [rotation_x_matrix, Matrix.vecHead, Matrix.vecTail]

theorem rotation_y_matrix_one {K : Type} [Field K] : rotation_y_matrix (1 : K) 0 = 1 := by
  ext i j
  fin_cases i <;> fin_cases j <;> simp [rotation_y_matrix, Matrix.vecHead, Matrix.vecTail]

theorem rotation_z_matrix_one {K : Type} [Field K] : rotation_z_matrix (1 : K) 0 = 1 := by
  ext i j
  fin_cases i <;> fin_cases j <;> simp [rotation_z_matrix, Matrix.vecHead, Matrix.vecTail]

/-- C19: `assemble_transform(translation, rotation, scale, mirror)` is the matrix
`T * Rz * Ry * Rx * S_scale * S_mirror`; applied to a point it mirrors, then scales, then
rotates about X, then about Y, then about Z, then translates; with zero translation and
rotation and unit scale and mirror it is the identity. -/
theorem assemble_transform_order (translation rotation scale mirror : Vec3d ℝ) :
    assemble_transform Real.cos Real.sin translation rotation scale mirror
        = translation_matrix translation
          * rotation_z_matrix (Real.cos rotation.z) (Real.sin rotation.z)
          * rotation_y_matrix (Real.cos rotation.y) (Real.sin rotation.y)
          * rotation_x_matrix (Real.cos rotation.x) (Real.sin rotation.x)
          * scaling_matrix scale * scaling_matrix mirror
      ∧ (∀ p : Vec3d ℝ,
          Transform3d.apply
              (assemble_transform Real.cos Real.sin translation rotation scale mirror) p
            = translate_point translation
                (rotate_z_point Real.cos Real.sin rotation.z
                  (rotate_y_point Real.cos Real.sin rotation.y
                    (rotate_x_point Real.cos Real.sin rotation.x
                      (scale_point scale (scale_point mirror p))))))
      ∧ assemble_transform Real.cos Real.sin ⟨0, 0, 0⟩ ⟨0, 0, 0⟩ ⟨1, 1, 1⟩ ⟨1, 1, 1⟩ = 1 := by
  refine ⟨rfl, ?_, ?_⟩
  · intro p
    unfold assemble_transform
    rw [apply_mul_scaling, apply_mul_scaling, apply_mul_rotation_x, apply_mul_rotation_y,
      apply_mul_rotation_z, apply_translation]
  · unfold assemble_transform
    simp only [Real.cos_zero, Real.sin_zero]
    rw [translation_matrix_zero, scaling_matrix_one, rotation_x_matrix_one,
      rotation_y_matrix_one, rotation_z_matrix_one]
    simp only [mul_one]

end Geometry

/-! ### Rendering range of a volume -/

/-- The first loop of `set_range` stops, within `fuel` iterations, at the least index from
`i` on whose layer is not below `min_z`, or at the end of `print_zs`. -/
theorem set_range_skip_below_spec (zs : List ℚ) (m : ℚ) :
    ∀ (fuel i : Nat), i ≤ zs.length → zs.length - i ≤ fuel →
      i ≤ set_range_skip_below zs m fuel i
      ∧ set_range_skip_below zs m fuel i ≤ zs.length
      ∧ (∀ k, i ≤ k → k < set_range_skip_below zs m fuel i → zs.getD k 0 < m)
      ∧ (set_range_skip_below zs m fuel i < zs.length →
          ¬ zs.getD (set_range_skip_below zs m fuel i) 0 < m) := by
  intro fuel
  induction fuel with
  | zero =>
    intro i hi hf
    have : i = zs.length := by omega
    simp only [set_range_skip_below]
    exact ⟨le_refl _, hi, fun k h1 h2 => by omega, fun h => by omega⟩
  | succ fuel ih =>
    intro i hi hf
    by_cases hc : i < zs.length ∧ zs.getD i 0 < m
    · simp only [set_range_skip_below, if_pos hc]
      obtain ⟨h1, h2, h3, h4⟩ := ih (i + 1) hc.1 (by omega)
      refine ⟨by omega, h2, ?_, h4⟩
      intro k hk1 hk2
      rcases Nat.eq_or_lt_of_le hk1 with e | e
      · rw [← e]; exact hc.2
      · exact h3 k e hk2
    · simp only [set_range_skip_below, if_neg hc]
      refine ⟨le_refl _, hi, fun k h1 h2 => by omega, fun h hlt => hc ⟨h, hlt⟩⟩

/-- The second loop of `set_range` stops, within `fuel` iterations, at the least index from
`i` on whose layer is above `max_z`, or at the end of `print_zs`. -/
theorem set_range_skip_within_spec (zs : List ℚ) (m : ℚ) :
    ∀ (fuel i : Nat), i ≤ zs.length → zs.length - i ≤ fuel →
      i ≤ set_range_skip_within zs m fuel i
      ∧ set_range_skip_within zs m fuel i ≤ zs.length
      ∧ (∀ k, i ≤ k → k < set_range_skip_within zs m fuel i → zs.getD k 0 ≤ m)
      ∧ (set_range_skip_within zs m fuel i < zs.length →
          ¬ zs.getD (set_range_skip_within zs m fuel i) 0 ≤ m) := by
  intro fuel
  induction fuel with
  | zero =>
    intro i hi hf
    have : i = zs.length := by omega
    simp only [set_range_skip_within]
    exact ⟨le_refl _, hi, fun k h1 h2 => by omega, fun h => by omega⟩
  | succ fuel ih =>
    intro i hi hf
    by_cases hc : i < zs.length ∧ zs.getD i 0 ≤ m
    · simp only [set_range_skip_within, if_pos hc]
      obtain ⟨h1, h2, h3, h4⟩ := ih (i + 1) hc.1 (by omega)
      refine ⟨by omega, h2, ?_, h4⟩
      intro k hk1 hk2
      rcases Nat.eq_or_lt_of_le hk1 with e | e
      · rw [← e]; exact hc.2
      · exact h3 k e hk2
    · simp only [set_range_skip_within, if_neg hc]
      refine ⟨le_refl _, hi, fun k h1 h2 => by omega, fun h hlt => hc ⟨h, hlt⟩⟩

/-- C20: for a volume with non-empty `print_zs`, two entries of `offsets` per layer and a
window with `print_zs.front() <= max_z` and `print_zs.back() >= min_z`, `set_range` sets the
`.first` fields to `offsets[2i]` / `offsets[2i+1]` for the least index `i` with
`print_zs[i] >= min_z`, and the `.second` fields to `offsets[2j]` / `offsets[2j+1]` for the
least index `j >= i` with `print_zs[j] > max_z`, or to `quad_indices_size` /
`triangle_indices_size` when there is no such `j`.  (The order of `print_zs` plays no part.) -/
theorem set_range_window (v : GLVolume) (min_z max_z : ℚ) (hne : v.print_zs ≠ [])
    (hoff : v.offsets.length = 2 * v.print_zs.length)
    (hfront : v.print_zs.getD 0 0 ≤ max_z)
    (hback : min_z ≤ v.print_zs.getD (v.print_zs.length - 1) 0) :
    ∃ i, i < v.print_zs.length ∧ min_z ≤ v.print_zs.getD i 0
      ∧ (∀ k, k < i → v.print_zs.getD k 0 < min_z)
      ∧ 2 * i + 1 < v.offsets.length
      ∧ (v.set_range min_z max_z).qverts_range.1 = v.offsets.getD (2 * i) 0
      ∧ (v.set_range min_z max_z).tverts_range.1 = v.offsets.getD (2 * i + 1) 0
      ∧ ((∃ j, i ≤ j ∧ j < v.print_zs.length ∧ max_z < v.print_zs.getD j 0
            ∧ (∀ k, i ≤ k → k < j → v.print_zs.getD k 0 ≤ max_z)
            ∧ (v.set_range min_z max_z).qverts_range.2 = v.offsets.getD (2 * j) 0
            ∧ (v.set_range min_z max_z).tverts_range.2 = v.offsets.getD (2 * j + 1) 0)
          ∨ ((∀ k, i ≤ k → k < v.print_zs.length → v.print_zs.getD k 0 ≤ max_z)
            ∧ (v.set_range min_z max_z).qverts_range.2 = v.quad_indices_size
            ∧ (v.set_range min_z max_z).tverts_range.2 = v.triangle_indices_size)) := by
  have hlen : 0 < v.print_zs.length := List.length_pos.mpr hne
  obtain ⟨a1, a2, a3, a4⟩ :=
    set_range_skip_below_spec v.print_zs min_z v.print_zs.length 0 (Nat.zero_le _) (by omega)
  have hi : set_range_skip_below v.print_zs min_z v.print_zs.length 0 < v.print_zs.length := by
    rcases Nat.eq_or_lt_of_le a2 with e | e
    · exfalso
      have := a3 (v.print_zs.length - 1) (Nat.zero_le _) (by omega)
      linarith
    · exact e
  obtain ⟨b1, b2, b3, b4⟩ := set_range_skip_within_spec v.print_zs max_z
    (v.print_zs.length - set_range_skip_below v.print_zs min_z v.print_zs.length 0)
    (set_range_skip_below v.print_zs min_z v.print_zs.length 0) a2 (le_refl _)
  have hw : ¬ (v.print_zs.getD 0 0 > max_z
      ∨ v.print_zs.getD (v.print_zs.length - 1) 0 < min_z) := by
    rintro (h | h) <;> linarith
  refine ⟨set_range_skip_below v.print_zs min_z v.print_zs.length 0, hi,
    not_lt.mp (a4 hi), fun k hk => a3 k (Nat.zero_le _) hk, by omega, ?_⟩
  by_cases hj : set_range_skip_within v.print_zs max_z
      (v.print_zs.length - set_range_skip_below v.print_zs min_z v.print_zs.length 0)
      (set_range_skip_below v.print_zs min_z v.print_zs.length 0) < v.print_zs.length
  · have e : v.set_range min_z max_z = { v with
        qverts_range := (v.offsets.getD
            (set_range_skip_below v.print_zs min_z v.print_zs.length 0 * 2) 0,
          v.offsets.getD (set_range_skip_within v.print_zs max_z
            (v.print_zs.length - set_range_skip_below v.print_zs min_z v.print_zs.length 0)
            (set_range_skip_below v.print_zs min_z v.print_zs.length 0) * 2) 0)
        tverts_range := (v.offsets.getD
            (set_range_skip_below v.print_zs min_z v.print_zs.length 0 * 2 + 1) 0,
          v.offsets.getD (set_range_skip_within v.print_zs max_z
            (v.print_zs.length - set_range_skip_below v.print_zs min_z v.print_zs.length 0)
            (set_range_skip_below v.print_zs min_z v.print_zs.length 0) * 2 + 1) 0) } := by
      simp only [GLVolume.set_range, ne_eq, hne, not_false_eq_true, if_true, hw, if_false,
        Nat.ne_of_lt hi, hj]
    rw [e]
    refine ⟨by simp only [Nat.mul_comm], by simp only [Nat.mul_comm], Or.inl ⟨_, b1, hj,
      not_le.mp (b4 hj), b3, by simp only [Nat.mul_comm], by simp only [Nat.mul_comm]⟩⟩
  · have e : v.set_range min_z max_z = { v with
        qverts_range := (v.offsets.getD
            (set_range_skip_below v.print_zs min_z v.print_zs.length 0 * 2) 0,
          v.quad_indices_size)
        tverts_range := (v.offsets.getD
            (set_range_skip_below v.print_zs min_z v.print_zs.length 0 * 2 + 1) 0,
          v.triangle_indices_size) } := by
      simp only [GLVolume.set_range, ne_eq, hne, not_false_eq_true, if_true, hw, if_false,
        Nat.ne_of_lt hi, hj]
    rw [e]
    have hje : set_range_skip_within v.print_zs max_z
        (v.print_zs.length - set_range_skip_below v.print_zs min_z v.print_zs.length 0)
        (set_range_skip_below v.print_zs min_z v.print_zs.length 0) = v.print_zs.length := by
      omega
    refine ⟨by simp only [Nat.mul_comm], by simp only [Nat.mul_comm], Or.inr ⟨?_, rfl, rfl⟩⟩
    intro k hk1 hk2
    exact b3 k hk1 (by rw [hje]; exact hk2)

/-- Instance of C20: four layers at heights 1, 2, 3, 4 and the window `[2, 3]`. -/
theorem set_range_window_witness :
    ∃ i, i < fourLayerVolume.print_zs.length ∧ (2 : ℚ) ≤ fourLayerVolume.print_zs.getD i 0
      ∧ (∀ k, k < i → fourLayerVolume.print_zs.getD k 0 < 2)
      ∧ 2 * i + 1 < fourLayerVolume.offsets.length
      ∧ (fourLayerVolume.set_range 2 3).qverts_range.1 = fourLayerVolume.offsets.getD (2 * i) 0
      ∧ (fourLayerVolume.set_range 2 3).tverts_range.1
          = fourLayerVolume.offsets.getD (2 * i + 1) 0
      ∧ ((∃ j, i ≤ j ∧ j < fourLayerVolume.print_zs.length
            ∧ (3 : ℚ) < fourLayerVolume.print_zs.getD j 0
            ∧ (∀ k, i ≤ k → k < j → fourLayerVolume.print_zs.getD k 0 ≤ 3)
            ∧ (fourLayerVolume.set_range 2 3).qverts_range.2
                = fourLayerVolume.offsets.getD (2 * j) 0
            ∧ (fourLayerVolume.set_range 2 3).tverts_range.2
                = fourLayerVolume.offsets.getD (2 * j + 1) 0)
          ∨ ((∀ k, i ≤ k → k < fourLayerVolume.print_zs.length
                → fourLayerVolume.print_zs.getD k 0 ≤ 3)
            ∧ (fourLayerVolume.set_range 2 3).qverts_range.2
                = fourLayerVolume.quad_indices_size
            ∧ (fourLayerVolume.set_range 2 3).tverts_range.2
                = fourLayerVolume.triangle_indices_size)) :=
  set_range_window fourLayerVolume 2 3 (by decide) (by decide)
    (by norm_num [fourLayerVolume]) (by norm_num [fourLayerVolume])

/-! ### Print heights of a collection of volumes -/

theorem runs_nil (EPSILON : ℚ) : runs EPSILON [] = [] := by
  rw [runs]

theorem runs_cons (EPSILON : ℚ) (a : ℚ) (rest : List ℚ) :
    runs EPSILON (a :: rest)
      = (a :: rest.takeWhile (fun z => decide (z ≤ a + EPSILON)))
        :: runs EPSILON (rest.dropWhile (fun z => decide (z ≤ a + EPSILON))) := by
  rw [runs]

/-- The collecting loop fails on a null pointer and otherwise appends the layer heights of
the volumes that count. -/
theorem get_current_print_zs_collect_spec (active_only : Bool) :
    ∀ (volumes : List (Option GLVolume)) (print_zs : List ℚ),
      (∀ vol ∈ volumes, vol ≠ none) →
      get_current_print_zs_collect active_only volumes print_zs
        = some (print_zs ++ collected_print_zs volumes active_only) := by
  intro volumes
  induction volumes with
  | nil => intro print_zs _; simp [get_current_print_zs_collect, collected_print_zs]
  | cons v rest ih =>
    intro print_zs h
    cases v with
    | none => exact absurd rfl (h none (List.mem_cons_self _ _))
    | some vol =>
      have hrest : ∀ w ∈ rest, w ≠ none := fun w hw => h w (List.mem_cons_of_mem _ hw)
      rw [get_current_print_zs_collect, ih _ hrest]
      by_cases hc : (!active_only || vol.is_active) = true
      · simp [collected_print_zs, hc]
      · simp [collected_print_zs, hc]

/-- The inner loop stops, within `fuel` iterations, at the least index from `j` on whose value
is above `zmax`, or at `n`. -/
theorem get_current_print_zs_scan_spec (zs : List ℚ) (n : Nat) (zmax : ℚ) :
    ∀ (fuel j : Nat), j ≤ n → n - j ≤ fuel →
      j ≤ get_current_print_zs_scan zs n zmax fuel j
      ∧ get_current_print_zs_scan zs n zmax fuel j ≤ n
      ∧ (∀ t, j ≤ t → t < get_current_print_zs_scan zs n zmax fuel j → zs.getD t 0 ≤ zmax)
      ∧ (get_current_print_zs_scan zs n zmax fuel j < n →
          ¬ zs.getD (get_current_print_zs_scan zs n zmax fuel j) 0 ≤ zmax) := by
  intro fuel
  induction fuel with
  | zero =>
    intro j hj hf
    have : j = n := by omega
    simp only [get_current_print_zs_scan]
    exact ⟨le_refl _, hj, fun t h1 h2 => by omega, fun h => by omega⟩
  | succ fuel ih =>
    intro j hj hf
    by_cases hc : j < n ∧ zs.getD j 0 ≤ zmax
    · simp only [get_current_print_zs_scan, if_pos hc]
      obtain ⟨h1, h2, h3, h4⟩ := ih (j + 1) hc.1 (by omega)
      refine ⟨by omega, h2, ?_, h4⟩
      intro t ht1 ht2
      rcases Nat.eq_or_lt_of_le ht1 with e | e
      · rw [← e]; exact hc.2
      · exact h3 t e ht2
    · simp only [get_current_print_zs_scan, if_neg hc]
      refine ⟨le_refl _, hj, fun t h1 h2 => by omega, fun h hlt => hc ⟨h, hlt⟩⟩

/-- A prefix of `m` values satisfying `p`, followed by the end of the list or by a value
that does not, is what `takeWhile p` takes. -/
theorem takeWhile_dropWhile_of_index (p : ℚ → Bool) :
    ∀ (L : List ℚ) (m : Nat), m ≤ L.length → (∀ t, t < m → p (L.getD t 0) = true) →
      (m < L.length → p (L.getD m 0) = false) →
      L.takeWhile p = L.take m ∧ L.dropWhile p = L.drop m := by
  intro L
  induction L with
  | nil => intro m _ _ _; simp
  | cons x rest ih =>
    intro m hm hall hstop
    cases m with
    | zero =>
      have hx : p x = false := by simpa using hstop (by simp)
      simp [List.takeWhile, List.dropWhile, hx]
    | succ m =>
      have hx : p x = true := by simpa using hall 0 (by omega)
      obtain ⟨e1, e2⟩ := ih m (by simpa using hm)
        (fun t ht => by simpa using hall (t + 1) (by omega))
        (fun h => by simpa using hstop (by simpa using h))
      simp [List.takeWhile, List.dropWhile, hx, e1, e2]

theorem getD_drop (L : List ℚ) (s t : Nat) : (L.drop s).getD t 0 = L.getD (s + t) 0 := by
  simp [List.getD_eq_getElem?_getD, List.getElem?_drop]

theorem getLastD_take : ∀ (L : List ℚ) (m : Nat) (a : ℚ), 0 < m → m ≤ L.length →
    (L.take m).getLastD a = L.getD (m - 1) 0 := by
  intro L
  induction L with
  | nil => intro m a h1 h2; simp at h2; omega
  | cons x rest ih =>
    intro m a h1 h2
    cases m with
    | zero => omega
    | succ m =>
      rw [List.take_succ_cons, List.getLastD_cons]
      cases m with
      | zero => simp
      | succ m =>
        rw [ih (m + 1) x (by omega) (by simpa using h2)]
        simp

theorem take_succ_set (A : List ℚ) (k : Nat) (z : ℚ) (hk : k < A.length) :
    (A.set k z).take (k + 1) = A.take k ++ [z] := by
  induction A generalizing k with
  | nil => simp at hk
  | cons x rest ih =>
    cases k with
    | zero => simp
    | succ k =>
      have := ih k (by simpa using hk)
      simp [List.set, this]

/-- Invariant of the outer loop of `get_current_print_zs`: started at index `i` with `k`
values written, on a vector that still holds the original values from `i` on, it ends with
the first `k` values kept and followed by the midpoints of the runs of the values from `i`
on. -/
theorem get_current_print_zs_merge_spec (EPSILON : ℚ) (l : List ℚ) :
    ∀ (fuel : Nat) (A : List ℚ) (k i : Nat), A.length = l.length → k ≤ i → i ≤ l.length →
      l.length - i ≤ fuel → A.drop i = l.drop i →
      (get_current_print_zs_merge EPSILON l.length fuel A k i).1.length = l.length
      ∧ (get_current_print_zs_merge EPSILON l.length fuel A k i).2 ≤ l.length
      ∧ (get_current_print_zs_merge EPSILON l.length fuel A k i).1.take
            (get_current_print_zs_merge EPSILON l.length fuel A k i).2
          = A.take k ++ (runs EPSILON (l.drop i)).map run_midpoint := by
  intro fuel
  induction fuel with
  | zero =>
    intro A k i hA hk hi hf hd
    have hin : i = l.length := by omega
    simp only [get_current_print_zs_merge]
    rw [hin, List.drop_length, runs_nil]
    exact ⟨hA, by omega, by simp⟩
  | succ fuel ih =>
    intro A k i hA hk hi hf hd
    by_cases hlt : i < l.length
    · -- the scan from `i + 1`
      obtain ⟨s1, s2, s3, s4⟩ := get_current_print_zs_scan_spec A l.length
        (A.getD i 0 + EPSILON) (l.length - (i + 1)) (i + 1) hlt (le_refl _)
      generalize hj : get_current_print_zs_scan A l.length (A.getD i 0 + EPSILON)
        (l.length - (i + 1)) (i + 1) = j at s1 s2 s3 s4
      have hd1 : A.drop (i + 1) = l.drop (i + 1) := by
        have := congrArg (List.drop 1) hd
        simpa [List.drop_drop, Nat.add_comm] using this
      have hdj : A.drop j = l.drop j := by
        have := congrArg (List.drop (j - i)) hd
        rw [List.drop_drop, List.drop_drop] at this
        rwa [show i + (j - i) = j by omega] at this
      have hai : l.drop i = A.getD i 0 :: l.drop (i + 1) := by
        rw [← hd, ← hd1]
        have hiA : i < A.length := by omega
        rw [List.drop_eq_getElem_cons hiA, List.getD_eq_getElem _ _ hiA]
      -- what `takeWhile` takes from the rest
      obtain ⟨t1, t2⟩ := takeWhile_dropWhile_of_index
        (fun z => decide (z ≤ A.getD i 0 + EPSILON)) (l.drop (i + 1)) (j - (i + 1))
        (by rw [List.length_drop]; omega)
        (fun t ht => by
          rw [← hd1, getD_drop]
          exact decide_eq_true (s3 (i + 1 + t) (by omega) (by omega)))
        (fun h => by
          rw [List.length_drop] at h
          rw [← hd1, getD_drop, show i + 1 + (j - (i + 1)) = j by omega]
          exact decide_eq_false (s4 (by omega)))
      have hruns : runs EPSILON (l.drop i)
          = (A.getD i 0 :: (l.drop (i + 1)).take (j - (i + 1))) :: runs EPSILON (l.drop j) := by
        rw [hai, runs_cons, t1, t2, List.drop_drop, show i + 1 + (j - (i + 1)) = j by omega]
      -- the value written is the midpoint of the run
      have hz : (if j > i + 1 then 1 / 2 * (A.getD i 0 + A.getD (j - 1) 0) else A.getD i 0)
          = run_midpoint (A.getD i 0 :: (l.drop (i + 1)).take (j - (i + 1))) := by
        unfold run_midpoint
        rw [List.headD_cons, List.getLastD_cons]
        by_cases hgt : j > i + 1
        · rw [if_pos hgt, getLastD_take _ _ _ (by omega) (by rw [List.length_drop]; omega),
            ← hd1, getD_drop, show i + 1 + (j - (i + 1) - 1) = j - 1 by omega]
          ring
        · rw [if_neg hgt, show j - (i + 1) = 0 by omega]
          simp
      have hkA : k < A.length := by omega
      obtain ⟨r1, r2, r3⟩ := ih (A.set k (if j > i + 1 then
          1 / 2 * (A.getD i 0 + A.getD (j - 1) 0) else A.getD i 0)) (k + 1) j
        (by rw [List.length_set]; exact hA) (by omega) s2 (by omega)
        (by rw [List.drop_set_of_lt _ _ (by omega)]; exact hdj)
      simp only [get_current_print_zs_merge, if_pos hlt, hj]
      refine ⟨r1, r2, ?_⟩
      rw [r3, take_succ_set A k _ hkA, hruns, hz]
      simp
    · have hin : i = l.length := by omega
      simp only [get_current_print_zs_merge, if_neg hlt]
      rw [hin, List.drop_length, runs_nil]
      exact ⟨hA, by omega, by simp⟩

/-- Without null pointers `get_current_print_zs` returns the midpoints of the runs of the
sorted collected values. -/
theorem get_current_print_zs_eq (EPSILON : ℚ) (c : GLVolumeCollection) (active_only : Bool)
    (h : ∀ vol ∈ c.volumes, vol ≠ none) :
    c.get_current_print_zs EPSILON active_only
      = some ((runs EPSILON
          ((collected_print_zs c.volumes active_only).insertionSort (· ≤ ·))).map
            run_midpoint) := by
  have hc := get_current_print_zs_collect_spec active_only c.volumes [] h
  rw [List.nil_append] at hc
  obtain ⟨r1, r2, r3⟩ := get_current_print_zs_merge_spec EPSILON
    ((collected_print_zs c.volumes active_only).insertionSort (· ≤ ·))
    ((collected_print_zs c.volumes active_only).insertionSort (· ≤ ·)).length
    ((collected_print_zs c.volumes active_only).insertionSort (· ≤ ·)) 0 0 rfl (le_refl _)
    (Nat.zero_le _) (by omega) rfl
  simp only [GLVolumeCollection.get_current_print_zs, hc]
  rw [List.take_zero, List.nil_append, List.drop_zero] at r3
  congr 1
  split
  · exact r3
  · rename_i hk
    rw [← r3]
    have : (get_current_print_zs_merge EPSILON
        ((collected_print_zs c.volumes active_only).insertionSort (· ≤ ·)).length
        ((collected_print_zs c.volumes active_only).insertionSort (· ≤ ·)).length
        ((collected_print_zs c.volumes active_only).insertionSort (· ≤ ·)) 0 0).2
        = ((collected_print_zs c.volumes active_only).insertionSort (· ≤ ·)).length := by
      omega
    rw [this]
    exact (List.take_of_length_le (by rw [r1])).symm

/-- With a null pointer among the volumes `get_current_print_zs` dereferences it. -/
theorem get_current_print_zs_collect_null (active_only : Bool) :
    ∀ (volumes : List (Option GLVolume)) (print_zs : List ℚ), none ∈ volumes →
      get_current_print_zs_collect active_only volumes print_zs = none := by
  intro volumes
  induction volumes with
  | nil => intro _ h; simp at h
  | cons v rest ih =>
    intro print_zs h
    cases v with
    | none => rfl
    | some vol =>
      rw [get_current_print_zs_collect]
      exact ih _ (by simpa using h)

theorem length_dropWhile_le (p : ℚ → Bool) (l : List ℚ) :
    (l.dropWhile p).length ≤ l.length := (List.dropWhile_sublist p).length_le

/-- The runs, one after the other, make up the list. -/
theorem runs_flatten (EPSILON : ℚ) :
    ∀ (n : Nat) (l : List ℚ), l.length ≤ n → (runs EPSILON l).flatten = l := by
  intro n
  induction n with
  | zero =>
    intro l hl
    have : l = [] := List.length_eq_zero.mp (Nat.le_zero.mp hl)
    subst this
    rw [runs_nil]; rfl
  | succ n ih =>
    intro l hl
    cases l with
    | nil => rw [runs_nil]; rfl
    | cons a rest =>
      have hlen := length_dropWhile_le (fun z => decide (z ≤ a + EPSILON)) rest
      rw [runs_cons, List.flatten_cons, ih _ (by simp at hl; omega), List.cons_append,
        List.takeWhile_append_dropWhile]

/-- Every run is not empty and its values are at most `EPSILON` above its first value. -/
theorem runs_mem_bounds (EPSILON : ℚ) (h0 : 0 ≤ EPSILON) :
    ∀ (n : Nat) (l : List ℚ), l.length ≤ n → ∀ r ∈ runs EPSILON l,
      r ≠ [] ∧ ∀ z ∈ r, z ≤ r.headD 0 + EPSILON := by
  intro n
  induction n with
  | zero =>
    intro l hl r hr
    have : l = [] := List.length_eq_zero.mp (Nat.le_zero.mp hl)
    subst this
    rw [runs_nil] at hr; simp at hr
  | succ n ih =>
    intro l hl r hr
    cases l with
    | nil => rw [runs_nil] at hr; simp at hr
    | cons a rest =>
      have hlen := length_dropWhile_le (fun z => decide (z ≤ a + EPSILON)) rest
      rw [runs_cons, List.mem_cons] at hr
      rcases hr with hr | hr
      · subst hr
        refine ⟨List.cons_ne_nil _ _, ?_⟩
        intro z hz
        rw [List.headD_cons]
        rcases List.mem_cons.mp hz with e | e
        · rw [e]; linarith
        · have := List.mem_takeWhile_imp e
          exact of_decide_eq_true this
      · exact ih _ (by simp at hl; omega) r hr

/-- Runs are maximal: the first value of the next run is more than `EPSILON` above the first
value of the run. -/
theorem runs_chain (EPSILON : ℚ) :
    ∀ (n : Nat) (l : List ℚ), l.length ≤ n →
      (runs EPSILON l).Chain' (fun r r' => r.headD 0 + EPSILON < r'.headD 0) := by
  intro n
  induction n with
  | zero =>
    intro l hl
    have : l = [] := List.length_eq_zero.mp (Nat.le_zero.mp hl)
    subst this
    rw [runs_nil]; exact List.chain'_nil
  | succ n ih =>
    intro l hl
    cases l with
    | nil => rw [runs_nil]; exact List.chain'_nil
    | cons a rest =>
      have hlen := length_dropWhile_le (fun z => decide (z ≤ a + EPSILON)) rest
      rw [runs_cons, List.chain'_cons']
      refine ⟨?_, ih _ (by simp at hl; omega)⟩
      intro r' hr'
      rw [List.headD_cons]
      cases hdw : rest.dropWhile (fun z => decide (z ≤ a + EPSILON)) with
      | nil => rw [hdw, runs_nil] at hr'; simp at hr'
      | cons b t =>
        rw [hdw, runs_cons] at hr'
        simp only [List.head?_cons, Option.mem_def, Option.some.injEq] at hr'
        rw [← hr', List.headD_cons]
        have hb : b ∈ rest.dropWhile (fun z => decide (z ≤ a + EPSILON)) := by
          rw [hdw]; exact List.mem_cons_self _ _
        have hnot : ¬ (fun z => decide (z ≤ a + EPSILON)) b = true := by
          have := List.head_dropWhile_not (fun z => decide (z ≤ a + EPSILON)) rest
            (by rw [hdw]; exact List.cons_ne_nil _ _)
          simp only [hdw, List.head_cons] at this
          simpa using this
        simpa using hnot

/-- In a sorted list that is not empty every value lies between the first and the last. -/
theorem sorted_head_last : ∀ (r : List ℚ), r.Sorted (· ≤ ·) → ∀ z ∈ r,
    r.headD 0 ≤ z ∧ z ≤ r.getLastD 0 := by
  intro r
  induction r with
  | nil => intro _ z hz; simp at hz
  | cons a t ih =>
    intro hs z hz
    rw [List.sorted_cons] at hs
    rw [List.headD_cons, List.getLastD_cons]
    rcases List.mem_cons.mp hz with e | e
    · subst e
      refine ⟨le_refl _, ?_⟩
      cases t with
      | nil => simp
      | cons b u =>
        have hm : (b :: u).getLastD z ∈ b :: u := by
          rw [List.getLastD_cons]
          have := List.getLast_mem (List.cons_ne_nil b u)
          rwa [List.getLast_eq_getLastD] at this
        exact hs.1 _ hm
    · have := ih hs.2 z e
      cases t with
      | nil => simp at e
      | cons b u =>
        rw [List.getLastD_cons] at this ⊢
        exact ⟨hs.1 z e, this.2⟩

/-- The first run of a sorted list: its values lie between its first value `a` and its last
value, which is at most `a + EPSILON`; hence every value is within `EPSILON / 2` of the
midpoint, and the midpoint lies between `a` and `a + EPSILON / 2`. -/
theorem first_run_facts (EPSILON : ℚ) (h0 : 0 ≤ EPSILON) (a : ℚ) (rest : List ℚ)
    (hs : (a :: rest).Sorted (· ≤ ·)) :
    a ≤ run_midpoint (a :: rest.takeWhile (fun z => decide (z ≤ a + EPSILON)))
      ∧ run_midpoint (a :: rest.takeWhile (fun z => decide (z ≤ a + EPSILON)))
          ≤ a + EPSILON / 2
      ∧ ∀ z ∈ a :: rest.takeWhile (fun z => decide (z ≤ a + EPSILON)),
          |z - run_midpoint (a :: rest.takeWhile (fun z => decide (z ≤ a + EPSILON)))|
            ≤ EPSILON / 2 := by
  have hsub : (a :: rest.takeWhile (fun z => decide (z ≤ a + EPSILON))).Sublist (a :: rest) :=
    (List.takeWhile_sublist _).cons₂ a
  have hsr := hs.sublist hsub
  have hlast_mem : (a :: rest.takeWhile (fun z => decide (z ≤ a + EPSILON))).getLastD 0
      ∈ a :: rest.takeWhile (fun z => decide (z ≤ a + EPSILON)) := by
    have := List.getLast_mem (List.cons_ne_nil a
      (rest.takeWhile (fun z => decide (z ≤ a + EPSILON))))
    rw [List.getLast_eq_getLastD] at this
    rw [List.getLastD_cons]
    exact this
  have hle : ∀ z ∈ a :: rest.takeWhile (fun z => decide (z ≤ a + EPSILON)),
      z ≤ a + EPSILON := by
    intro z hz
    rcases List.mem_cons.mp hz with e | e
    · rw [e]; linarith
    · have := List.mem_takeWhile_imp e
      exact of_decide_eq_true this
  have hl1 := hle _ hlast_mem
  have hl0 := (sorted_head_last _ hsr _ hlast_mem).1
  rw [List.headD_cons] at hl0
  have hm : run_midpoint (a :: rest.takeWhile (fun z => decide (z ≤ a + EPSILON)))
      = (a + (a :: rest.takeWhile (fun z => decide (z ≤ a + EPSILON))).getLastD 0) / 2 := by
    unfold run_midpoint; rw [List.headD_cons]
  rw [hm]
  refine ⟨by linarith, by linarith, ?_⟩
  intro z hz
  have hz1 := sorted_head_last _ hsr z hz
  rw [List.headD_cons] at hz1
  rw [abs_le]
  constructor <;> linarith [hz1.1, hz1.2]

/-- The first value left after the first run is more than `EPSILON` above the first value of
the run. -/
theorem dropWhile_head_gt (EPSILON a : ℚ) (rest : List ℚ) {b : ℚ} {t : List ℚ}
    (hdw : rest.dropWhile (fun z => decide (z ≤ a + EPSILON)) = b :: t) : a + EPSILON < b := by
  have := List.head_dropWhile_not (fun z => decide (z ≤ a + EPSILON)) rest
    (by rw [hdw]; exact List.cons_ne_nil _ _)
  simp only [hdw, List.head_cons] at this
  simpa using this

/-- Midpoints of the runs of a sorted list: there are at most as many as values, every value
is within `EPSILON / 2` of one of them, none is below the first value of the list, and each
is more than `EPSILON / 2` above the one before. -/
theorem runs_midpoints_sorted (EPSILON : ℚ) (h0 : 0 ≤ EPSILON) :
    ∀ (n : Nat) (l : List ℚ), l.length ≤ n → l.Sorted (· ≤ ·) →
      ((runs EPSILON l).map run_midpoint).length ≤ l.length
      ∧ (∀ z ∈ l, ∃ m ∈ (runs EPSILON l).map run_midpoint, |z - m| ≤ EPSILON / 2)
      ∧ (∀ m ∈ (runs EPSILON l).map run_midpoint, ∀ x ∈ l.head?, x ≤ m)
      ∧ ((runs EPSILON l).map run_midpoint).Chain' (fun x y => x + EPSILON / 2 < y) := by
  intro n
  induction n with
  | zero =>
    intro l hl _
    have : l = [] := List.length_eq_zero.mp (Nat.le_zero.mp hl)
    subst this
    rw [runs_nil]
    simp
  | succ n ih =>
    intro l hl hs
    cases l with
    | nil => rw [runs_nil]; simp
    | cons a rest =>
      have hlen := length_dropWhile_le (fun z => decide (z ≤ a + EPSILON)) rest
      have hsd : (rest.dropWhile (fun z => decide (z ≤ a + EPSILON))).Sorted (· ≤ ·) :=
        (List.Sorted.of_cons hs).sublist (List.dropWhile_sublist _)
      obtain ⟨i1, i2, i3, i4⟩ := ih _ (by simp at hl; omega) hsd
      obtain ⟨f1, f2, f3⟩ := first_run_facts EPSILON h0 a rest hs
      have hge : ∀ m ∈ (runs EPSILON
          (rest.dropWhile (fun z => decide (z ≤ a + EPSILON)))).map run_midpoint,
          a + EPSILON < m := by
        intro m hm
        cases hdw : rest.dropWhile (fun z => decide (z ≤ a + EPSILON)) with
        | nil => rw [hdw, runs_nil] at hm; simp at hm
        | cons b t =>
          have hb := dropWhile_head_gt EPSILON a rest hdw
          have := i3 m hm b (by rw [hdw]; simp)
          linarith
      rw [runs_cons, List.map_cons]
      refine ⟨?_, ?_, ?_, ?_⟩
      · rw [List.length_cons, List.length_cons]; omega
      · intro z hz
        have hz' : z ∈ (a :: rest.takeWhile (fun z => decide (z ≤ a + EPSILON)))
            ∨ z ∈ rest.dropWhile (fun z => decide (z ≤ a + EPSILON)) := by
          rcases List.mem_cons.mp hz with e | e
          · exact Or.inl (by rw [e]; exact List.mem_cons_self _ _)
          · rw [← List.takeWhile_append_dropWhile (fun z => decide (z ≤ a + EPSILON)) rest,
              List.mem_append] at e
            rcases e with e | e
            · exact Or.inl (List.mem_cons_of_mem _ e)
            · exact Or.inr e
        rcases hz' with e | e
        · exact ⟨_, List.mem_cons_self _ _, f3 z e⟩
        · obtain ⟨m, hm, hd⟩ := i2 z e
          exact ⟨m, List.mem_cons_of_mem _ hm, hd⟩
      · intro m hm x hx
        simp only [List.head?_cons, Option.mem_def, Option.some.injEq] at hx
        subst hx
        rcases List.mem_cons.mp hm with e | e
        · rw [e]; exact f1
        · have := hge m e
          linarith
      · rw [List.chain'_cons']
        refine ⟨?_, i4⟩
        intro m hm
        have := hge m (List.mem_of_mem_head? hm)
        linarith

/-- C21: in `set_range`, for every non-empty `print_zs` (sorted or not) and every `min_z`,
`max_z`, once the test `print_zs.front() > max_z || print_zs.back() < min_z` has failed, the
scan for the lowest displayed layer stops at an index `i < print_zs.size()` (at a layer not
below `min_z`), so the branch `i == print_zs.size()` is not taken. -/
theorem set_range_scan_stops (v : GLVolume) (min_z max_z : ℚ) (hne : v.print_zs ≠ [])
    (htest : ¬ (v.print_zs.getD 0 0 > max_z
      ∨ v.print_zs.getD (v.print_zs.length - 1) 0 < min_z)) :
    set_range_skip_below v.print_zs min_z v.print_zs.length 0 < v.print_zs.length
      ∧ ¬ v.print_zs.getD (set_range_skip_below v.print_zs min_z v.print_zs.length 0) 0
          < min_z
      ∧ set_range_skip_below v.print_zs min_z v.print_zs.length 0 ≠ v.print_zs.length := by
  have hlen : 0 < v.print_zs.length := List.length_pos.mpr hne
  obtain ⟨-, a2, a3, a4⟩ :=
    set_range_skip_below_spec v.print_zs min_z v.print_zs.length 0 (Nat.zero_le _) (by omega)
  have hi : set_range_skip_below v.print_zs min_z v.print_zs.length 0 < v.print_zs.length := by
    rcases Nat.eq_or_lt_of_le a2 with e | e
    · exfalso
      apply htest
      right
      exact a3 (v.print_zs.length - 1) (Nat.zero_le _) (by omega)
    · exact e
  exact ⟨hi, a4 hi, Nat.ne_of_lt hi⟩

theorem set_range_scan_stops_witness :
    set_range_skip_below unsortedVolume.print_zs 2 unsortedVolume.print_zs.length 0
        < unsortedVolume.print_zs.length
      ∧ ¬ unsortedVolume.print_zs.getD
            (set_range_skip_below unsortedVolume.print_zs 2 unsortedVolume.print_zs.length 0) 0
          < 2
      ∧ set_range_skip_below unsortedVolume.print_zs 2 unsortedVolume.print_zs.length 0
          ≠ unsortedVolume.print_zs.length :=
  set_range_scan_stops unsortedVolume 2 3 (by decide) (by norm_num [unsortedVolume])

theorem run_midpoint_eq_mean (r : List ℚ) (h : r.length ≤ 2) : run_midpoint r = run_mean r := by
  match r, h with
  | [], _ => simp [run_midpoint, run_mean]
  | [a], _ => simp [run_midpoint, run_mean]
  | [a, b], _ => simp [run_midpoint, run_mean]
  | _ :: _ :: _ :: _, h => simp at h

/-- C22 (amended): `get_current_print_zs` replaces every run of the sorted collected values
(a maximal stretch lying within `EPSILON` of the run's first value) by the mean of the first
and the last value of the run, which is the arithmetic mean of the run when the run has at
most two values. -/
theorem get_current_print_zs_midpoints (EPSILON : ℚ) (h0 : 0 ≤ EPSILON)
    (c : GLVolumeCollection) (active_only : Bool) (h : ∀ vol ∈ c.volumes, vol ≠ none) :
    c.get_current_print_zs EPSILON active_only
        = some ((runs EPSILON (sorted_print_zs c.volumes active_only)).map run_midpoint)
      ∧ (sorted_print_zs c.volumes active_only).Sorted (· ≤ ·)
      ∧ (sorted_print_zs c.volumes active_only).Perm (collected_print_zs c.volumes active_only)
      ∧ (runs EPSILON (sorted_print_zs c.volumes active_only)).flatten
          = sorted_print_zs c.volumes active_only
      ∧ (∀ r ∈ runs EPSILON (sorted_print_zs c.volumes active_only),
          r ≠ [] ∧ ∀ z ∈ r, r.headD 0 ≤ z ∧ z ≤ r.headD 0 + EPSILON)
      ∧ (runs EPSILON (sorted_print_zs c.volumes active_only)).Chain'
          (fun r r' => r.headD 0 + EPSILON < r'.headD 0)
      ∧ (∀ r ∈ runs EPSILON (sorted_print_zs c.volumes active_only),
          r.length ≤ 2 → run_midpoint r = run_mean r) := by
  have hs : (sorted_print_zs c.volumes active_only).Sorted (· ≤ ·) :=
    List.sorted_insertionSort _ _
  have hf := runs_flatten EPSILON _ (sorted_print_zs c.volumes active_only) (le_refl _)
  refine ⟨get_current_print_zs_eq EPSILON c active_only h, hs,
    List.perm_insertionSort _ _, hf, ?_,
    runs_chain EPSILON _ _ (le_refl _), fun r _ hr => run_midpoint_eq_mean r hr⟩
  intro r hr
  obtain ⟨b1, b2⟩ := runs_mem_bounds EPSILON h0 _ _ (le_refl _) r hr
  have hsub : r.Sublist (sorted_print_zs c.volumes active_only) := by
    rw [← hf]; exact List.sublist_flatten_of_mem hr
  have hsr := hs.sublist hsub
  exact ⟨b1, fun z hz => ⟨(sorted_head_last r hsr z hz).1, b2 z hz⟩⟩

/-- C23: with `EPSILON >= 0` and exact arithmetic the list returned by
`get_current_print_zs` is strictly increasing, consecutive values differ by more than
`EPSILON / 2`, it has at most as many values as were collected, and every collected value is
within `EPSILON / 2` of a returned value. -/
theorem get_current_print_zs_spacing (EPSILON : ℚ) (h0 : 0 ≤ EPSILON)
    (c : GLVolumeCollection) (active_only : Bool) (h : ∀ vol ∈ c.volumes, vol ≠ none) :
    ∃ zs, c.get_current_print_zs EPSILON active_only = some zs
      ∧ zs.Sorted (· < ·)
      ∧ zs.Chain' (fun x y => EPSILON / 2 < y - x)
      ∧ zs.length ≤ (collected_print_zs c.volumes active_only).length
      ∧ ∀ z ∈ collected_print_zs c.volumes active_only, ∃ m ∈ zs, |z - m| ≤ EPSILON / 2 := by
  have hs : (sorted_print_zs c.volumes active_only).Sorted (· ≤ ·) :=
    List.sorted_insertionSort _ _
  have hp : (sorted_print_zs c.volumes active_only).Perm
      (collected_print_zs c.volumes active_only) := List.perm_insertionSort _ _
  obtain ⟨q1, q2, -, q4⟩ := runs_midpoints_sorted EPSILON h0 _
    (sorted_print_zs c.volumes active_only) (le_refl _) hs
  refine ⟨_, get_current_print_zs_eq EPSILON c active_only h, ?_, ?_, ?_, ?_⟩
  · have hc : ((runs EPSILON (sorted_print_zs c.volumes active_only)).map
        run_midpoint).Chain' (· < ·) :=
      q4.imp (fun x y hxy => by linarith)
    exact List.chain'_iff_pairwise.mp hc
  · exact q4.imp (fun x y hxy => by linarith)
  · rw [← hp.length_eq]; exact q1
  · intro z hz
    exact q2 z (hp.mem_iff.mpr hz)

theorem threeCloseLayers_no_null : ∀ vol ∈ threeCloseLayers.volumes, vol ≠ none := by
  intro vol hv
  simp only [threeCloseLayers, List.mem_cons, List.mem_singleton, List.not_mem_nil,
    or_false] at hv
  rcases hv with h | h | h <;> rw [h] <;> exact Option.some_ne_none _

theorem get_current_print_zs_midpoints_witness :
    threeCloseLayers.get_current_print_zs (1 / 10000) false
        = some ((runs (1 / 10000) (sorted_print_zs threeCloseLayers.volumes false)).map
            run_midpoint)
      ∧ (sorted_print_zs threeCloseLayers.volumes false).Sorted (· ≤ ·)
      ∧ (sorted_print_zs threeCloseLayers.volumes false).Perm
          (collected_print_zs threeCloseLayers.volumes false)
      ∧ (runs (1 / 10000) (sorted_print_zs threeCloseLayers.volumes false)).flatten
          = sorted_print_zs threeCloseLayers.volumes false
      ∧ (∀ r ∈ runs (1 / 10000) (sorted_print_zs threeCloseLayers.volumes false),
          r ≠ [] ∧ ∀ z ∈ r, r.headD 0 ≤ z ∧ z ≤ r.headD 0 + 1 / 10000)
      ∧ (runs (1 / 10000) (sorted_print_zs threeCloseLayers.volumes false)).Chain'
          (fun r r' => r.headD 0 + 1 / 10000 < r'.headD 0)
      ∧ (∀ r ∈ runs (1 / 10000) (sorted_print_zs threeCloseLayers.volumes false),
          r.length ≤ 2 → run_midpoint r = run_mean r) :=
  get_current_print_zs_midpoints (1 / 10000) (by norm_num) threeCloseLayers false
    threeCloseLayers_no_null

/-- C22 as stated fails on a run of three values: the layers `1/5`, `1/5` and `2001/10000`
of three volumes lie within `EPSILON = 1/10000` of the first and form one run;
`get_current_print_zs` returns `4001/20000`, the mean of the first and the last, while the
arithmetic mean of the run is `6001/30000`. -/
theorem get_current_print_zs_not_mean :
    threeCloseLayers.get_current_print_zs (1 / 10000) false = some [4001 / 20000]
      ∧ collected_print_zs threeCloseLayers.volumes false = [2001 / 10000, 1 / 5, 1 / 5]
      ∧ runs (1 / 10000) (sorted_print_zs threeCloseLayers.volumes false)
          = [[1 / 5, 1 / 5, 2001 / 10000]]
      ∧ run_mean [1 / 5, 1 / 5, 2001 / 10000] = 6001 / 30000
      ∧ (4001 / 20000 : ℚ) ≠ 6001 / 30000 := by
  have hc : collected_print_zs threeCloseLayers.volumes false
      = [2001 / 10000, 1 / 5, 1 / 5] := by
    simp [collected_print_zs, threeCloseLayers, oneLayerVolume]
  have hs : sorted_print_zs threeCloseLayers.volumes false = [1 / 5, 1 / 5, 2001 / 10000] := by
    unfold sorted_print_zs
    rw [hc]
    norm_num [List.insertionSort, List.orderedInsert]
  have hr : runs (1 / 10000) (sorted_print_zs threeCloseLayers.volumes false)
      = [[1 / 5, 1 / 5, 2001 / 10000]] := by
    rw [hs]
    norm_num [runs_cons, runs_nil, List.takeWhile, List.dropWhile]
  refine ⟨?_, hc, hr, ?_, by norm_num⟩
  · rw [get_current_print_zs_eq _ _ _ threeCloseLayers_no_null]
    have hr' := hr
    unfold sorted_print_zs at hr'
    rw [hr']
    norm_num [run_midpoint]
  · norm_num [run_mean]

theorem get_current_print_zs_spacing_witness :
    ∃ zs, threeCloseLayers.get_current_print_zs (1 / 10000) false = some zs
      ∧ zs.Sorted (· < ·)
      ∧ zs.Chain' (fun x y => (1 / 10000 : ℚ) / 2 < y - x)
      ∧ zs.length ≤ (collected_print_zs threeCloseLayers.volumes false).length
      ∧ ∀ z ∈ collected_print_zs threeCloseLayers.volumes false,
          ∃ m ∈ zs, |z - m| ≤ (1 / 10000 : ℚ) / 2 :=
  get_current_print_zs_spacing (1 / 10000) (by norm_num) threeCloseLayers false
    threeCloseLayers_no_null

/-! ### State of a collection with respect to the print volume -/

theorem considered_cons_none (L : List (Option GLVolume)) (w : GLVolume) :
    Considered (none :: L) w ↔ Considered L w := by
  unfold Considered
  simp

theorem considered_cons_skip (L : List (Option GLVolume)) (v w : GLVolume)
    (hv : check_outside_state_skip v = true) :
    Considered (some v :: L) w ↔ Considered L w := by
  unfold Considered
  constructor
  · rintro ⟨h1, h2⟩
    rcases List.mem_cons.mp h1 with e | e
    · rw [Option.some.injEq] at e
      rw [e, hv] at h2
      exact absurd h2 (by decide)
    · exact ⟨e, h2⟩
  · rintro ⟨h1, h2⟩
    exact ⟨List.mem_cons_of_mem _ h1, h2⟩

theorem considered_cons (L : List (Option GLVolume)) (v w : GLVolume)
    (hv : check_outside_state_skip v = false) :
    Considered (some v :: L) w ↔ w = v ∨ Considered L w := by
  unfold Considered
  constructor
  · rintro ⟨h1, h2⟩
    rcases List.mem_cons.mp h1 with e | e
    · rw [Option.some.injEq] at e
      exact Or.inl e
    · exact Or.inr ⟨e, h2⟩
  · rintro (e | ⟨h1, h2⟩)
    · rw [e]; exact ⟨List.mem_cons_self _ _, hv⟩
    · exact ⟨List.mem_cons_of_mem _ h1, h2⟩

theorem outside_congr (contains intersects : BoundingBoxf3 → BoundingBoxf3 → Bool)
    (pv : BoundingBoxf3) {L1 L2 : List (Option GLVolume)}
    (h : ∀ w, Considered L1 w ↔ Considered L2 w) :
    (AllContained contains pv L1 ↔ AllContained contains pv L2)
      ∧ (SomeProtrudes contains intersects pv L1 ↔ SomeProtrudes contains intersects pv L2) := by
  unfold AllContained SomeProtrudes
  constructor
  · constructor
    · intro a w hw; exact a w ((h w).mpr hw)
    · intro a w hw; exact a w ((h w).mp hw)
  · constructor
    · rintro ⟨w, hw, r⟩; exact ⟨w, (h w).mp hw, r⟩
    · rintro ⟨w, hw, r⟩; exact ⟨w, (h w).mpr hw, r⟩

theorem allContained_nil (contains : BoundingBoxf3 → BoundingBoxf3 → Bool) (pv : BoundingBoxf3) :
    AllContained contains pv [] := by
  intro w hw
  exact absurd hw.1 (List.not_mem_nil _)

theorem not_someProtrudes_nil (contains intersects : BoundingBoxf3 → BoundingBoxf3 → Bool)
    (pv : BoundingBoxf3) : ¬ SomeProtrudes contains intersects pv [] := by
  rintro ⟨w, hw, -⟩
  exact absurd hw.1 (List.not_mem_nil _)

theorem outside_cons_contained (contains intersects : BoundingBoxf3 → BoundingBoxf3 → Bool)
    (pv : BoundingBoxf3) (L : List (Option GLVolume)) (v : GLVolume)
    (hv : check_outside_state_skip v = false)
    (hc : contains pv v.transformed_convex_hull_bounding_box = true) :
    (AllContained contains pv (some v :: L) ↔ AllContained contains pv L)
      ∧ (SomeProtrudes contains intersects pv (some v :: L)
          ↔ SomeProtrudes contains intersects pv L) := by
  unfold AllContained SomeProtrudes
  constructor
  · constructor
    · intro a w hw; exact a w ((considered_cons L v w hv).mpr (Or.inr hw))
    · intro a w hw
      rcases (considered_cons L v w hv).mp hw with e | e
      · rw [e]; exact hc
      · exact a w e
  · constructor
    · rintro ⟨w, hw, r1, r2⟩
      rcases (considered_cons L v w hv).mp hw with e | e
      · rw [e, hc] at r1; exact absurd r1 (by decide)
      · exact ⟨w, e, r1, r2⟩
    · rintro ⟨w, hw, r⟩
      exact ⟨w, (considered_cons L v w hv).mpr (Or.inr hw), r⟩

theorem outside_cons_apart (contains intersects : BoundingBoxf3 → BoundingBoxf3 → Bool)
    (pv : BoundingBoxf3) (L : List (Option GLVolume)) (v : GLVolume)
    (hv : check_outside_state_skip v = false)
    (hc : contains pv v.transformed_convex_hull_bounding_box = false)
    (hi : intersects pv v.transformed_convex_hull_bounding_box = false) :
    ¬ AllContained contains pv (some v :: L)
      ∧ (SomeProtrudes contains intersects pv (some v :: L)
          ↔ SomeProtrudes contains intersects pv L) := by
  unfold AllContained SomeProtrudes
  constructor
  · intro a
    have := a v ((considered_cons L v v hv).mpr (Or.inl rfl))
    rw [hc] at this
    exact absurd this (by decide)
  · constructor
    · rintro ⟨w, hw, r1, r2⟩
      rcases (considered_cons L v w hv).mp hw with e | e
      · rw [e, hi] at r2; exact absurd r2 (by decide)
      · exact ⟨w, e, r1, r2⟩
    · rintro ⟨w, hw, r⟩
      exact ⟨w, (considered_cons L v w hv).mpr (Or.inr hw), r⟩

theorem outside_cons_protrudes (contains intersects : BoundingBoxf3 → BoundingBoxf3 → Bool)
    (pv : BoundingBoxf3) (L : List (Option GLVolume)) (v : GLVolume)
    (hv : check_outside_state_skip v = false)
    (hc : contains pv v.transformed_convex_hull_bounding_box = false)
    (hi : intersects pv v.transformed_convex_hull_bounding_box = true) :
    ¬ AllContained contains pv (some v :: L)
      ∧ SomeProtrudes contains intersects pv (some v :: L) := by
  unfold AllContained SomeProtrudes
  constructor
  · intro a
    have := a v ((considered_cons L v v hv).mpr (Or.inl rfl))
    rw [hc] at this
    exact absurd this (by decide)
  · exact ⟨v, (considered_cons L v v hv).mpr (Or.inl rfl), hc, hi⟩

/-- The state at the end of the loop of `check_outside_state`, from any state at its
start. -/
theorem check_outside_state_loop_state
    (contains intersects : BoundingBoxf3 → BoundingBoxf3 → Bool) (pv : BoundingBoxf3) :
    ∀ (L : List (Option GLVolume)) (s : EPrintVolumeState) (ac cm : Bool),
      (s = .PVS_Partly_Outside →
          (check_outside_state_loop contains intersects pv L s ac cm).state
            = .PVS_Partly_Outside)
      ∧ (s = .PVS_Fully_Outside →
          (SomeProtrudes contains intersects pv L →
            (check_outside_state_loop contains intersects pv L s ac cm).state
              = .PVS_Partly_Outside)
          ∧ (¬ SomeProtrudes contains intersects pv L →
            (check_outside_state_loop contains intersects pv L s ac cm).state
              = .PVS_Fully_Outside))
      ∧ (s = .PVS_Inside →
          (AllContained contains pv L →
            (check_outside_state_loop contains intersects pv L s ac cm).state = .PVS_Inside)
          ∧ (¬ AllContained contains pv L → SomeProtrudes contains intersects pv L →
            (check_outside_state_loop contains intersects pv L s ac cm).state
              = .PVS_Partly_Outside)
          ∧ (¬ AllContained contains pv L → ¬ SomeProtrudes contains intersects pv L →
            (check_outside_state_loop contains intersects pv L s ac cm).state
              = .PVS_Fully_Outside)) := by
  intro L
  induction L with
  | nil =>
    intro s ac cm
    simp only [check_outside_state_loop]
    refine ⟨fun h => h, fun h => ⟨fun e => absurd e (not_someProtrudes_nil _ _ _), fun _ => h⟩,
      fun h => ⟨fun _ => h, fun a => absurd (allContained_nil _ _) a,
        fun a => absurd (allContained_nil _ _) a⟩⟩
  | cons entry rest ih =>
    intro s ac cm
    cases entry with
    | none =>
      obtain ⟨cA, cE⟩ := outside_congr contains intersects pv (considered_cons_none rest)
      simp only [check_outside_state_loop]
      rw [cA, cE]
      exact ih s ac cm
    | some v =>
      by_cases hv : check_outside_state_skip v = true
      · obtain ⟨cA, cE⟩ := outside_congr contains intersects pv
          (fun w => considered_cons_skip rest v w hv)
        simp only [check_outside_state_loop, hv, if_true]
        rw [cA, cE]
        exact ih s ac cm
      · have hv' : check_outside_state_skip v = false := by simpa using hv
        by_cases hc : contains pv v.transformed_convex_hull_bounding_box = true
        · obtain ⟨cA, cE⟩ := outside_cons_contained contains intersects pv rest v hv' hc
          simp only [check_outside_state_loop, hv', hc, Bool.not_true, Bool.false_eq_true,
            and_false, false_and, if_false]
          rw [cA, cE]
          exact ih s _ _
        · have hc' : contains pv v.transformed_convex_hull_bounding_box = false := by
            simpa using hc
          by_cases hi : intersects pv v.transformed_convex_hull_bounding_box = true
          · obtain ⟨nA, yE⟩ := outside_cons_protrudes contains intersects pv rest v hv' hc' hi
            cases s with
            | PVS_Inside =>
              simp only [check_outside_state_loop, hv', hc', hi, Bool.not_false, and_self,
                if_true, Bool.false_eq_true, if_false]
              have := (ih .PVS_Partly_Outside (ac && false) cm).1 rfl
              exact ⟨(fun h => nomatch h), (fun h => nomatch h),
                fun _ => ⟨fun a => absurd a nA, fun _ _ => this, fun _ e => absurd yE e⟩⟩
            | PVS_Fully_Outside =>
              simp only [check_outside_state_loop, hv', hc', hi, Bool.not_false, and_true,
                and_self, if_true, Bool.false_eq_true, if_false, reduceCtorEq, false_and]
              have := (ih .PVS_Partly_Outside (ac && false) cm).1 rfl
              exact ⟨(fun h => nomatch h), fun _ => ⟨fun _ => this, fun e => absurd yE e⟩,
                (fun h => nomatch h)⟩
            | PVS_Partly_Outside =>
              simp only [check_outside_state_loop, hv', hc', hi, Bool.not_false, and_true,
                and_self, if_true, Bool.false_eq_true, if_false, reduceCtorEq, false_and]
              have := (ih .PVS_Partly_Outside (ac && false) cm).1 rfl
              exact ⟨fun _ => this, (fun h => nomatch h), (fun h => nomatch h)⟩
          · have hi' : intersects pv v.transformed_convex_hull_bounding_box = false := by
              simpa using hi
            obtain ⟨nA, cE⟩ := outside_cons_apart contains intersects pv rest v hv' hc' hi'
            cases s with
            | PVS_Inside =>
              simp only [check_outside_state_loop, hv', hc', hi', Bool.not_false, and_self,
                if_true, Bool.false_eq_true, if_false, and_false]
              have := (ih .PVS_Fully_Outside (ac && false) cm).2.1 rfl
              rw [cE]
              exact ⟨(fun h => nomatch h), (fun h => nomatch h),
                fun _ => ⟨fun a => absurd a nA, fun _ e => this.1 e, fun _ e => this.2 e⟩⟩
            | PVS_Fully_Outside =>
              simp only [check_outside_state_loop, hv', hc', hi', Bool.not_false, and_true,
                and_self, if_true, Bool.false_eq_true, if_false, reduceCtorEq, false_and,
                and_false]
              have := (ih .PVS_Fully_Outside (ac && false) cm).2.1 rfl
              rw [cE]
              exact ⟨(fun h => nomatch h), fun _ => this, (fun h => nomatch h)⟩
            | PVS_Partly_Outside =>
              simp only [check_outside_state_loop, hv', hc', hi', Bool.not_false, and_true,
                and_self, if_true, Bool.false_eq_true, if_false, reduceCtorEq, false_and,
                and_false]
              have := (ih .PVS_Partly_Outside (ac && false) cm).1 rfl
              exact ⟨fun _ => this, (fun h => nomatch h), (fun h => nomatch h)⟩

theorem check_outside_state_loop_volumes
    (contains intersects : BoundingBoxf3 → BoundingBoxf3 → Bool) (pv : BoundingBoxf3) :
    ∀ (L : List (Option GLVolume)) (s : EPrintVolumeState) (ac cm : Bool),
      (check_outside_state_loop contains intersects pv L s ac cm).volumes
        = L.map (check_outside_state_flag contains pv) := by
  intro L
  induction L with
  | nil => intro s ac cm; simp [check_outside_state_loop]
  | cons entry rest ih =>
    intro s ac cm
    cases entry with
    | none => simp [check_outside_state_loop, check_outside_state_flag, ih]
    | some v =>
      by_cases hv : check_outside_state_skip v = true
      · simp [check_outside_state_loop, check_outside_state_flag, hv, ih]
      · simp [check_outside_state_loop, check_outside_state_flag, hv, ih]

theorem considered_perm {L1 L2 : List (Option GLVolume)} (h : L1.Perm L2) (w : GLVolume) :
    Considered L1 w ↔ Considered L2 w := by
  unfold Considered
  rw [h.mem_iff]

/-- The state at the end of the loop of `check_outside_state`, which starts in
`PVS_Inside`. -/
theorem check_outside_state_loop_final
    (contains intersects : BoundingBoxf3 → BoundingBoxf3 → Bool) (pv : BoundingBoxf3)
    (L : List (Option GLVolume)) :
    ((check_outside_state_loop contains intersects pv L .PVS_Inside true false).state
          = .PVS_Inside ↔ AllContained contains pv L)
      ∧ ((check_outside_state_loop contains intersects pv L .PVS_Inside true false).state
          = .PVS_Partly_Outside ↔ SomeProtrudes contains intersects pv L)
      ∧ ((check_outside_state_loop contains intersects pv L .PVS_Inside true false).state
          = .PVS_Fully_Outside
            ↔ ¬ AllContained contains pv L ∧ ¬ SomeProtrudes contains intersects pv L) := by
  obtain ⟨k1, k2, k3⟩ :=
    (check_outside_state_loop_state contains intersects pv L .PVS_Inside true false).2.2 rfl
  have hEA : SomeProtrudes contains intersects pv L → ¬ AllContained contains pv L := by
    rintro ⟨w, hw, r1, -⟩ a
    have := a w hw
    rw [r1] at this
    exact absurd this (by decide)
  by_cases hA : AllContained contains pv L
  · have hE : ¬ SomeProtrudes contains intersects pv L := fun e => hEA e hA
    rw [k1 hA]
    simp [hA, hE]
  · by_cases hE : SomeProtrudes contains intersects pv L
    · rw [k2 hA hE]
      simp [hA, hE]
    · rw [k3 hA hE]
      simp [hA, hE]

/-- C24: with a configuration that has a `bed_shape`, the state `check_outside_state` writes
to `out_state` is `PVS_Inside` iff every considered volume is contained in the print volume,
`PVS_Partly_Outside` iff some considered volume is not contained but intersects it, and
`PVS_Fully_Outside` otherwise; it is the same for every order of the volumes; every
considered volume gets `is_outside = !contained` and the others keep their flag. -/
theorem check_outside_state_spec
    (contains intersects : BoundingBoxf3 → BoundingBoxf3 → Bool)
    (bed_extents : List Geometry.Vec2d → Geometry.Vec2d × Geometry.Vec2d)
    (c : GLVolumeCollection) (config : DynamicPrintConfig) (values : List Geometry.Vec2d)
    (old : EPrintVolumeState) (hbed : config.bed_shape = some values) :
    ∃ st, (c.check_outside_state contains intersects bed_extents (some config) (some old)).2.1
        = some st
      ∧ (st = .PVS_Inside
          ↔ AllContained contains (print_volume_of bed_extents config values) c.volumes)
      ∧ (st = .PVS_Partly_Outside
          ↔ SomeProtrudes contains intersects (print_volume_of bed_extents config values)
              c.volumes)
      ∧ (st = .PVS_Fully_Outside
          ↔ ¬ AllContained contains (print_volume_of bed_extents config values) c.volumes
            ∧ ¬ SomeProtrudes contains intersects (print_volume_of bed_extents config values)
                c.volumes)
      ∧ (∀ c' : GLVolumeCollection, c'.volumes.Perm c.volumes →
          (c'.check_outside_state contains intersects bed_extents (some config)
            (some old)).2.1 = some st)
      ∧ (c.check_outside_state contains intersects bed_extents (some config)
            (some old)).2.2.volumes
          = c.volumes.map
              (check_outside_state_flag contains (print_volume_of bed_extents config values)) := by
  have e : ∀ d : GLVolumeCollection,
      d.check_outside_state contains intersects bed_extents (some config) (some old)
        = ((check_outside_state_loop contains intersects
              (print_volume_of bed_extents config values) d.volumes
              .PVS_Inside true false).contained_min_one,
            some (check_outside_state_loop contains intersects
              (print_volume_of bed_extents config values) d.volumes
              .PVS_Inside true false).state,
            ⟨(check_outside_state_loop contains intersects
              (print_volume_of bed_extents config values) d.volumes
              .PVS_Inside true false).volumes⟩) := by
    intro d
    simp only [GLVolumeCollection.check_outside_state, hbed, print_volume_of, Option.map_some']
  obtain ⟨f1, f2, f3⟩ := check_outside_state_loop_final contains intersects
    (print_volume_of bed_extents config values) c.volumes
  refine ⟨_, by rw [e c], f1, f2, f3, ?_, ?_⟩
  · intro c' hp
    obtain ⟨g1, g2, g3⟩ := check_outside_state_loop_final contains intersects
      (print_volume_of bed_extents config values) c'.volumes
    obtain ⟨cA, cE⟩ := outside_congr contains intersects
      (print_volume_of bed_extents config values) (considered_perm hp)
    rw [e c']
    rw [cA] at g1 g3
    rw [cE] at g2 g3
    by_cases hA : AllContained contains (print_volume_of bed_extents config values) c.volumes
    · rw [g1.mpr hA, f1.mpr hA]
    · by_cases hE : SomeProtrudes contains intersects
          (print_volume_of bed_extents config values) c.volumes
      · rw [g2.mpr hE, f2.mpr hE]
      · rw [g3.mpr ⟨hA, hE⟩, f3.mpr ⟨hA, hE⟩]
  · rw [e c]
    exact check_outside_state_loop_volumes _ _ _ _ _ _ _

theorem check_outside_state_spec_witness :
    ∃ st, (fourEntries.check_outside_state box_contains box_intersects sample_bed_extents
          (some squareBedConfig) (some .PVS_Inside)).2.1 = some st
      ∧ (st = .PVS_Inside
          ↔ AllContained box_contains
              (print_volume_of sample_bed_extents squareBedConfig
                [⟨0, 0⟩, ⟨200, 0⟩, ⟨200, 200⟩, ⟨0, 200⟩]) fourEntries.volumes)
      ∧ (st = .PVS_Partly_Outside
          ↔ SomeProtrudes box_contains box_intersects
              (print_volume_of sample_bed_extents squareBedConfig
                [⟨0, 0⟩, ⟨200, 0⟩, ⟨200, 200⟩, ⟨0, 200⟩]) fourEntries.volumes)
      ∧ (st = .PVS_Fully_Outside
          ↔ ¬ AllContained box_contains
                (print_volume_of sample_bed_extents squareBedConfig
                  [⟨0, 0⟩, ⟨200, 0⟩, ⟨200, 200⟩, ⟨0, 200⟩]) fourEntries.volumes
            ∧ ¬ SomeProtrudes box_contains box_intersects
                (print_volume_of sample_bed_extents squareBedConfig
                  [⟨0, 0⟩, ⟨200, 0⟩, ⟨200, 200⟩, ⟨0, 200⟩]) fourEntries.volumes)
      ∧ (∀ c' : GLVolumeCollection, c'.volumes.Perm fourEntries.volumes →
          (c'.check_outside_state box_contains box_intersects sample_bed_extents
            (some squareBedConfig) (some .PVS_Inside)).2.1 = some st)
      ∧ (fourEntries.check_outside_state box_contains box_intersects sample_bed_extents
            (some squareBedConfig) (some .PVS_Inside)).2.2.volumes
          = fourEntries.volumes.map
              (check_outside_state_flag box_contains
                (print_volume_of sample_bed_extents squareBedConfig
                  [⟨0, 0⟩, ⟨200, 0⟩, ⟨200, 200⟩, ⟨0, 200⟩])) :=
  check_outside_state_spec box_contains box_intersects sample_bed_extents fourEntries
    squareBedConfig [⟨0, 0⟩, ⟨200, 0⟩, ⟨200, 200⟩, ⟨0, 200⟩] .PVS_Inside rfl

/-! ### Editing of SLA support points -/

namespace GUI

theorem getElem_append_cons (kept : List CacheEntry) (e : CacheEntry) (t : List CacheEntry)
    (h : kept.length < (kept ++ e :: t).length) : (kept ++ e :: t)[kept.length] = e := by
  induction kept with
  | nil => rfl
  | cons a k ih => exact ih (by simp)

theorem eraseIdx_append_cons (kept : List CacheEntry) (e : CacheEntry) (t : List CacheEntry) :
    (kept ++ e :: t).eraseIdx kept.length = kept ++ t := by
  induction kept with
  | nil => rfl
  | cons a k ih => simp [List.eraseIdx, ih]

theorem unsigned_dec_inc {idx : Nat} (h : idx < 2 ^ 32) :
    ((idx + 2 ^ 32 - 1) % 2 ^ 32 + 1) % 2 ^ 32 = idx := by
  omega

/-- The loop of `delete_selected_points`, started at the index `kept.length` on the cache
`kept ++ todo`, ends at the end of the cache `kept ++` the entries of `todo` that are not
removed, with `m_unsaved_changes` set when an entry was removed. -/
theorem delete_selected_points_loop_spec (lock force : Bool) :
    ∀ (todo kept : List CacheEntry) (fuel : Nat) (u : Bool), todo.length ≤ fuel →
      (kept ++ todo).length < 2 ^ 32 →
      delete_selected_points_loop lock force fuel kept.length (kept ++ todo) u
        = ((kept ++ todo.filter (fun e => !is_deleted lock force e)).length,
            kept ++ todo.filter (fun e => !is_deleted lock force e),
            u || todo.any (is_deleted lock force)) := by
  intro todo
  induction todo with
  | nil =>
    intro kept fuel u _ _
    cases fuel with
    | zero => simp [delete_selected_points_loop]
    | succ f => simp [delete_selected_points_loop]
  | cons e t ih =>
    intro kept fuel u hf hlen
    cases fuel with
    | zero => simp at hf
    | succ f =>
      have hidx : kept.length < (kept ++ e :: t).length := by simp
      have hk : kept.length < 2 ^ 32 := by omega
      rw [delete_selected_points_loop, dif_pos hidx, getElem_append_cons kept e t hidx]
      by_cases hd : is_deleted lock force e = true
      · have hd' : (e.selected
            && (!e.support_point.is_new_island || !lock || force)) = true := hd
        rw [if_pos hd', unsigned_dec_inc hk, eraseIdx_append_cons,
          ih kept f true (by simp at hf; omega) (by simp at hlen ⊢; omega)]
        simp [hd]
      · have hd' : ¬ (e.selected
            && (!e.support_point.is_new_island || !lock || force)) = true := hd
        have hlt : kept.length + 1 < 2 ^ 32 := by simp at hlen; omega
        rw [if_neg hd', Nat.mod_eq_of_lt hlt]
        have e1 : kept ++ e :: t = (kept ++ [e]) ++ t := by simp
        have e2 : kept.length + 1 = (kept ++ [e]).length := by simp
        rw [e1, e2, ih (kept ++ [e]) f u (by simp at hf; omega) (by simp at hlen ⊢; omega)]
        simp [hd]

theorem select_point_NoPoints (g : GLGizmoSlaSupports) :
    g.select_point NoPoints = some { g with
      m_editing_mode_cache := g.m_editing_mode_cache.map (fun e => { e with selected := false })
      m_selection_empty := true } := by
  simp [GLGizmoSlaSupports.select_point, NoPoints, AllPoints]

/-- C26: for a cache of fewer than `2^32` entries `delete_selected_points(force)` leaves exactly
the entries that were not (selected and (not `is_new_island` or not `m_lock_unique_islands` or
`force`)), in their order and unselected; `m_selection_empty` is true afterwards;
`m_unsaved_changes` is true if an entry was removed and is unchanged otherwise; the loop ends
with its counter at the end of the cache, the counter having wrapped through `2^32 - 1` for
every entry removed at index 0. -/
theorem delete_selected_points_spec (g : GLGizmoSlaSupports) (force : Bool)
    (hlen : g.m_editing_mode_cache.length < 2 ^ 32) :
    ∃ g', g.delete_selected_points force = some g'
      ∧ g'.m_editing_mode_cache
          = (g.m_editing_mode_cache.filter (fun e =>
              !(e.selected
                && (!e.support_point.is_new_island || !g.m_lock_unique_islands || force)))).map
              (fun e => { e with selected := false })
      ∧ g'.m_selection_empty = true
      ∧ ((∃ e ∈ g.m_editing_mode_cache, (e.selected
            && (!e.support_point.is_new_island || !g.m_lock_unique_islands || force)) = true)
          → g'.m_unsaved_changes = true)
      ∧ ((¬ ∃ e ∈ g.m_editing_mode_cache, (e.selected
            && (!e.support_point.is_new_island || !g.m_lock_unique_islands || force)) = true)
          → g'.m_unsaved_changes = g.m_unsaved_changes)
      ∧ (delete_selected_points_loop g.m_lock_unique_islands force
            g.m_editing_mode_cache.length 0 g.m_editing_mode_cache g.m_unsaved_changes).1
          = g'.m_editing_mode_cache.length
      ∧ ((0 + 2 ^ 32 - 1) % 2 ^ 32 = 2 ^ 32 - 1 ∧ (2 ^ 32 - 1 + 1) % 2 ^ 32 = 0) := by
  have key := delete_selected_points_loop_spec g.m_lock_unique_islands force
    g.m_editing_mode_cache [] g.m_editing_mode_cache.length g.m_unsaved_changes (le_refl _)
    (by simpa using hlen)
  simp only [List.nil_append, List.length_nil] at key
  refine ⟨_, by
    unfold GLGizmoSlaSupports.delete_selected_points
    rw [key]
    exact select_point_NoPoints _, ?_, rfl, ?_, ?_, ?_, by decide⟩
  · rfl
  · rintro ⟨e, he, hd⟩
    show (g.m_unsaved_changes
      || g.m_editing_mode_cache.any (is_deleted g.m_lock_unique_islands force)) = true
    rw [Bool.or_eq_true]
    right
    exact List.any_eq_true.mpr ⟨e, he, hd⟩
  · intro hno
    show (g.m_unsaved_changes
      || g.m_editing_mode_cache.any (is_deleted g.m_lock_unique_islands force))
        = g.m_unsaved_changes
    have : g.m_editing_mode_cache.any (is_deleted g.m_lock_unique_islands force) = false := by
      rw [Bool.eq_false_iff]
      intro h
      obtain ⟨e, he, hd⟩ := List.any_eq_true.mp h
      exact hno ⟨e, he, hd⟩
    rw [this, Bool.or_false]
  · rw [key]
    simp [is_deleted]

theorem delete_selected_points_spec_witness :
    ∃ g', threePointGizmo.delete_selected_points false = some g'
      ∧ g'.m_editing_mode_cache
          = (threePointGizmo.m_editing_mode_cache.filter (fun e =>
              !(e.selected && (!e.support_point.is_new_island
                || !threePointGizmo.m_lock_unique_islands || false)))).map
              (fun e => { e with selected := false })
      ∧ g'.m_selection_empty = true
      ∧ ((∃ e ∈ threePointGizmo.m_editing_mode_cache, (e.selected
            && (!e.support_point.is_new_island || !threePointGizmo.m_lock_unique_islands
              || false)) = true)
          → g'.m_unsaved_changes = true)
      ∧ ((¬ ∃ e ∈ threePointGizmo.m_editing_mode_cache, (e.selected
            && (!e.support_point.is_new_island || !threePointGizmo.m_lock_unique_islands
              || false)) = true)
          → g'.m_unsaved_changes = threePointGizmo.m_unsaved_changes)
      ∧ (delete_selected_points_loop threePointGizmo.m_lock_unique_islands false
            threePointGizmo.m_editing_mode_cache.length 0 threePointGizmo.m_editing_mode_cache
            threePointGizmo.m_unsaved_changes).1
          = g'.m_editing_mode_cache.length
      ∧ ((0 + 2 ^ 32 - 1) % 2 ^ 32 = 2 ^ 32 - 1 ∧ (2 ^ 32 - 1 + 1) % 2 ^ 32 = 0) :=
  delete_selected_points_spec threePointGizmo false (by decide)

theorem cache_of_points_support (points : List sla.SupportPoint) :
    (cache_of_points points).map (fun e => e.support_point) = points := by
  unfold cache_of_points
  rw [List.map_map]
  exact List.map_id _

theorem cache_of_points_unselected (points : List sla.SupportPoint) :
    ∀ e ∈ cache_of_points points, e.selected = false := by
  intro e he
  unfold cache_of_points at he
  obtain ⟨p, -, rfl⟩ := List.mem_map.mp he
  rfl

/-- C25 (amended): `editing_mode_apply_changes` leaves the model object (support points and
status) as it is when `m_unsaved_changes` is false; when it is true the support points become
those of the editing cache, in cache order, and the status `UserModified`.  In both cases
`m_editing_mode` and `m_unsaved_changes` are false afterwards and the cache is untouched, and
a following `editing_mode_reload_cache` yields a cache holding the support points of the model
object, all unselected: with unsaved changes these are the points the cache held, without
unsaved changes they are the points the cache held exactly when the cache held the points of
the model object. -/
theorem editing_mode_apply_changes_spec (g : GLGizmoSlaSupports) :
    (g.m_unsaved_changes = false →
        g.editing_mode_apply_changes.m_model_object = g.m_model_object
        ∧ g.editing_mode_apply_changes.reslice_requests = g.reslice_requests)
      ∧ (g.m_unsaved_changes = true →
        g.editing_mode_apply_changes.m_model_object.sla_support_points
            = g.m_editing_mode_cache.map (fun e => e.support_point)
        ∧ g.editing_mode_apply_changes.m_model_object.sla_points_status = .UserModified)
      ∧ g.editing_mode_apply_changes.m_editing_mode = false
      ∧ g.editing_mode_apply_changes.m_unsaved_changes = false
      ∧ g.editing_mode_apply_changes.m_editing_mode_cache = g.m_editing_mode_cache
      ∧ (g.editing_mode_apply_changes.editing_mode_reload_cache.m_editing_mode_cache.map
            (fun e => e.support_point)
          = g.editing_mode_apply_changes.m_model_object.sla_support_points)
      ∧ (∀ e ∈ g.editing_mode_apply_changes.editing_mode_reload_cache.m_editing_mode_cache,
          e.selected = false)
      ∧ (g.m_unsaved_changes = true →
          g.editing_mode_apply_changes.editing_mode_reload_cache.m_editing_mode_cache.map
              (fun e => e.support_point)
            = g.m_editing_mode_cache.map (fun e => e.support_point))
      ∧ (g.m_unsaved_changes = false →
          (g.editing_mode_apply_changes.editing_mode_reload_cache.m_editing_mode_cache.map
              (fun e => e.support_point)
            = g.m_editing_mode_cache.map (fun e => e.support_point)
          ↔ g.m_model_object.sla_support_points
            = g.m_editing_mode_cache.map (fun e => e.support_point)))
      ∧ g.editing_mode_apply_changes.editing_mode_reload_cache.m_unsaved_changes = false
      ∧ g.editing_mode_apply_changes.editing_mode_reload_cache.m_editing_mode = false := by
  have e1 : g.editing_mode_apply_changes.editing_mode_reload_cache.m_editing_mode_cache.map
      (fun e => e.support_point)
        = g.editing_mode_apply_changes.m_model_object.sla_support_points :=
    cache_of_points_support _
  refine ⟨?_, ?_, ?_, ?_, ?_, ?_, ?_, ?_, ?_, ?_, ?_⟩
  · intro h
    simp [GLGizmoSlaSupports.editing_mode_apply_changes, h]
  · intro h
    simp [GLGizmoSlaSupports.editing_mode_apply_changes, h]
  · rfl
  · rfl
  · cases h : g.m_unsaved_changes <;> simp [GLGizmoSlaSupports.editing_mode_apply_changes, h]
  · exact e1
  · exact cache_of_points_unselected _
  · intro h
    rw [e1]
    simp [GLGizmoSlaSupports.editing_mode_apply_changes, h]
  · intro h
    rw [e1]
    simp [GLGizmoSlaSupports.editing_mode_apply_changes, h]
  · rfl
  · rfl

/-- C25 as stated fails when the cache was taken from the backend: after
`get_data_from_backend` and `switch_to_editing_mode` the cache holds the two generated points
and the model object none; without unsaved changes `editing_mode_apply_changes` leaves the
model object alone, and a following `editing_mode_reload_cache` empties the cache. -/
theorem apply_changes_reload_drops_backend_points :
    backendGizmo.m_unsaved_changes = false
      ∧ backendGizmo.m_editing_mode = true
      ∧ backendGizmo.m_model_object.sla_points_status = .AutoGenerated
      ∧ backendGizmo.m_editing_mode_cache.map (fun e => e.support_point)
          = [⟨⟨0, 0, 0⟩, 1 / 5, true⟩, ⟨⟨1, 0, 0⟩, 1 / 5, false⟩]
      ∧ backendGizmo.editing_mode_apply_changes.m_model_object.sla_support_points = []
      ∧ backendGizmo.editing_mode_apply_changes.m_editing_mode_cache.length = 2
      ∧ backendGizmo.editing_mode_apply_changes.editing_mode_reload_cache.m_editing_mode_cache
          = [] := by
  refine ⟨rfl, rfl, rfl, rfl, rfl, rfl, rfl⟩

theorem unselect_point_scan_spec : ∀ (cache : List CacheEntry),
    unselect_point_scan cache true = true ↔ ∀ e ∈ cache, e.selected = false := by
  intro cache
  induction cache with
  | nil => simp [unselect_point_scan]
  | cons ce rest ih =>
    cases h : ce.selected
    · simp [unselect_point_scan, h, ih]
    · simp [unselect_point_scan, h]

/-- The operations that keep the flag `m_selection_empty` true to the cache: `select_point`
with a valid index, with `NoPoints`, and with `AllPoints` on a cache that is not empty,
`unselect_point` with a valid index, `delete_selected_points`, and the placing of a point in
`gizmo_event`. -/
theorem selection_invariant_kept (g : GLGizmoSlaSupports) :
    (∀ i : Int, 0 ≤ i → i.toNat < g.m_editing_mode_cache.length →
        ∃ g', g.select_point i = some g' ∧ SelectionInvariant g')
      ∧ (∃ g', g.select_point NoPoints = some g' ∧ SelectionInvariant g')
      ∧ (g.m_editing_mode_cache ≠ [] →
        ∃ g', g.select_point AllPoints = some g' ∧ SelectionInvariant g')
      ∧ (∀ i : Int, 0 ≤ i → i.toNat < g.m_editing_mode_cache.length →
        ∃ g', g.unselect_point i = some g' ∧ SelectionInvariant g')
      ∧ (∀ force, g.m_editing_mode_cache.length < 2 ^ 32 →
        ∃ g', g.delete_selected_points force = some g' ∧ SelectionInvariant g')
      ∧ (SelectionInvariant g → ∀ pn, ∃ r, g.gizmo_event_place_point pn = some r
          ∧ SelectionInvariant r.2) := by
  refine ⟨?_, ?_, ?_, ?_, ?_, ?_⟩
  · intro i h0 hi
    have hne : ¬ (i = AllPoints ∨ i = NoPoints) := by
      unfold AllPoints NoPoints; omega
    have hget : g.m_editing_mode_cache[i.toNat]? = some g.m_editing_mode_cache[i.toNat] :=
      List.getElem?_eq_getElem hi
    refine ⟨_, by
      unfold GLGizmoSlaSupports.select_point
      rw [if_neg hne, if_pos h0, hget], ?_⟩
    unfold SelectionInvariant
    simp only [Bool.false_eq_true, false_iff, not_forall]
    refine ⟨{ g.m_editing_mode_cache[i.toNat] with selected := true }, ?_, by simp⟩
    rw [List.mem_iff_getElem]
    exact ⟨i.toNat, by simpa using hi, by simp⟩
  · refine ⟨_, select_point_NoPoints g, ?_⟩
    unfold SelectionInvariant
    simp
  · intro hne
    cases hc : g.m_editing_mode_cache with
    | nil => exact absurd hc hne
    | cons a t =>
      refine ⟨_, by
        unfold GLGizmoSlaSupports.select_point
        simp [AllPoints, NoPoints, hc]
        rfl, ?_⟩
      unfold SelectionInvariant
      simp [AllPoints, NoPoints]
  · intro i h0 hi
    have hget : g.m_editing_mode_cache[i.toNat]? = some g.m_editing_mode_cache[i.toNat] :=
      List.getElem?_eq_getElem hi
    refine ⟨_, by
      unfold GLGizmoSlaSupports.unselect_point
      rw [if_pos h0, hget], ?_⟩
    unfold SelectionInvariant
    exact unselect_point_scan_spec _
  · intro force hlen
    have key := delete_selected_points_loop_spec g.m_lock_unique_islands force
      g.m_editing_mode_cache [] g.m_editing_mode_cache.length g.m_unsaved_changes (le_refl _)
      (by simpa using hlen)
    refine ⟨_, by
      unfold GLGizmoSlaSupports.delete_selected_points
      exact select_point_NoPoints _, ?_⟩
    unfold SelectionInvariant
    simp
  · intro hinv pn
    unfold SelectionInvariant at hinv
    cases hs : g.m_selection_empty
    · refine ⟨_, by
        unfold GLGizmoSlaSupports.gizmo_event_place_point
        rw [hs, select_point_NoPoints]
        simp only [Bool.false_eq_true, if_false, Option.map_some']
        rfl, ?_⟩
      unfold SelectionInvariant
      simp
    · have hall := hinv.mp hs
      cases pn with
      | none =>
        refine ⟨_, by
          unfold GLGizmoSlaSupports.gizmo_event_place_point
          rw [hs]
          simp only [if_true]
          rfl, ?_⟩
        unfold SelectionInvariant
        simp only [hs, true_iff]
        exact hall
      | some p =>
        refine ⟨_, by
          unfold GLGizmoSlaSupports.gizmo_event_place_point
          rw [hs]
          simp only [if_true]
          rfl, ?_⟩
        unfold SelectionInvariant
        simp only [hs, true_iff, List.mem_append, List.mem_singleton]
        rintro e (he | he)
        · exact hall e he
        · rw [he]

/-- C27 (the code at failing inputs): after `select_point(0)` in `backendGizmo` the flag
`m_selection_empty` is false, as it should; `editing_mode_discard_changes` and
`editing_mode_reload_cache` then replace the cache by unselected entries and leave the flag
false, so that the flag is false although no entry is selected.  The same happens from
`threePointGizmo`.  And `select_point(AllPoints)` on an empty cache reads
`m_editing_mode_cache[0]` out of bounds. -/
theorem selection_flag_stale :
    SelectionInvariant backendGizmo
      ∧ (∃ g, backendGizmo.select_point 0 = some g
          ∧ SelectionInvariant g
          ∧ g.m_selection_empty = false
          ∧ g.editing_mode_discard_changes.m_editing_mode_cache.length = 2
          ∧ (∀ e ∈ g.editing_mode_discard_changes.m_editing_mode_cache, e.selected = false)
          ∧ g.editing_mode_discard_changes.m_selection_empty = false
          ∧ ¬ SelectionInvariant g.editing_mode_discard_changes
          ∧ (∀ e ∈ g.editing_mode_reload_cache.m_editing_mode_cache, e.selected = false)
          ∧ g.editing_mode_reload_cache.m_selection_empty = false
          ∧ ¬ SelectionInvariant g.editing_mode_reload_cache)
      ∧ SelectionInvariant threePointGizmo
      ∧ threePointGizmo.editing_mode_reload_cache.m_editing_mode_cache.length = 1
      ∧ (∀ e ∈ threePointGizmo.editing_mode_reload_cache.m_editing_mode_cache,
          e.selected = false)
      ∧ threePointGizmo.editing_mode_reload_cache.m_selection_empty = false
      ∧ ¬ SelectionInvariant threePointGizmo.editing_mode_reload_cache
      ∧ (∀ e ∈ threePointGizmo.editing_mode_discard_changes.m_editing_mode_cache,
          e.selected = false)
      ∧ threePointGizmo.editing_mode_discard_changes.m_selection_empty = false
      ∧ ¬ SelectionInvariant threePointGizmo.editing_mode_discard_changes
      ∧ SelectionInvariant emptyCacheGizmo
      ∧ emptyCacheGizmo.select_point AllPoints = none := by
  refine ⟨by decide, ⟨_, rfl, by decide, rfl, rfl, by decide, rfl, by decide, by decide, rfl,
    by decide⟩, by decide, rfl, by decide, rfl, by decide, by decide, rfl, by decide,
    by decide, rfl⟩

end GUI

end Slic3r
